import Mathlib

/-!
Decision-tree classifier (`main.go`): shallow embedding and verified properties.

Modelling conventions:

* A Go `map[K]V` is an association list `GoMap K V` whose entries are listed in the
  order in which a `range` statement visits them.  Keys of a well-formed map are
  pairwise distinct (`GoMap.WF`).  Assigning to a key that is present overwrites the
  entry in place, assigning to a fresh key appends an entry, `delete` removes the
  entry.  Reading a missing key yields the zero value of the value type, which is
  passed explicitly to `GoMap.getD`.
* Go maps are references.  Functions that mutate their map arguments (`SplitDataset`,
  `BuildTree`) are embedded in state-passing style: they return the contents of the
  maps after the call, and the caller continues with those contents.  Distinct books
  are assumed to own distinct attribute maps.
* `int` is `Int` (no overflow occurs on the counters of this program), `[]T` is `List T`.
* `float64` has two models.  `B64` is IEEE 754 binary64: NaN and the two infinities are
  explicit, finite values are rational numbers, and every operation rounds its exact
  result to the nearest binary64 number, ties to even (`B64.rn`); `math.Log2` and
  `math.Log` are the portable implementations of package `math` (`B64.log2`, `B64.log`),
  each of their operations rounded on its own.  The namespace `Binary64` holds the
  entropy calculator and the gain-ratio evaluator over `B64`.  `F64` is the idealisation
  in which finite values are exact real numbers (no rounding, no overflow): it carries
  the properties that do not depend on rounding and the statements that are explicitly
  about exact arithmetic, and it is the type of the values that the tree builder
  compares.  In both models the sign of zero is not tracked (every zero divisor in this
  program is the conversion of a length, hence `+0`).
* `*Node` is a finite tree `Node`; a `nil` pointer is not representable.
-/

namespace Classification

/-! ## Go maps -/

/-- Association-list model of a Go map, entries in iteration order. -/
abbrev GoMap (K V : Type) := List (K × V)

namespace GoMap

variable {K V : Type} [DecidableEq K]

/-- The keys, in iteration order. -/
def keys (m : GoMap K V) : List K := m.map Prod.fst

/-- Well-formedness: no key occurs twice. -/
def WF (m : GoMap K V) : Prop := (keys m).Nodup

instance (m : GoMap K V) : Decidable (WF m) := inferInstanceAs (Decidable (keys m).Nodup)

/-- Lookup `m[k]` as an option. -/
def get? : GoMap K V → K → Option V
  | [], _ => none
  | (k', v) :: m, k => if k' = k then some v else get? m k

/-- Lookup `m[k]`, the zero value `d` when the key is missing. -/
def getD (m : GoMap K V) (k : K) (d : V) : V := (get? m k).getD d

/-- Assignment `m[k] = v`. -/
def set : GoMap K V → K → V → GoMap K V
  | [], k, v => [(k, v)]
  | (k', v') :: m, k, v => if k' = k then (k, v) :: m else (k', v') :: set m k v

/-- Builtin `delete(m, k)`. -/
def delete (m : GoMap K V) (k : K) : GoMap K V := m.filter (fun e => decide (e.1 ≠ k))

/-- Builtin `len(m)`. -/
def len (m : GoMap K V) : Nat := m.length

end GoMap

/-! ## Data model -/

/-- Go `type Book struct { Attribites map[string]string }`. -/
structure Book where
  Attribites : GoMap String String
  deriving DecidableEq, Repr

/-- Go `type Node struct`, with the children as a list of subtrees. -/
inductive Node where
  | mk (Attribute : String) (Value : String) (Children : List Node) (IsLeaf : Bool)
      (Classification : Int) : Node
  deriving Repr

namespace Node

/-- Field `Attribute`. -/
def Attribute : Node → String
  | mk a _ _ _ _ => a

/-- Field `Value`. -/
def Value : Node → String
  | mk _ v _ _ _ => v

/-- Field `Children`. -/
def Children : Node → List Node
  | mk _ _ cs _ _ => cs

/-- Field `IsLeaf`. -/
def IsLeaf : Node → Bool
  | mk _ _ _ l _ => l

/-- Field `Classification`. -/
def Classification : Node → Int
  | mk _ _ _ _ c => c

/-- Assignment `child.Value = val`. -/
def setValue : Node → String → Node
  | mk a _ cs l c, val => mk a val cs l c

/-- Statement `newNode.Children = append(newNode.Children, child)`. -/
def appendChild : Node → Node → Node
  | mk a v cs l c, child => mk a v (cs ++ [child]) l c

end Node

/-! ## Attribute splitter -/

/-- Go `Split`: ranges over `books`, keeping the books whose attribute equals `value`
and appending their ratings. -/
def Split (attr : String) (rates : GoMap Int Int) (books : GoMap Int Book)
    (value : String) : GoMap Int Book × List Int :=
  books.foldl
    (fun acc e =>
      if e.2.Attribites.getD attr "" = value then
        (acc.1.set e.1 e.2, acc.2 ++ [rates.getD e.1 0])
      else acc)
    ([], [])

/-! ## Predictor -/

mutual
/-- Go `Predict`. -/
def Predict : Node → Book → Int
  | Node.mk a _ cs l c, book =>
    if l then c else PredictChildren cs (book.Attribites.getD a "") book
/-- The loop `for _, child := range node.Children` of `Predict`, with the final
`return 0`. -/
def PredictChildren : List Node → String → Book → Int
  | [], _, _ => 0
  | child :: rest, value, book =>
    if child.Value = value then Predict child book else PredictChildren rest value book
end

/-! ## float64 -/

/-- Values of `float64` as NaN, the infinities and real numbers, with exact arithmetic on
the finite values (no rounding); comparisons are those of Go. -/
inductive F64 where
  | nan : F64
  | posInf : F64
  | negInf : F64
  | fin (x : ℝ) : F64

namespace F64

/-- Conversion `float64(n)` of an `int`. -/
noncomputable def ofInt (n : Int) : F64 := fin (n : ℝ)

/-- Unary minus. -/
noncomputable def neg : F64 → F64
  | nan => nan
  | posInf => negInf
  | negInf => posInf
  | fin x => fin (-x)

/-- Go `a + b`. -/
noncomputable def add : F64 → F64 → F64
  | nan, _ => nan
  | _, nan => nan
  | posInf, negInf => nan
  | negInf, posInf => nan
  | posInf, _ => posInf
  | _, posInf => posInf
  | negInf, _ => negInf
  | _, negInf => negInf
  | fin x, fin y => fin (x + y)

/-- Go `a - b`. -/
noncomputable def sub (a b : F64) : F64 := add a (neg b)

/-- Product of an infinity with the finite value `x`; `pos` tells the sign of the
infinity. -/
noncomputable def infTimes (pos : Bool) (x : ℝ) : F64 :=
  if x = 0 then nan
  else if 0 < x then (if pos then posInf else negInf)
  else (if pos then negInf else posInf)

/-- Go `a * b`. -/
noncomputable def mul : F64 → F64 → F64
  | nan, _ => nan
  | _, nan => nan
  | posInf, posInf => posInf
  | posInf, negInf => negInf
  | negInf, posInf => negInf
  | negInf, negInf => posInf
  | posInf, fin y => infTimes true y
  | negInf, fin y => infTimes false y
  | fin x, posInf => infTimes true x
  | fin x, negInf => infTimes false x
  | fin x, fin y => fin (x * y)

/-- Go `a / b`; a zero divisor is `+0`. -/
noncomputable def div : F64 → F64 → F64
  | nan, _ => nan
  | _, nan => nan
  | posInf, posInf => nan
  | posInf, negInf => nan
  | negInf, posInf => nan
  | negInf, negInf => nan
  | posInf, fin y => if y < 0 then negInf else posInf
  | negInf, fin y => if y < 0 then posInf else negInf
  | fin _, posInf => fin 0
  | fin _, negInf => fin 0
  | fin x, fin y =>
    if y = 0 then (if x = 0 then nan else if 0 < x then posInf else negInf)
    else fin (x / y)

/-- Go `math.Log2`. -/
noncomputable def log2 : F64 → F64
  | nan => nan
  | posInf => posInf
  | negInf => nan
  | fin x => if x < 0 then nan else if x = 0 then negInf else fin (Real.logb 2 x)

/-- Go `a > b`. -/
def gt : F64 → F64 → Prop
  | nan, _ => False
  | _, nan => False
  | posInf, posInf => False
  | posInf, _ => True
  | _, posInf => False
  | negInf, _ => False
  | fin _, negInf => True
  | fin x, fin y => y < x

/-- Go `a == b`. -/
def eq : F64 → F64 → Prop
  | nan, _ => False
  | _, nan => False
  | posInf, posInf => True
  | negInf, negInf => True
  | fin x, fin y => x = y
  | _, _ => False

/-- Go `a != b`. -/
def ne (a b : F64) : Prop := ¬ eq a b

noncomputable instance (a b : F64) : Decidable (gt a b) := Classical.propDecidable _

noncomputable instance (a b : F64) : Decidable (eq a b) := Classical.propDecidable _

noncomputable instance (a b : F64) : Decidable (ne a b) := Classical.propDecidable _

end F64

/-! ## Entropy calculator -/

/-- The first loop of `InfoD` and of `majorityClass`: `m[label]++` for every label. -/
def countLabels (labels : List Int) : GoMap Int Int :=
  labels.foldl (fun m label => m.set label (m.getD label 0 + 1)) []

/-- Go `InfoD`. -/
noncomputable def InfoD (labels : List Int) : F64 :=
  (countLabels labels).foldl
    (fun entropy e =>
      let probability := F64.div (F64.ofInt e.2) (F64.ofInt labels.length)
      F64.sub entropy (F64.mul probability (F64.log2 probability)))
    (F64.fin 0)

/-! ## Gain-ratio evaluator -/

/-- Go `InfoAD`. -/
noncomputable def InfoAD (attr : String) (rates : GoMap Int Int) (books : GoMap Int Book)
    (attrVals : List String) : F64 :=
  attrVals.foldl
    (fun info val =>
      let sl := Split attr rates books val
      let prob := F64.div (F64.ofInt sl.1.len) (F64.ofInt rates.len)
      F64.add info (F64.mul prob (InfoD sl.2)))
    (F64.fin 0)

/-- Go `SplitInfoAD`. -/
noncomputable def SplitInfoAD (attr : String) (rates : GoMap Int Int) (books : GoMap Int Book)
    (attrVals : List String) : F64 :=
  attrVals.foldl
    (fun splitInfo val =>
      let sl := Split attr rates books val
      let prob := F64.div (F64.ofInt sl.1.len) (F64.ofInt rates.len)
      F64.sub splitInfo
        (F64.mul prob (F64.log2 (F64.div (F64.ofInt sl.1.len) (F64.ofInt rates.len)))))
    (F64.fin 0)

/-- The first loop of `CalculateGainRatios`: fills `gains` and `splitInfos`. -/
noncomputable def gainsAndSplitInfos (rates : GoMap Int Int) (books : GoMap Int Book)
    (attrValues : GoMap String (List String)) (ent : F64) :
    GoMap String F64 × GoMap String F64 :=
  attrValues.foldl
    (fun acc e =>
      (acc.1.set e.1 (F64.sub ent (InfoAD e.1 rates books (attrValues.getD e.1 []))),
       acc.2.set e.1 (SplitInfoAD e.1 rates books (attrValues.getD e.1 []))))
    ([], [])

/-- Go `CalculateGainRatios`. -/
noncomputable def CalculateGainRatios (rates : GoMap Int Int) (books : GoMap Int Book)
    (attrValues : GoMap String (List String)) : GoMap String F64 :=
  let labels := rates.map Prod.snd
  let ent := InfoD labels
  let gs := gainsAndSplitInfos rates books attrValues ent
  gs.1.foldl
    (fun gainRatios e =>
      if F64.ne (gs.2.getD e.1 (F64.fin 0)) (F64.fin 0) then
        gainRatios.set e.1 (F64.div (gs.1.getD e.1 (F64.fin 0)) (gs.2.getD e.1 (F64.fin 0)))
      else gainRatios.set e.1 (F64.fin 0))
    []

/-- Go `GetBest`. -/
noncomputable def GetBest (ratios : GoMap String F64) : String × F64 :=
  ratios.foldl (fun acc e => if F64.gt e.2 acc.2 then (e.1, e.2) else acc) ("", F64.fin 0)

/-- Go `majorityClass`; the pair is `(maxCount, majority)`. -/
def majorityClass (labels : List Int) : Int :=
  ((countLabels labels).foldl
    (fun acc e => if e.2 > acc.1 then (e.2, e.1) else acc) ((-1 : Int), (-1 : Int))).2

/-! ## Tree builder -/

/-- Go `SplitDataset`: the loop ranges over the entries of `books` and mutates `rates`,
`books` and the attribute maps of the retained books in place; the result is the
content of `rates` and `books` afterwards (the returned maps are the arguments
themselves). -/
def SplitDataset (bestAttribute : String) (val : String) (rates : GoMap Int Int)
    (books : GoMap Int Book) : GoMap Int Int × GoMap Int Book :=
  books.foldl
    (fun acc e =>
      if e.2.Attribites.getD bestAttribute "" = val then
        (acc.1, acc.2.set e.1 ⟨e.2.Attribites.delete bestAttribute⟩)
      else (acc.1.delete e.1, acc.2.delete e.1))
    (rates, books)

/-- Contents of the three maps `BuildTree` receives by reference. -/
structure Store where
  rates : GoMap Int Int
  books : GoMap Int Book
  attrValues : GoMap String (List String)

/-- The loop `for _, val := range attrValues[bestAttribute]` of `BuildTree`; `build` is
the recursive call, `newNode` the node under construction and `st` the current
contents of the three maps. -/
def buildChildren (build : Store → Option (Node × Store)) (bestAttribute : String) :
    List String → Node → Store → Option (Node × Store)
  | [], newNode, st => some (newNode, st)
  | val :: rest, newNode, st =>
    let sub := SplitDataset bestAttribute val st.rates st.books
    match build ⟨sub.1, sub.2, st.attrValues.delete bestAttribute⟩ with
    | none => none
    | some (child, next) =>
      buildChildren build bestAttribute rest (newNode.appendChild (child.setValue val)) next

/-- Go `BuildTree` with a recursion budget: returns the node together with the contents
of the three argument maps when the call returns, `none` when the budget is used up. -/
noncomputable def BuildTreeFuel : Nat → Store → Option (Node × Store)
  | 0, _ => none
  | fuel + 1, st =>
    let ratios := CalculateGainRatios st.rates st.books st.attrValues
    let labels := st.rates.map Prod.snd
    let bg := GetBest ratios
    if F64.eq bg.2 (F64.fin 0) then
      some (Node.mk "" "" [] true (majorityClass labels), st)
    else
      buildChildren (BuildTreeFuel fuel) bg.1 (st.attrValues.getD bg.1 [])
        (Node.mk bg.1 "" [] false 0) st

/-- Go `BuildTree`: node and final contents of the argument maps.  The budget exceeds
the number of attributes, which bounds the recursion depth (`BuildTreeFuel_returns`). -/
noncomputable def BuildTree (st : Store) : Option (Node × Store) :=
  BuildTreeFuel (st.attrValues.len + 1) st

/-! ## Evaluator -/

/-- The counting loop of `Classify`. -/
def countCorrect (root : Node) (rates : GoMap Int Int) (books : GoMap Int Book) : Int :=
  books.foldl (fun sum e => if Predict root e.2 = rates.getD e.1 0 then sum + 1 else sum) 0

/-- Go `Classify`. -/
noncomputable def Classify (root : Node) (rates : GoMap Int Int) (books : GoMap Int Book) :
    F64 :=
  F64.div (F64.ofInt (countCorrect root rates books)) (F64.ofInt books.len)

/-! ## Tree measures -/

mutual
/-- Depth of a tree: the greatest number of internal nodes on a path from the root. -/
def Node.depth : Node → Nat
  | Node.mk _ _ cs l _ => if l then 0 else depthList cs + 1
/-- Greatest depth among a list of subtrees. -/
def depthList : List Node → Nat
  | [] => 0
  | c :: cs => max (Node.depth c) (depthList cs)
end

/-! ## Quantities named by the specification of the gain-ratio evaluator -/

/-- Information gain of `key`: `InfoD(all labels) - InfoAD(key)`. -/
noncomputable def gainOf (rates : GoMap Int Int) (books : GoMap Int Book)
    (attrValues : GoMap String (List String)) (key : String) : F64 :=
  F64.sub (InfoD (rates.map Prod.snd)) (InfoAD key rates books (attrValues.getD key []))

/-- Split information of `key`: `SplitInfoAD(key)`. -/
noncomputable def splitInfoOf (rates : GoMap Int Int) (books : GoMap Int Book)
    (attrValues : GoMap String (List String)) (key : String) : F64 :=
  SplitInfoAD key rates books (attrValues.getD key [])

/-- Gain ratio of `key`: gain divided by split information, and 0 when the split
information compares equal to 0. -/
noncomputable def ratioOf (rates : GoMap Int Int) (books : GoMap Int Book)
    (attrValues : GoMap String (List String)) (key : String) : F64 :=
  if F64.ne (splitInfoOf rates books attrValues key) (F64.fin 0) then
    F64.div (gainOf rates books attrValues key) (splitInfoOf rates books attrValues key)
  else F64.fin 0

/-! ## Concrete datasets -/

/-- Two books told apart by `genre`, rated 5 and 1. -/
def twoBooks : Store :=
  ⟨[(1, 5), (2, 1)],
   [(1, ⟨[("genre", "fiction")]⟩), (2, ⟨[("genre", "romance")]⟩)],
   [("genre", ["fiction", "romance"])]⟩

/-- Book A of the end-to-end scenario of the specification. -/
def bookA : Book := ⟨[("genre", "fiction"), ("length", "Short")]⟩

/-- Book B of the end-to-end scenario of the specification. -/
def bookB : Book := ⟨[("genre", "romance"), ("length", "Long")]⟩

/-- The end-to-end scenario: A rated 5 and B rated 1, each present twice. -/
def endToEnd : Store :=
  ⟨[(1, 5), (2, 1), (3, 5), (4, 1)],
   [(1, bookA), (2, bookB), (3, bookA), (4, bookB)],
   [("genre", ["fiction", "romance"]), ("length", ["Short", "Long"])]⟩

/-- The tree the builder returns on `endToEnd`. -/
def endToEndTree : Node :=
  Node.mk "genre" ""
    [Node.mk "" "fiction" [] true 5, Node.mk "" "romance" [] true (-1)] false 0

/-- Contents of the maps of `endToEnd` when the child for `fiction` is built. -/
def fictionStore : Store :=
  ⟨[(1, 5), (3, 5)], [(1, ⟨[("length", "Short")]⟩), (3, ⟨[("length", "Short")]⟩)],
    [("length", ["Short", "Long"])]⟩

/-- The end-to-end scenario with the attribute domain ranged over in the other order,
so that `length` wins the tie between the two gain ratios. -/
def endToEndSwapped : Store :=
  ⟨[(1, 5), (2, 1), (3, 5), (4, 1)],
   [(1, bookA), (2, bookB), (3, bookA), (4, bookB)],
   [("length", ["Short", "Long"]), ("genre", ["fiction", "romance"])]⟩

/-- The tree the builder returns on `endToEndSwapped`. -/
def endToEndSwappedTree : Node :=
  Node.mk "length" ""
    [Node.mk "" "Short" [] true 5, Node.mk "" "Long" [] true (-1)] false 0

/-- Contents of the maps of `endToEndSwapped` when the child for `Short` is built. -/
def shortStore : Store :=
  ⟨[(1, 5), (3, 5)], [(1, ⟨[("genre", "fiction")]⟩), (3, ⟨[("genre", "fiction")]⟩)],
    [("genre", ["fiction", "romance"])]⟩

/-! ## Quantities named by the specification of the evaluator -/

/-- Number of books of the held-out set whose prediction equals their rating. -/
def numCorrect (root : Node) (rates : GoMap Int Int) (books : GoMap Int Book) : Nat :=
  (books.filter (fun e => decide (Predict root e.2 = rates.getD e.1 0))).length

/-! ## Split information as the specification words it -/

/-- Split information with zero-size subsets skipped: minus the sum, over the legal
values whose subset is non-empty, of `(n_v/N) * log2(n_v/N)`. -/
noncomputable def SplitInfoSkipping (attr : String) (rates : GoMap Int Int)
    (books : GoMap Int Book) (attrVals : List String) : F64 :=
  attrVals.foldl
    (fun splitInfo val =>
      let sl := Split attr rates books val
      let prob := F64.div (F64.ofInt sl.1.len) (F64.ofInt rates.len)
      if sl.1.len = 0 then splitInfo else F64.sub splitInfo (F64.mul prob (F64.log2 prob)))
    (F64.fin 0)

/-! ## Iteration orders and tree invariants -/

/-- The second loop of `majorityClass`, over the entries of `classCount` in the order
`it` in which the range statement visits them. -/
def majorityOver (it : List (Int × Int)) : Int :=
  (it.foldl (fun acc e => if e.2 > acc.1 then (e.2, e.1) else acc) ((-1 : Int), (-1 : Int))).2

mutual
/-- All nodes of a tree, the root first. -/
def Node.nodes : Node → List Node
  | Node.mk a v cs l c => Node.mk a v cs l c :: nodesList cs
/-- All nodes of a list of trees. -/
def nodesList : List Node → List Node
  | [] => []
  | c :: cs => Node.nodes c ++ nodesList cs
end

mutual
/-- Attributes of the internal nodes along each path from the root down to a leaf (or to
an internal node without children). -/
def Node.paths : Node → List (List String)
  | Node.mk a _ cs l _ =>
    if l then [[]] else if cs.isEmpty then [[a]] else (pathsList cs).map (fun p => a :: p)
/-- Paths of a list of trees. -/
def pathsList : List Node → List (List String)
  | [] => []
  | c :: cs => Node.paths c ++ pathsList cs
end

mutual
/-- Invariant of the trees built over the attribute domain `D`: a leaf has no children;
an internal node splits on a key of `D`, its children are tagged, in order, with the
legal values of that key, and they are built over `D` without that key. -/
def Node.BuiltOn : Node → GoMap String (List String) → Prop
  | Node.mk a _ cs l _, D =>
    if l = true then cs = []
    else a ∈ GoMap.keys D ∧ cs.map Node.Value = D.getD a [] ∧ BuiltOnList cs (D.delete a)
/-- Invariant `BuiltOn` for every tree of a list. -/
def BuiltOnList : List Node → GoMap String (List String) → Prop
  | [], _ => True
  | c :: cs, D => Node.BuiltOn c D ∧ BuiltOnList cs D
end

mutual
/-- The leaf reached from a node by following, at each internal node, the first child
tagged with the item's value for the node's attribute; `none` when an internal node has
no such child (where `Predict` falls back to 0). -/
def Node.walk : Node → Book → Option Node
  | Node.mk a v cs l c, book =>
    if l then some (Node.mk a v cs l c) else walkChildren cs (book.Attribites.getD a "") book
/-- The search for the matching child in `walk`. -/
def walkChildren : List Node → String → Book → Option Node
  | [], _, _ => none
  | child :: rest, value, book =>
    if child.Value = value then Node.walk child book else walkChildren rest value book
end

/-- One domain is part of another: its keys are keys of the other, with the same legal
values. -/
def SubDom (D' D : GoMap String (List String)) : Prop :=
  ∀ k ∈ GoMap.keys D', k ∈ GoMap.keys D ∧ GoMap.getD D' k [] = GoMap.getD D k []

/-- The node `n` is the node a call of the builder on the contents `st` creates: the
call returns `n` as it is before its caller tags it with a value. -/
def CreatedBy (n : Node) (st : Store) : Prop :=
  ∃ fuel s, BuildTreeFuel fuel st = some (n.setValue "", s)

/-! ## Per-user driver -/

/-- The loop of `main` that deletes the users with fewer than 10 ratings. -/
def dropSmallUsers (userrates : GoMap String (GoMap Int Int)) :
    GoMap String (GoMap Int Int) :=
  userrates.foldl (fun acc e => if (e.2.len : Int) < 10 then acc.delete e.1 else acc)
    userrates

/-- The loop `for k := range value { newbooks[k] = books[k] }` of `main`; a missing
book reads as the zero `Book`. -/
def newbooksOf (value : GoMap Int Int) (books : GoMap Int Book) : GoMap Int Book :=
  value.foldl (fun newbooks e => newbooks.set e.1 (books.getD e.1 ⟨[]⟩)) []

/-- The four maps filled by the partition loop of `main`. -/
structure Partition where
  trainbooks : GoMap Int Book
  trainrates : GoMap Int Int
  testbooks : GoMap Int Book
  testrates : GoMap Int Int

/-- One iteration of the partition loop of `main`; the state is the four maps and the
counter `z`. -/
def partitionStep (value : GoMap Int Int) (acc : Partition × Int) (e : Int × Book) :
    Partition × Int :=
  if acc.2 < (value.len : Int) - 3 then
    (⟨acc.1.trainbooks.set e.1 e.2, acc.1.trainrates.set e.1 (value.getD e.1 0),
      acc.1.testbooks, acc.1.testrates⟩, acc.2 + 1)
  else
    (⟨acc.1.trainbooks, acc.1.trainrates, acc.1.testbooks.set e.1 e.2,
      acc.1.testrates.set e.1 (value.getD e.1 0)⟩, acc.2 + 1)

/-- The partition loop of `main` for one user; `it` is the sequence in which the range
over `newbooks` yields its entries. -/
def partitionLoop (value : GoMap Int Int) (it : List (Int × Book)) : Partition :=
  (it.foldl (partitionStep value) (⟨[], [], [], []⟩, 0)).1

/-- The state of the partition loop after the entries `pre` have been visited: the first
`k = len(value) - 3` of them are in the training maps, the others in the test maps. -/
def partitionAfter (value : GoMap Int Int) (pre : List (Int × Book)) : Partition × Int :=
  (⟨pre.take ((value.len : Int) - 3).toNat,
    (pre.take ((value.len : Int) - 3).toNat).map (fun e => (e.1, value.getD e.1 0)),
    pre.drop ((value.len : Int) - 3).toNat,
    (pre.drop ((value.len : Int) - 3).toNat).map (fun e => (e.1, value.getD e.1 0))⟩,
    (pre.length : Int))


/-- Two users for the driver: `u` with ten ratings and `v` with one. -/
def twoUsers : GoMap String (GoMap Int Int) :=
  [("u", [(1, 5), (2, 1), (3, 5), (4, 1), (5, 3), (6, 3), (7, 2), (8, 4), (9, 5), (10, 1)]),
   ("v", [(1, 3)])]

/-! ## Entropy as a real number -/

/-- Shannon entropy (base 2) of the empirical distribution of a label list, as a real
number. -/
noncomputable def entropyOf (labels : List Int) : ℝ :=
  ∑ y ∈ labels.toFinset,
    Real.negMulLog ((labels.count y : ℝ) / (labels.length : ℝ)) / Real.log 2

/-- The subset `Split` forms for a value has that many books. -/
def subsetSize (attr : String) (books : GoMap Int Book) (v : String) : Nat :=
  (books.filter (fun e => decide (e.2.Attribites.getD attr "" = v))).length

/-- The labels `Split` collects for a value. -/
def subsetLabels (attr : String) (rates : GoMap Int Int) (books : GoMap Int Book)
    (v : String) : List Int :=
  (books.filter (fun e => decide (e.2.Attribites.getD attr "" = v))).map
    (fun e => rates.getD e.1 0)

/-! ## float64 with rounding -/

/-- Number of binary digits of `n`, by halving; the first argument bounds the number of
halvings. -/
def bitsAux : Nat → Nat → Nat
  | 0, _ => 0
  | fuel + 1, n => if n = 0 then 0 else bitsAux fuel (n / 2) + 1

/-- Number of binary digits of `n` (0 for 0). -/
def bits (n : Nat) : Nat := bitsAux n n

/-- The integer `⌊log₂ (n / d)⌋` for positive `n` and `d`. -/
def ilog2 (n d : Nat) : Int :=
  let e0 : Int := (bits n : Int) - (bits d : Int)
  if 0 ≤ e0 then (if d * 2 ^ e0.toNat ≤ n then e0 else e0 - 1)
  else (if d ≤ n * 2 ^ (-e0).toNat then e0 else e0 - 1)

/-- The integer nearest to `N / D`, a tie going to the even neighbour. -/
def roundNat (N D : Nat) : Nat :=
  let f := N / D
  let r := N % D
  if 2 * r < D then f else if D < 2 * r then f + 1 else if f % 2 = 0 then f else f + 1

/-- Rounding of the positive rational `n / d` to binary64 (53-bit significand, exponents
from -1022 to 1023, subnormal numbers below), to nearest with ties to even; `none` when
the rounded value is beyond the largest finite number. -/
def rnAbs (n d : Nat) : Option ℚ :=
  let e := ilog2 n d
  let u : Int := max e (-1022) - 52
  if 0 ≤ u then
    let r := roundNat n (d * 2 ^ u.toNat)
    if 2 ^ 1024 ≤ r * 2 ^ u.toNat then none else some ((r * 2 ^ u.toNat : Nat) : ℚ)
  else some (mkRat (roundNat (n * 2 ^ (-u).toNat) d) (2 ^ (-u).toNat))

/-- Values of `float64` with the rounding of IEEE 754 binary64: NaN, the infinities, and
the finite values as rational numbers.  The sign of zero is not tracked. -/
inductive B64 where
  | nan : B64
  | posInf : B64
  | negInf : B64
  | fin (x : ℚ) : B64
  deriving DecidableEq

namespace B64

/-- The binary64 number nearest to the rational `q` (ties to even), an infinity on
overflow. -/
def rn (q : ℚ) : B64 :=
  if q.num = 0 then fin 0
  else match rnAbs q.num.natAbs q.den with
    | some v => fin (if q.num < 0 then -v else v)
    | none => if q.num < 0 then negInf else posInf

/-- Conversion `float64(n)` of an `int`. -/
def ofInt (n : Int) : B64 := rn (n : ℚ)

/-- Unary minus. -/
def neg : B64 → B64
  | nan => nan
  | posInf => negInf
  | negInf => posInf
  | fin x => fin (-x)

/-- Go `a + b`. -/
def add : B64 → B64 → B64
  | nan, _ => nan
  | _, nan => nan
  | posInf, negInf => nan
  | negInf, posInf => nan
  | posInf, _ => posInf
  | _, posInf => posInf
  | negInf, _ => negInf
  | _, negInf => negInf
  | fin x, fin y => rn (x + y)

/-- Go `a - b`. -/
def sub (a b : B64) : B64 := add a (neg b)

/-- Product of an infinity with the finite value `x`; `pos` tells the sign of the
infinity. -/
def infTimes (pos : Bool) (x : ℚ) : B64 :=
  if x = 0 then nan
  else if 0 < x then (if pos then posInf else negInf)
  else (if pos then negInf else posInf)

/-- Go `a * b`. -/
def mul : B64 → B64 → B64
  | nan, _ => nan
  | _, nan => nan
  | posInf, posInf => posInf
  | posInf, negInf => negInf
  | negInf, posInf => negInf
  | negInf, negInf => posInf
  | posInf, fin y => infTimes true y
  | negInf, fin y => infTimes false y
  | fin x, posInf => infTimes true x
  | fin x, negInf => infTimes false x
  | fin x, fin y => rn (x * y)

/-- Go `a / b`; a zero divisor is `+0`. -/
def div : B64 → B64 → B64
  | nan, _ => nan
  | _, nan => nan
  | posInf, posInf => nan
  | posInf, negInf => nan
  | negInf, posInf => nan
  | negInf, negInf => nan
  | posInf, fin y => if y < 0 then negInf else posInf
  | negInf, fin y => if y < 0 then posInf else negInf
  | fin _, posInf => fin 0
  | fin _, negInf => fin 0
  | fin x, fin y =>
    if y = 0 then (if x = 0 then nan else if 0 < x then posInf else negInf)
    else rn (x / y)

/-- Go `a > b`. -/
def gt : B64 → B64 → Bool
  | nan, _ => false
  | _, nan => false
  | posInf, posInf => false
  | posInf, _ => true
  | _, posInf => false
  | negInf, _ => false
  | fin _, negInf => true
  | fin x, fin y => decide (y < x)

/-- Go `a < b`. -/
def lt (a b : B64) : Bool := gt b a

/-- Go `a == b`. -/
def eq : B64 → B64 → Bool
  | nan, _ => false
  | _, nan => false
  | posInf, posInf => true
  | negInf, negInf => true
  | fin x, fin y => decide (x = y)
  | _, _ => false

/-- Go `a != b`. -/
def ne (a b : B64) : Bool := !eq a b

/-- Go `math.Frexp`: fraction in `[1/2, 1)` (in absolute value) and exponent; zero, the
infinities and NaN are returned with exponent 0. -/
def Frexp : B64 → B64 × Int
  | fin x =>
    if x.num = 0 then (fin 0, 0)
    else
      let e := ilog2 x.num.natAbs x.den + 1
      (fin (if 0 ≤ e then x / (2 ^ e.toNat : Nat) else x * (2 ^ (-e).toNat : Nat)), e)
  | a => (a, 0)

/-- Go `math.Sqrt2`. -/
def Sqrt2 : ℚ := 141421356237309504880168872420969807856967187537694807317667974 / 10 ^ 62

/-- Go `math.Ln2`. -/
def Ln2 : ℚ := 693147180559945309417232121458176568075500134360255254120680009 / 10 ^ 63

/-- Constants of Go `math.log` (file `log.go` of package `math`). -/
def Ln2Hi : B64 := rn (693147180369123816490 / 10 ^ 21)

/-- Constant `Ln2Lo` of Go `math.log`. -/
def Ln2Lo : B64 := rn (190821492927058770002 / 10 ^ 30)

/-- Constant `L1` of Go `math.log`. -/
def L1 : B64 := rn (6666666666666735130 / 10 ^ 19)

/-- Constant `L2` of Go `math.log`. -/
def L2 : B64 := rn (3999999999940941908 / 10 ^ 19)

/-- Constant `L3` of Go `math.log`. -/
def L3 : B64 := rn (2857142874366239149 / 10 ^ 19)

/-- Constant `L4` of Go `math.log`. -/
def L4 : B64 := rn (2222219843214978396 / 10 ^ 19)

/-- Constant `L5` of Go `math.log`. -/
def L5 : B64 := rn (1818357216161805012 / 10 ^ 19)

/-- Constant `L6` of Go `math.log`. -/
def L6 : B64 := rn (1531383769920937332 / 10 ^ 19)

/-- Constant `L7` of Go `math.log`. -/
def L7 : B64 := rn (1479819860511658591 / 10 ^ 19)

/-- Go `math.Log`, the portable implementation `log` of package `math`. -/
def log : B64 → B64
  | nan => nan
  | posInf => posInf
  | negInf => nan
  | fin x =>
    if x < 0 then nan
    else if x = 0 then negInf
    else
      let fr := Frexp (fin x)
      let small := lt fr.1 (rn (Sqrt2 / 2))
      let f1 := if small then mul fr.1 (fin 2) else fr.1
      let ki := if small then fr.2 - 1 else fr.2
      let f := sub f1 (fin 1)
      let k := ofInt ki
      let s := div f (add (fin 2) f)
      let s2 := mul s s
      let s4 := mul s2 s2
      let t1 := mul s2 (add L1 (mul s4 (add L3 (mul s4 (add L5 (mul s4 L7))))))
      let t2 := mul s4 (add L2 (mul s4 (add L4 (mul s4 L6))))
      let R := add t1 t2
      let hfsq := mul (mul (rn (1 / 2)) f) f
      sub (mul k Ln2Hi) (sub (sub hfsq (add (mul s (add hfsq R)) (mul k Ln2Lo))) f)

/-- Go `math.Log2`, the portable implementation `log2` of package `math`. -/
def log2 (x : B64) : B64 :=
  let fr := Frexp x
  if eq fr.1 (rn (1 / 2)) then ofInt (fr.2 - 1)
  else add (mul (log fr.1) (rn (1 / Ln2))) (ofInt fr.2)

end B64

namespace Binary64

/-- Go `InfoD`, in binary64 arithmetic. -/
def InfoD (labels : List Int) : B64 :=
  (countLabels labels).foldl
    (fun entropy e =>
      let probability := B64.div (B64.ofInt e.2) (B64.ofInt labels.length)
      B64.sub entropy (B64.mul probability (B64.log2 probability)))
    (B64.fin 0)

/-- Go `InfoAD`, in binary64 arithmetic. -/
def InfoAD (attr : String) (rates : GoMap Int Int) (books : GoMap Int Book)
    (attrVals : List String) : B64 :=
  attrVals.foldl
    (fun info val =>
      let sl := Split attr rates books val
      let prob := B64.div (B64.ofInt sl.1.len) (B64.ofInt rates.len)
      B64.add info (B64.mul prob (InfoD sl.2)))
    (B64.fin 0)

/-- Go `SplitInfoAD`, in binary64 arithmetic. -/
def SplitInfoAD (attr : String) (rates : GoMap Int Int) (books : GoMap Int Book)
    (attrVals : List String) : B64 :=
  attrVals.foldl
    (fun splitInfo val =>
      let sl := Split attr rates books val
      let prob := B64.div (B64.ofInt sl.1.len) (B64.ofInt rates.len)
      B64.sub splitInfo
        (B64.mul prob (B64.log2 (B64.div (B64.ofInt sl.1.len) (B64.ofInt rates.len)))))
    (B64.fin 0)

/-- The first loop of `CalculateGainRatios`, in binary64 arithmetic. -/
def gainsAndSplitInfos (rates : GoMap Int Int) (books : GoMap Int Book)
    (attrValues : GoMap String (List String)) (ent : B64) :
    GoMap String B64 × GoMap String B64 :=
  attrValues.foldl
    (fun acc e =>
      (acc.1.set e.1 (B64.sub ent (InfoAD e.1 rates books (attrValues.getD e.1 []))),
       acc.2.set e.1 (SplitInfoAD e.1 rates books (attrValues.getD e.1 []))))
    ([], [])

/-- Go `CalculateGainRatios`, in binary64 arithmetic. -/
def CalculateGainRatios (rates : GoMap Int Int) (books : GoMap Int Book)
    (attrValues : GoMap String (List String)) : GoMap String B64 :=
  let labels := rates.map Prod.snd
  let ent := InfoD labels
  let gs := gainsAndSplitInfos rates books attrValues ent
  gs.1.foldl
    (fun gainRatios e =>
      if B64.ne (gs.2.getD e.1 (B64.fin 0)) (B64.fin 0) then
        gainRatios.set e.1 (B64.div (gs.1.getD e.1 (B64.fin 0)) (gs.2.getD e.1 (B64.fin 0)))
      else gainRatios.set e.1 (B64.fin 0))
    []

end Binary64

/-! ## Tree builder over the values computed in the call -/

/-- Go `BuildTree` with a recursion budget, the results of its two callees taken as
parameters: `ratiosOf rates books attrValues` is the map that the call
`CalculateGainRatios(rates, books, attrValues)` returns and `major labels` the label that
`majorityClass(labels)` returns.  The values of the map are `float64` values (each is NaN,
an infinity or a real number); `GetBest` and the test `gainRatio == 0` compare them
exactly, as Go does.  Nothing is assumed here about the arithmetic that produced the
ratios or about the order in which the callees visit their maps. -/
noncomputable def BuildTreeFuelWith
    (ratiosOf : GoMap Int Int → GoMap Int Book → GoMap String (List String) →
      GoMap String F64)
    (major : List Int → Int) : Nat → Store → Option (Node × Store)
  | 0, _ => none
  | fuel + 1, st =>
    let ratios := ratiosOf st.rates st.books st.attrValues
    let labels := st.rates.map Prod.snd
    let bg := GetBest ratios
    if F64.eq bg.2 (F64.fin 0) then
      some (Node.mk "" "" [] true (major labels), st)
    else
      buildChildren (BuildTreeFuelWith ratiosOf major fuel) bg.1
        (st.attrValues.getD bg.1 []) (Node.mk bg.1 "" [] false 0) st

/-- Go `BuildTree` over the ratios and majority labels computed by `ratiosOf` and
`major`; the budget exceeds the number of attributes. -/
noncomputable def BuildTreeWith
    (ratiosOf : GoMap Int Int → GoMap Int Book → GoMap String (List String) →
      GoMap String F64)
    (major : List Int → Int) (st : Store) : Option (Node × Store) :=
  BuildTreeFuelWith ratiosOf major (st.attrValues.len + 1) st

/-- The real number (or NaN, or infinity) that a binary64 value denotes. -/
noncomputable def B64.toF64 : B64 → F64
  | B64.nan => F64.nan
  | B64.posInf => F64.posInf
  | B64.negInf => F64.negInf
  | B64.fin x => F64.fin (x : ℝ)

/-- The map returned by `CalculateGainRatios` in binary64 arithmetic, as `float64`
values. -/
noncomputable def Binary64.ratios (rates : GoMap Int Int) (books : GoMap Int Book)
    (attrValues : GoMap String (List String)) : GoMap String F64 :=
  (Binary64.CalculateGainRatios rates books attrValues).map (fun e => (e.1, e.2.toF64))

/-- Five rated books: the attribute `x` separates the label 3 from the labels 1 and 2. -/
def fiveBooks : Store :=
  ⟨[(1, 1), (2, 1), (3, 1), (4, 2), (5, 3)],
   [(1, ⟨[("x", "a")]⟩), (2, ⟨[("x", "a")]⟩), (3, ⟨[("x", "a")]⟩), (4, ⟨[("x", "a")]⟩),
     (5, ⟨[("x", "b")]⟩)],
   [("x", ["a", "b"])]⟩

/-- Nine rated books: each of the labels 1, 2, 3 occurs once with `x = a` and twice with
`x = b`, so that `x` carries no information about the label. -/
def nineBooks : Store :=
  ⟨[(1, 1), (2, 2), (3, 3), (4, 1), (5, 2), (6, 3), (7, 1), (8, 2), (9, 3)],
   [(1, ⟨[("x", "a")]⟩), (2, ⟨[("x", "a")]⟩), (3, ⟨[("x", "a")]⟩), (4, ⟨[("x", "b")]⟩),
     (5, ⟨[("x", "b")]⟩), (6, ⟨[("x", "b")]⟩), (7, ⟨[("x", "b")]⟩), (8, ⟨[("x", "b")]⟩),
     (9, ⟨[("x", "b")]⟩)],
   [("x", ["a", "b"])]⟩

/-- Fifteen rated books: each of the labels 1, 2, 3 occurs once with `x = a` and four
times with `x = b`, so that `x` carries no information about the label. -/
def fifteenBooks : Store :=
  ⟨[(1, 1), (2, 2), (3, 3), (4, 1), (5, 2), (6, 3), (7, 1), (8, 2), (9, 3), (10, 1),
     (11, 2), (12, 3), (13, 1), (14, 2), (15, 3)],
   [(1, ⟨[("x", "a")]⟩), (2, ⟨[("x", "a")]⟩), (3, ⟨[("x", "a")]⟩), (4, ⟨[("x", "b")]⟩),
     (5, ⟨[("x", "b")]⟩), (6, ⟨[("x", "b")]⟩), (7, ⟨[("x", "b")]⟩), (8, ⟨[("x", "b")]⟩),
     (9, ⟨[("x", "b")]⟩), (10, ⟨[("x", "b")]⟩), (11, ⟨[("x", "b")]⟩), (12, ⟨[("x", "b")]⟩),
     (13, ⟨[("x", "b")]⟩), (14, ⟨[("x", "b")]⟩), (15, ⟨[("x", "b")]⟩)],
   [("x", ["a", "b"])]⟩

/-! ## Basic facts about `float64` -/

namespace F64

@[simp] theorem ofInt_eq (n : Int) : ofInt n = fin (n : ℝ) := rfl

@[simp] theorem add_fin (x y : ℝ) : add (fin x) (fin y) = fin (x + y) := rfl

@[simp] theorem neg_fin (x : ℝ) : neg (fin x) = fin (-x) := rfl

@[simp] theorem neg_nan : neg nan = nan := rfl

@[simp] theorem sub_fin (x y : ℝ) : sub (fin x) (fin y) = fin (x - y) := by
  simp [sub, sub_eq_add_neg]

@[simp] theorem mul_fin (x y : ℝ) : mul (fin x) (fin y) = fin (x * y) := rfl

theorem div_fin {x y : ℝ} (h : y ≠ 0) : div (fin x) (fin y) = fin (x / y) := by
  simp [div, h]

@[simp] theorem div_zero_zero : div (fin 0) (fin 0) = nan := by simp [div]

theorem div_fin_zero_pos {x : ℝ} (h : 0 < x) : div (fin x) (fin 0) = posInf := by
  simp [div, h, h.ne']

theorem log2_fin {x : ℝ} (h : 0 < x) : log2 (fin x) = fin (Real.logb 2 x) := by
  simp [log2, not_lt.mpr h.le, h.ne']

@[simp] theorem log2_zero : log2 (fin 0) = negInf := by simp [log2]

@[simp] theorem log2_one : log2 (fin 1) = fin 0 := by simp [log2]

@[simp] theorem log2_nan : log2 nan = nan := rfl

@[simp] theorem mul_zero_negInf : mul (fin 0) negInf = nan := by simp [mul, infTimes]

@[simp] theorem mul_posInf_zero : mul posInf (fin 0) = nan := by simp [mul, infTimes]

@[simp] theorem add_nan_left (a : F64) : add nan a = nan := by cases a <;> rfl

@[simp] theorem add_nan_right (a : F64) : add a nan = nan := by cases a <;> rfl

@[simp] theorem sub_nan_left (a : F64) : sub nan a = nan := by simp [sub]

@[simp] theorem sub_nan_right (a : F64) : sub a nan = nan := by simp [sub]

@[simp] theorem mul_nan_left (a : F64) : mul nan a = nan := by cases a <;> rfl

@[simp] theorem mul_nan_right (a : F64) : mul a nan = nan := by cases a <;> rfl

@[simp] theorem div_nan_left (a : F64) : div nan a = nan := by cases a <;> rfl

@[simp] theorem div_nan_right (a : F64) : div a nan = nan := by cases a <;> rfl

@[simp] theorem gt_nan_left (a : F64) : gt nan a ↔ False := by cases a <;> simp [gt]

@[simp] theorem gt_nan_right (a : F64) : gt a nan ↔ False := by cases a <;> simp [gt]

@[simp] theorem gt_fin (x y : ℝ) : gt (fin x) (fin y) ↔ y < x := by simp [gt]

@[simp] theorem eq_fin (x y : ℝ) : eq (fin x) (fin y) ↔ x = y := by simp [eq]

@[simp] theorem eq_nan_left (a : F64) : eq nan a ↔ False := by cases a <;> simp [eq]

@[simp] theorem eq_nan_right (a : F64) : eq a nan ↔ False := by cases a <;> simp [eq]

@[simp] theorem ne_nan_left (a : F64) : ne nan a ↔ True := by simp [ne]

@[simp] theorem ne_fin (x y : ℝ) : ne (fin x) (fin y) ↔ x ≠ y := by simp [ne]

end F64

theorem logb_two_inv_two : Real.logb 2 (2⁻¹) = -1 := by
  rw [Real.logb_inv]; simp

/-! ## Basic facts about Go maps -/

namespace GoMap

variable {K V : Type} [DecidableEq K]

theorem mem_set {m : GoMap K V} {k : K} {v : V} {e : K × V} (h : e ∈ set m k v) :
    e = (k, v) ∨ e ∈ m := by
  induction m with
  | nil => simpa [set] using h
  | cons hd tl ih =>
    by_cases hk : hd.1 = k
    · simp only [set, hk, if_true, List.mem_cons] at h
      rcases h with h | h
      · exact Or.inl h
      · exact Or.inr (List.mem_cons_of_mem _ h)
    · simp only [set, hk, if_false, List.mem_cons] at h
      rcases h with h | h
      · exact Or.inr (h ▸ List.mem_cons_self _ _)
      · rcases ih h with h' | h'
        · exact Or.inl h'
        · exact Or.inr (List.mem_cons_of_mem _ h')

theorem mem_keys_set {m : GoMap K V} {k k' : K} {v : V} :
    k' ∈ keys (set m k v) ↔ k' = k ∨ k' ∈ keys m := by
  induction m with
  | nil => simp [set, keys]
  | cons hd tl ih =>
    by_cases hk : hd.1 = k
    · simp only [set, hk, if_true]
      simp only [keys, List.map_cons, List.mem_cons, hk]
      tauto
    · simp only [set, hk, if_false]
      simp only [keys, List.map_cons, List.mem_cons] at ih ⊢
      rw [ih]; tauto

theorem set_of_not_mem {m : GoMap K V} {k : K} {v : V} (h : k ∉ keys m) :
    set m k v = m ++ [(k, v)] := by
  induction m with
  | nil => rfl
  | cons hd tl ih =>
    simp only [keys, List.map_cons, List.mem_cons, not_or] at h
    have hk : ¬ hd.1 = k := fun e => h.1 e.symm
    simp only [set, hk, if_false, List.cons_append]
    rw [ih h.2]

theorem mem_of_get? {m : GoMap K V} {k : K} {v : V} (h : get? m k = some v) : (k, v) ∈ m := by
  induction m with
  | nil => simp [get?] at h
  | cons hd tl ih =>
    by_cases hk : hd.1 = k
    · simp only [get?, hk, if_true, Option.some.injEq] at h
      subst h; subst hk
      exact List.mem_cons_self _ _
    · simp only [get?, hk, if_false] at h
      exact List.mem_cons_of_mem _ (ih h)

theorem get?_isSome_of_mem_keys {m : GoMap K V} {k : K} (h : k ∈ keys m) :
    ∃ v, get? m k = some v := by
  induction m with
  | nil => simp [keys] at h
  | cons hd tl ih =>
    by_cases hk : hd.1 = k
    · exact ⟨hd.2, by simp [get?, hk]⟩
    · simp only [keys, List.map_cons, List.mem_cons] at h
      rcases h with h | h
      · exact absurd h.symm hk
      · obtain ⟨v, hv⟩ := ih h
        exact ⟨v, by simp [get?, hk, hv]⟩

theorem get?_of_mem {m : GoMap K V} (hm : WF m) {k : K} {v : V} (h : (k, v) ∈ m) :
    get? m k = some v := by
  induction m with
  | nil => simp at h
  | cons hd tl ih =>
    simp only [WF, keys, List.map_cons, List.nodup_cons] at hm
    rcases List.mem_cons.mp h with h | h
    · subst h; simp [get?]
    · have hk : ¬ hd.1 = k := by
        intro e
        exact hm.1 (e ▸ List.mem_map_of_mem Prod.fst h)
      simp only [get?, hk, if_false]
      exact ih hm.2 h

theorem length_delete_le (m : GoMap K V) (k : K) : (delete m k).length ≤ m.length :=
  List.length_filter_le _ _

theorem length_delete_lt {m : GoMap K V} {k : K} (h : k ∈ keys m) :
    (delete m k).length < m.length := by
  simp only [keys, List.mem_map] at h
  obtain ⟨e, he, hek⟩ := h
  exact List.length_filter_lt_length_iff_exists.mpr ⟨e, he, by simp [hek]⟩

/-- Entries of a map filled by a loop of assignments. -/
theorem mem_foldl_set {α : Type} (f : α → K) (g : α → V) (l : List α) (init : GoMap K V)
    {e : K × V} (h : e ∈ l.foldl (fun m x => set m (f x) (g x)) init) :
    e ∈ init ∨ ∃ x ∈ l, e = (f x, g x) := by
  induction l generalizing init with
  | nil => exact Or.inl h
  | cons a l ih =>
    rcases ih _ h with h' | ⟨x, hx, hxe⟩
    · rcases mem_set h' with h'' | h''
      · exact Or.inr ⟨a, List.mem_cons_self _ _, h''⟩
      · exact Or.inl h''
    · exact Or.inr ⟨x, List.mem_cons_of_mem _ hx, hxe⟩

/-- Keys of a map filled by a loop of assignments. -/
theorem mem_keys_foldl_set {α : Type} (f : α → K) (g : α → V) (l : List α)
    (init : GoMap K V) (k : K) :
    k ∈ keys (l.foldl (fun m x => set m (f x) (g x)) init) ↔ k ∈ keys init ∨ k ∈ l.map f := by
  induction l generalizing init with
  | nil => simp
  | cons a l ih =>
    simp only [List.foldl_cons, List.map_cons, List.mem_cons]
    rw [ih, mem_keys_set]
    tauto

/-- A loop of assignments to pairwise distinct fresh keys appends the entries in order. -/
theorem foldl_set_eq_append {α : Type} (f : α → K) (g : α → V) (l : List α)
    (init : GoMap K V) (hl : (l.map f).Nodup) (hd : ∀ x ∈ l, f x ∉ keys init) :
    l.foldl (fun m x => set m (f x) (g x)) init = init ++ l.map (fun x => (f x, g x)) := by
  induction l generalizing init with
  | nil => simp
  | cons a l ih =>
    simp only [List.map_cons, List.nodup_cons] at hl
    simp only [List.foldl_cons, List.map_cons]
    rw [set_of_not_mem (hd a (List.mem_cons_self _ _)), ih _ hl.2]
    · simp
    · intro x hx hmem
      simp only [keys, List.map_append, List.map_cons, List.map_nil, List.mem_append,
        List.mem_singleton] at hmem
      rcases hmem with hmem | hmem
      · exact hd x (List.mem_cons_of_mem _ hx) hmem
      · exact hl.1 (hmem ▸ List.mem_map_of_mem f hx)

end GoMap

/-- A loop updating two accumulators independently is a pair of loops. -/
theorem foldl_pair {α β γ : Type} (F : β → α → β) (G : γ → α → γ) (l : List α) (b : β)
    (c : γ) :
    l.foldl (fun acc x => (F acc.1 x, G acc.2 x)) (b, c) = (l.foldl F b, l.foldl G c) := by
  induction l generalizing b c with
  | nil => rfl
  | cons a l ih => simp only [List.foldl_cons]; rw [ih]

/-! ## The gain-ratio evaluator -/

theorem gainsAndSplitInfos_fst (rates : GoMap Int Int) (books : GoMap Int Book)
    (attrValues : GoMap String (List String)) :
    (gainsAndSplitInfos rates books attrValues (InfoD (rates.map Prod.snd))).1 =
      attrValues.foldl
        (fun m e => GoMap.set m (Prod.fst e) (gainOf rates books attrValues e.1)) [] := by
  have h := foldl_pair
    (fun m e => GoMap.set m (Prod.fst e) (gainOf rates books attrValues e.1))
    (fun m e => GoMap.set m (Prod.fst e) (splitInfoOf rates books attrValues e.1))
    attrValues [] []
  exact congrArg Prod.fst h

theorem gainsAndSplitInfos_snd (rates : GoMap Int Int) (books : GoMap Int Book)
    (attrValues : GoMap String (List String)) :
    (gainsAndSplitInfos rates books attrValues (InfoD (rates.map Prod.snd))).2 =
      attrValues.foldl
        (fun m e => GoMap.set m (Prod.fst e) (splitInfoOf rates books attrValues e.1)) [] := by
  have h := foldl_pair
    (fun m e => GoMap.set m (Prod.fst e) (gainOf rates books attrValues e.1))
    (fun m e => GoMap.set m (Prod.fst e) (splitInfoOf rates books attrValues e.1))
    attrValues [] []
  exact congrArg Prod.snd h

/-- A map filled by assignments `m[f x] = h (f x)` holds `h k` at every key `k`. -/
theorem getD_foldl_set_fun {α V : Type} (f : α → String) (h : String → V) (l : List α)
    (d : V) {k : String}
    (hk : k ∈ GoMap.keys (l.foldl (fun m x => GoMap.set m (f x) (h (f x))) [])) :
    GoMap.getD (l.foldl (fun m x => GoMap.set m (f x) (h (f x))) []) k d = h k := by
  obtain ⟨v, hv⟩ := GoMap.get?_isSome_of_mem_keys hk
  have hmem := GoMap.mem_of_get? hv
  rcases GoMap.mem_foldl_set f (fun x => h (f x)) l [] hmem with h0 | ⟨x, _, hx⟩
  · simp at h0
  · simp only [Prod.mk.injEq] at hx
    rw [GoMap.getD, hv, hx.2, hx.1]
    rfl

theorem CalculateGainRatios_eq (rates : GoMap Int Int) (books : GoMap Int Book)
    (attrValues : GoMap String (List String)) :
    CalculateGainRatios rates books attrValues =
      (attrValues.foldl
        (fun m e => GoMap.set m (Prod.fst e) (gainOf rates books attrValues e.1)) []).foldl
        (fun m e => GoMap.set m (Prod.fst e) (ratioOf rates books attrValues e.1)) [] := by
  unfold CalculateGainRatios
  simp only []
  rw [gainsAndSplitInfos_fst, gainsAndSplitInfos_snd]
  have key : ∀ (l : List (String × F64)) (init : GoMap String F64),
      (∀ e ∈ l, e.1 ∈ GoMap.keys attrValues) →
      l.foldl
        (fun gainRatios e =>
          if F64.ne (GoMap.getD (attrValues.foldl
              (fun m e => GoMap.set m (Prod.fst e) (splitInfoOf rates books attrValues e.1)) [])
              e.1 (F64.fin 0)) (F64.fin 0) then
            GoMap.set gainRatios e.1 (F64.div (GoMap.getD (attrValues.foldl
              (fun m e => GoMap.set m (Prod.fst e) (gainOf rates books attrValues e.1)) [])
              e.1 (F64.fin 0)) (GoMap.getD (attrValues.foldl
              (fun m e => GoMap.set m (Prod.fst e) (splitInfoOf rates books attrValues e.1)) [])
              e.1 (F64.fin 0)))
          else GoMap.set gainRatios e.1 (F64.fin 0)) init =
      l.foldl (fun m e => GoMap.set m (Prod.fst e) (ratioOf rates books attrValues e.1))
        init := by
    intro l
    induction l with
    | nil => intro init _; rfl
    | cons a l ih =>
      intro init hl
      have ha : a.1 ∈ GoMap.keys attrValues := hl a (List.mem_cons_self _ _)
      have hkg : a.1 ∈ GoMap.keys (attrValues.foldl
          (fun m e => GoMap.set m (Prod.fst e) (gainOf rates books attrValues e.1)) []) := by
        rw [GoMap.mem_keys_foldl_set]; exact Or.inr ha
      have hks : a.1 ∈ GoMap.keys (attrValues.foldl
          (fun m e => GoMap.set m (Prod.fst e) (splitInfoOf rates books attrValues e.1))
          []) := by
        rw [GoMap.mem_keys_foldl_set]; exact Or.inr ha
      simp only [List.foldl_cons]
      rw [getD_foldl_set_fun Prod.fst (gainOf rates books attrValues) attrValues _ hkg,
        getD_foldl_set_fun Prod.fst (splitInfoOf rates books attrValues) attrValues _ hks]
      rw [ih _ (fun e he => hl e (List.mem_cons_of_mem _ he))]
      congr 1
      unfold ratioOf
      split <;> rfl
  apply key
  intro e he
  have := List.mem_map_of_mem Prod.fst he
  have h2 := (GoMap.mem_keys_foldl_set Prod.fst
    (fun e => gainOf rates books attrValues e.1) attrValues [] e.1).mp this
  simpa [GoMap.keys] using h2

/-- Every entry of the gain-ratio map belongs to an attribute of the domain and holds
that attribute's gain ratio. -/
theorem CalculateGainRatios_entry (rates : GoMap Int Int) (books : GoMap Int Book)
    (attrValues : GoMap String (List String)) {e : String × F64}
    (he : e ∈ CalculateGainRatios rates books attrValues) :
    e.1 ∈ GoMap.keys attrValues ∧ e.2 = ratioOf rates books attrValues e.1 := by
  rw [CalculateGainRatios_eq] at he
  rcases GoMap.mem_foldl_set Prod.fst (fun e => ratioOf rates books attrValues e.1) _ []
    he with h0 | ⟨x, hx, hxe⟩
  · simp at h0
  · have hx1 := List.mem_map_of_mem Prod.fst hx
    have h2 := (GoMap.mem_keys_foldl_set Prod.fst
      (fun e => gainOf rates books attrValues e.1) attrValues [] x.1).mp hx1
    have h3 : x.1 ∈ GoMap.keys attrValues := by simpa [GoMap.keys] using h2
    subst hxe
    exact ⟨h3, rfl⟩

/-- The gain-ratio map has exactly the keys of the attribute domain. -/
theorem CalculateGainRatios_keys (rates : GoMap Int Int) (books : GoMap Int Book)
    (attrValues : GoMap String (List String)) (key : String) :
    key ∈ GoMap.keys (CalculateGainRatios rates books attrValues) ↔
      key ∈ GoMap.keys attrValues := by
  rw [CalculateGainRatios_eq, GoMap.mem_keys_foldl_set]
  simp only [GoMap.keys, List.map_nil, List.not_mem_nil, false_or]
  have := GoMap.mem_keys_foldl_set Prod.fst
    (fun e => gainOf rates books attrValues e.1) attrValues [] key
  simp only [GoMap.keys, List.map_nil, List.not_mem_nil, false_or] at this
  exact this

/-! ## Attribute selection -/

theorem GetBest_foldl_mem (l : List (String × F64)) (acc : String × F64) :
    l.foldl (fun acc e => if F64.gt e.2 acc.2 then (e.1, e.2) else acc) acc = acc ∨
      l.foldl (fun acc e => if F64.gt e.2 acc.2 then (e.1, e.2) else acc) acc ∈ l := by
  induction l generalizing acc with
  | nil => exact Or.inl rfl
  | cons a l ih =>
    simp only [List.foldl_cons]
    rcases ih (if F64.gt a.2 acc.2 then (a.1, a.2) else acc) with h | h
    · rw [h]
      by_cases hg : F64.gt a.2 acc.2
      · simp [hg]
      · simp [hg]
    · exact Or.inr (List.mem_cons_of_mem _ h)

/-- When no ratio exceeds 0, `GetBest` returns the empty name and 0. -/
theorem GetBest_of_not_gt (ratios : GoMap String F64)
    (h : ∀ e ∈ ratios, ¬ F64.gt e.2 (F64.fin 0)) : GetBest ratios = ("", F64.fin 0) := by
  unfold GetBest
  induction ratios with
  | nil => rfl
  | cons a l ih =>
    simp only [List.foldl_cons]
    rw [if_neg (h a (List.mem_cons_self _ _))]
    exact ih (fun e he => h e (List.mem_cons_of_mem _ he))

/-- When the best ratio is not 0, the selected attribute is a key of the map. -/
theorem GetBest_mem_keys (ratios : GoMap String F64)
    (h : ¬ F64.eq (GetBest ratios).2 (F64.fin 0)) : (GetBest ratios).1 ∈ GoMap.keys ratios := by
  rcases GetBest_foldl_mem ratios ("", F64.fin 0) with h0 | h0
  · exfalso
    apply h
    unfold GetBest
    rw [h0]
    simp
  · exact List.mem_map_of_mem Prod.fst h0

/-! ## The tree builder: unfolding -/

theorem BuildTreeFuel_leaf (fuel : Nat) (st : Store)
    (h : F64.eq (GetBest (CalculateGainRatios st.rates st.books st.attrValues)).2 (F64.fin 0)) :
    BuildTreeFuel (fuel + 1) st =
      some (Node.mk "" "" [] true (majorityClass (st.rates.map Prod.snd)), st) := by
  simp only [BuildTreeFuel, h, if_true]

theorem BuildTreeFuel_node (fuel : Nat) (st : Store)
    (h : ¬ F64.eq (GetBest (CalculateGainRatios st.rates st.books st.attrValues)).2
      (F64.fin 0)) :
    BuildTreeFuel (fuel + 1) st =
      buildChildren (BuildTreeFuel fuel)
        (GetBest (CalculateGainRatios st.rates st.books st.attrValues)).1
        (st.attrValues.getD (GetBest (CalculateGainRatios st.rates st.books st.attrValues)).1 [])
        (Node.mk (GetBest (CalculateGainRatios st.rates st.books st.attrValues)).1 "" []
          false 0) st := by
  simp only [BuildTreeFuel, h, if_false]

/-! ## The empty dataset -/

theorem Split_nil (attr : String) (rates : GoMap Int Int) (value : String) :
    Split attr rates [] value = ([], []) := rfl

theorem InfoD_nil : InfoD [] = F64.fin 0 := rfl

/-- A loop whose every step yields NaN ends in NaN once it runs at least one step. -/
theorem foldl_nan {α : Type} (f : F64 → α → F64) (hf : ∀ a x, f a x = F64.nan) (l : List α)
    (hl : l ≠ []) (a : F64) : l.foldl f a = F64.nan := by
  induction l generalizing a with
  | nil => exact absurd rfl hl
  | cons x l ih =>
    simp only [List.foldl_cons, hf]
    cases l with
    | nil => rfl
    | cons y l => exact ih (by simp) _

theorem InfoAD_empty (attr : String) (attrVals : List String) :
    InfoAD attr [] [] attrVals = if attrVals = [] then F64.fin 0 else F64.nan := by
  by_cases h : attrVals = []
  · subst h; rfl
  · rw [if_neg h]
    unfold InfoAD
    apply foldl_nan _ _ _ h
    intro a x
    simp [Split_nil, GoMap.len]

theorem SplitInfoAD_empty (attr : String) (attrVals : List String) :
    SplitInfoAD attr [] [] attrVals = if attrVals = [] then F64.fin 0 else F64.nan := by
  by_cases h : attrVals = []
  · subst h; rfl
  · rw [if_neg h]
    unfold SplitInfoAD
    apply foldl_nan _ _ _ h
    intro a x
    simp [Split_nil, GoMap.len]

theorem ratioOf_empty_not_gt (attrValues : GoMap String (List String)) (key : String) :
    ¬ F64.gt (ratioOf [] [] attrValues key) (F64.fin 0) := by
  unfold ratioOf splitInfoOf gainOf
  rw [InfoAD_empty, SplitInfoAD_empty]
  by_cases h : GoMap.getD attrValues key [] = []
  · simp [h]
  · simp [h]

/-- On the empty dataset the tree builder returns a leaf classified `-1` and leaves the
maps as they are, whatever the attribute domain and the budget. -/
theorem BuildTreeFuel_empty (fuel : Nat) (attrValues : GoMap String (List String)) :
    BuildTreeFuel (fuel + 1) ⟨[], [], attrValues⟩ =
      some (Node.mk "" "" [] true (-1), ⟨[], [], attrValues⟩) := by
  rw [BuildTreeFuel_leaf]
  · rfl
  · rw [GetBest_of_not_gt]
    · simp
    · intro e he
      rw [(CalculateGainRatios_entry [] [] attrValues he).2]
      exact ratioOf_empty_not_gt attrValues e.1

theorem BuildTree_empty (attrValues : GoMap String (List String)) :
    BuildTree ⟨[], [], attrValues⟩ =
      some (Node.mk "" "" [] true (-1), ⟨[], [], attrValues⟩) :=
  BuildTreeFuel_empty _ attrValues

/-! ## Termination and depth of the tree builder -/

theorem depth_setValue (c : Node) (val : String) : (c.setValue val).depth = c.depth := by
  cases c with
  | mk a v cs l k => simp [Node.setValue, Node.depth]

theorem depthList_append_singleton (cs : List Node) (c : Node) :
    depthList (cs ++ [c]) = max (depthList cs) c.depth := by
  induction cs with
  | nil => simp [depthList]
  | cons d cs ih =>
    show max d.depth (depthList (cs ++ [c])) = max (max d.depth (depthList cs)) c.depth
    rw [ih, max_assoc]

/-- The children loop returns when every recursive call on a smaller attribute domain
does, and keeps the depth and the size of the domain within `n`. -/
theorem buildChildren_returns (build : Store → Option (Node × Store)) (n : Nat)
    (hb : ∀ s : Store, s.attrValues.length < n →
      ∃ t s', build s = some (t, s') ∧ t.depth ≤ s.attrValues.length ∧
        s'.attrValues.length ≤ s.attrValues.length)
    (best : String) (vals : List String) (a v : String) (cs : List Node) (k : Int)
    (cur : Store) (hcs : depthList cs + 1 ≤ n) (hcur : cur.attrValues.length ≤ n)
    (hdel : (GoMap.delete cur.attrValues best).length < n) :
    ∃ t s', buildChildren build best vals (Node.mk a v cs false k) cur = some (t, s') ∧
      t.depth ≤ n ∧ s'.attrValues.length ≤ n := by
  induction vals generalizing cs cur with
  | nil => exact ⟨_, _, rfl, by simpa [Node.depth] using hcs, hcur⟩
  | cons val rest ih =>
    obtain ⟨child, next, hrec, hd, hn⟩ := hb
      ⟨(SplitDataset best val cur.rates cur.books).1,
        (SplitDataset best val cur.rates cur.books).2, GoMap.delete cur.attrValues best⟩ hdel
    simp only [buildChildren, hrec, Node.appendChild]
    have hn' : next.attrValues.length < n := lt_of_le_of_lt hn hdel
    apply ih
    · rw [depthList_append_singleton, depth_setValue]
      have : child.depth + 1 ≤ n := by
        have := lt_of_le_of_lt hd hdel
        omega
      omega
    · exact hn'.le
    · exact lt_of_le_of_lt (GoMap.length_delete_le _ _) hn'

/-- With a budget above the number of attributes, the tree builder returns a tree whose
depth is at most the number of attributes, and it does not enlarge the domain. -/
theorem BuildTreeFuel_returns (fuel : Nat) (st : Store)
    (h : st.attrValues.length < fuel) :
    ∃ t s', BuildTreeFuel fuel st = some (t, s') ∧ t.depth ≤ st.attrValues.length ∧
      s'.attrValues.length ≤ st.attrValues.length := by
  induction fuel generalizing st with
  | zero => omega
  | succ fuel ih =>
    by_cases hg :
        F64.eq (GetBest (CalculateGainRatios st.rates st.books st.attrValues)).2 (F64.fin 0)
    · rw [BuildTreeFuel_leaf fuel st hg]
      exact ⟨_, _, rfl, by simp [Node.depth], le_refl _⟩
    · rw [BuildTreeFuel_node fuel st hg]
      have hkey : (GetBest (CalculateGainRatios st.rates st.books st.attrValues)).1 ∈
          GoMap.keys st.attrValues :=
        (CalculateGainRatios_keys _ _ _ _).mp (GetBest_mem_keys _ hg)
      have hlt := GoMap.length_delete_lt hkey
      apply buildChildren_returns (BuildTreeFuel fuel) st.attrValues.length
      · intro s hs
        exact ih s (by omega)
      · simp only [depthList]
        omega
      · exact le_refl _
      · exact hlt

/-- The children loop is monotone in the recursive call. -/
theorem buildChildren_mono (b1 b2 : Store → Option (Node × Store))
    (h : ∀ s r, b1 s = some r → b2 s = some r) (best : String) (vals : List String)
    (newNode : Node) (cur : Store) (r : Node × Store)
    (hr : buildChildren b1 best vals newNode cur = some r) :
    buildChildren b2 best vals newNode cur = some r := by
  induction vals generalizing newNode cur with
  | nil => exact hr
  | cons val rest ih =>
    simp only [buildChildren] at hr ⊢
    cases hb : b1 ⟨(SplitDataset best val cur.rates cur.books).1,
        (SplitDataset best val cur.rates cur.books).2, GoMap.delete cur.attrValues best⟩ with
    | none => rw [hb] at hr; simp at hr
    | some p =>
      rw [hb] at hr
      rw [h _ _ hb]
      exact ih _ _ hr

/-- A larger budget does not change a result already obtained. -/
theorem BuildTreeFuel_succ (fuel : Nat) (st : Store) (r : Node × Store)
    (hr : BuildTreeFuel fuel st = some r) : BuildTreeFuel (fuel + 1) st = some r := by
  induction fuel generalizing st r with
  | zero => simp [BuildTreeFuel] at hr
  | succ fuel ih =>
    by_cases hg :
        F64.eq (GetBest (CalculateGainRatios st.rates st.books st.attrValues)).2 (F64.fin 0)
    · rw [BuildTreeFuel_leaf _ st hg] at hr ⊢
      exact hr
    · rw [BuildTreeFuel_node _ st hg] at hr ⊢
      exact buildChildren_mono _ _ ih _ _ _ _ _ hr

theorem BuildTreeFuel_le (fuel fuel' : Nat) (hle : fuel ≤ fuel') (st : Store)
    (r : Node × Store) (hr : BuildTreeFuel fuel st = some r) :
    BuildTreeFuel fuel' st = some r := by
  induction hle with
  | refl => exact hr
  | step _ ih => exact BuildTreeFuel_succ _ _ _ ih

/-- Every budget above the number of attributes yields the result of `BuildTree`. -/
theorem BuildTreeFuel_eq_BuildTree (fuel : Nat) (st : Store)
    (h : st.attrValues.length < fuel) : BuildTreeFuel fuel st = BuildTree st := by
  obtain ⟨t, s, hts, _, _⟩ :=
    BuildTreeFuel_returns (st.attrValues.len + 1) st (Nat.lt_succ_self _)
  unfold BuildTree
  rw [hts]
  exact BuildTreeFuel_le _ _ h st _ hts

/-! ## Evaluation on the two-book dataset -/

theorem CalculateGainRatios_nil (rates : GoMap Int Int) (books : GoMap Int Book) :
    CalculateGainRatios rates books [] = [] := rfl

theorem InfoD_single (x : Int) : InfoD [x] = F64.fin 0 := by
  have h : countLabels [x] = [(x, 1)] := by
    simp [countLabels, GoMap.set, GoMap.getD, GoMap.get?]
  simp [InfoD, h, F64.div_fin]

theorem twoBooks_splitInfo :
    splitInfoOf twoBooks.rates twoBooks.books twoBooks.attrValues "genre" = F64.fin 1 := by
  have s1 : Split "genre" twoBooks.rates twoBooks.books "fiction" =
      ([(1, ⟨[("genre", "fiction")]⟩)], [5]) := by decide
  have s2 : Split "genre" twoBooks.rates twoBooks.books "romance" =
      ([(2, ⟨[("genre", "romance")]⟩)], [1]) := by decide
  have hr : List.length twoBooks.rates = 2 := rfl
  have hv : GoMap.getD twoBooks.attrValues "genre" [] = ["fiction", "romance"] := by decide
  simp [splitInfoOf, hv, SplitInfoAD, s1, s2, hr, GoMap.len, F64.div_fin, F64.log2_fin,
    logb_two_inv_two]
  norm_num

theorem twoBooks_gain :
    gainOf twoBooks.rates twoBooks.books twoBooks.attrValues "genre" = F64.fin 1 := by
  have s1 : Split "genre" twoBooks.rates twoBooks.books "fiction" =
      ([(1, ⟨[("genre", "fiction")]⟩)], [5]) := by decide
  have s2 : Split "genre" twoBooks.rates twoBooks.books "romance" =
      ([(2, ⟨[("genre", "romance")]⟩)], [1]) := by decide
  have c : countLabels [5, 1] = [(5, 1), (1, 1)] := by decide
  have e : InfoD [5, 1] = F64.fin 1 := by
    simp only [InfoD, c]
    simp [F64.div_fin, F64.log2_fin, logb_two_inv_two]
    norm_num
  have hr : List.length twoBooks.rates = 2 := rfl
  have hv : GoMap.getD twoBooks.attrValues "genre" [] = ["fiction", "romance"] := by decide
  have hl : List.map Prod.snd twoBooks.rates = [5, 1] := by decide
  simp [gainOf, hv, hl, e, InfoAD, s1, s2, hr, InfoD_single, GoMap.len, F64.div_fin]

theorem twoBooks_ratios :
    CalculateGainRatios twoBooks.rates twoBooks.books twoBooks.attrValues =
      [("genre", F64.fin 1)] := by
  have r : ratioOf twoBooks.rates twoBooks.books twoBooks.attrValues "genre" = F64.fin 1 := by
    simp [ratioOf, twoBooks_splitInfo, twoBooks_gain, F64.div_fin]
  rw [CalculateGainRatios_eq]
  have ha : twoBooks.attrValues = [("genre", ["fiction", "romance"])] := rfl
  rw [ha] at r ⊢
  simp only [List.foldl_cons, List.foldl_nil, GoMap.set, r]

/-- The tree built on `twoBooks`, and the contents of the maps afterwards. -/
theorem twoBooks_tree :
    BuildTree twoBooks =
      some (Node.mk "genre" ""
        [Node.mk "" "fiction" [] true 5, Node.mk "" "romance" [] true (-1)] false 0,
        ⟨[], [], []⟩) := by
  have hg : GetBest (CalculateGainRatios twoBooks.rates twoBooks.books twoBooks.attrValues)
      = ("genre", F64.fin 1) := by
    rw [twoBooks_ratios]; simp [GetBest]
  have hv : GoMap.getD twoBooks.attrValues "genre" [] = ["fiction", "romance"] := by decide
  have d1 : SplitDataset "genre" "fiction" twoBooks.rates twoBooks.books =
      ([(1, 5)], [(1, ⟨[]⟩)]) := by decide
  have d2 : SplitDataset "genre" "romance" [(1, 5)] [(1, ⟨[]⟩)] = ([], []) := by decide
  have da : GoMap.delete twoBooks.attrValues "genre" = [] := by decide
  have l1 : BuildTreeFuel 1 ⟨[(1, 5)], [(1, ⟨[]⟩)], []⟩ =
      some (Node.mk "" "" [] true 5, ⟨[(1, 5)], [(1, ⟨[]⟩)], []⟩) := by
    rw [BuildTreeFuel_leaf]
    · rfl
    · simp [CalculateGainRatios_nil, GetBest]
  unfold BuildTree
  rw [show twoBooks.attrValues.len + 1 = 1 + 1 from rfl,
    BuildTreeFuel_node _ _ (by rw [hg]; simp)]
  rw [hg]
  simp only [hv, buildChildren, d1, da, l1, Node.appendChild, Node.setValue]
  simp only [d2, GoMap.delete, List.filter_nil, BuildTreeFuel_empty, List.nil_append,
    List.cons_append]

/-- The tree built from the `romance` items of `twoBooks` alone, as would be handed to
the child had `romance` been processed first. -/
theorem twoBooks_romance_alone :
    BuildTree
      ⟨(SplitDataset "genre" "romance" twoBooks.rates twoBooks.books).1,
        (SplitDataset "genre" "romance" twoBooks.rates twoBooks.books).2,
        GoMap.delete twoBooks.attrValues "genre"⟩ =
      some (Node.mk "" "" [] true 1, ⟨[(2, 1)], [(2, ⟨[]⟩)], []⟩) := by
  have d1 : SplitDataset "genre" "romance" twoBooks.rates twoBooks.books =
      ([(2, 1)], [(2, ⟨[]⟩)]) := by decide
  have da : GoMap.delete twoBooks.attrValues "genre" = [] := by decide
  rw [d1, da]
  unfold BuildTree
  rw [BuildTreeFuel_leaf]
  · rfl
  · simp [CalculateGainRatios_nil, GetBest]

/-! ## Predictor and evaluator -/

theorem PredictChildren_eq_find (cs : List Node) (value : String) (book : Book) :
    PredictChildren cs value book =
      match cs.find? (fun child => decide (child.Value = value)) with
      | some child => Predict child book
      | none => 0 := by
  induction cs with
  | nil => simp [PredictChildren]
  | cons c cs ih =>
    by_cases h : c.Value = value
    · simp [PredictChildren, List.find?, h]
    · simp only [PredictChildren, List.find?, h, if_false, decide_False]
      exact ih

theorem countCorrect_foldl (root : Node) (rates : GoMap Int Int) (books : GoMap Int Book)
    (s : Int) :
    books.foldl (fun sum e => if Predict root e.2 = rates.getD e.1 0 then sum + 1 else sum) s =
      s + (numCorrect root rates books : Int) := by
  induction books generalizing s with
  | nil => simp [numCorrect]
  | cons b books ih =>
    simp only [List.foldl_cons]
    rw [ih]
    by_cases h : Predict root b.2 = rates.getD b.1 0
    · simp only [numCorrect, List.filter_cons, h, decide_True, if_true, List.length_cons] at *
      push_cast
      ring
    · simp only [numCorrect, List.filter_cons, h, decide_False, if_false] at *
      simp

theorem countCorrect_eq (root : Node) (rates : GoMap Int Int) (books : GoMap Int Book) :
    countCorrect root rates books = (numCorrect root rates books : Int) := by
  unfold countCorrect
  rw [countCorrect_foldl]
  simp

theorem numCorrect_le (root : Node) (rates : GoMap Int Int) (books : GoMap Int Book) :
    numCorrect root rates books ≤ books.length :=
  List.length_filter_le _ _

theorem Classify_eq (root : Node) (rates : GoMap Int Int) (books : GoMap Int Book)
    (h : books ≠ []) :
    Classify root rates books =
      F64.fin ((numCorrect root rates books : ℝ) / (books.length : ℝ)) := by
  have hn : (books.length : ℝ) ≠ 0 := by
    have : books.length ≠ 0 := fun e => h (List.length_eq_zero.mp e)
    exact_mod_cast this
  unfold Classify
  rw [countCorrect_eq]
  simp only [F64.ofInt_eq, GoMap.len, Int.cast_natCast]
  exact F64.div_fin hn

/-- C4: for every tree and every attribute vector `Predict` returns a classification and
agrees with the reference walk: a leaf yields its `Classification`; an internal node
yields the prediction of the first child whose `Value` equals the item's value for the
node's `Attribute` (the empty string when the attribute is missing), and 0 when no
child matches. -/
theorem Predict_reference_walk (node : Node) (book : Book) :
    Predict node book =
      if node.IsLeaf = true then node.Classification
      else
        match node.Children.find?
            (fun child => decide (child.Value = book.Attribites.getD node.Attribute "")) with
        | some child => Predict child book
        | none => 0 := by
  cases node with
  | mk a v cs l c =>
    simp only [Predict, Node.IsLeaf, Node.Classification, Node.Children, Node.Attribute]
    by_cases hl : l = true
    · simp [hl]
    · simp only [hl, if_false]
      exact PredictChildren_eq_find cs _ book

/-- C5: on a non-empty held-out set `Classify` returns m/n, with n the number of books
and m the number of books whose prediction equals their rating; the fraction lies in
[0,1], is 1 when every book is predicted correctly and 0 when none is. -/
theorem Classify_fraction (root : Node) (rates : GoMap Int Int) (books : GoMap Int Book)
    (h : books ≠ []) :
    Classify root rates books =
        F64.fin ((numCorrect root rates books : ℝ) / (books.length : ℝ)) ∧
      0 ≤ (numCorrect root rates books : ℝ) / (books.length : ℝ) ∧
      (numCorrect root rates books : ℝ) / (books.length : ℝ) ≤ 1 ∧
      ((∀ e ∈ books, Predict root e.2 = rates.getD e.1 0) →
        Classify root rates books = F64.fin 1) ∧
      ((∀ e ∈ books, Predict root e.2 ≠ rates.getD e.1 0) →
        Classify root rates books = F64.fin 0) := by
  have hpos : (0 : ℝ) < (books.length : ℝ) := by
    have : 0 < books.length := List.length_pos.mpr h
    exact_mod_cast this
  have hle : (numCorrect root rates books : ℝ) ≤ (books.length : ℝ) := by
    exact_mod_cast numCorrect_le root rates books
  refine ⟨Classify_eq root rates books h, by positivity, (div_le_one hpos).mpr hle, ?_, ?_⟩
  · intro hall
    have hm : numCorrect root rates books = books.length := by
      unfold numCorrect
      rw [List.filter_eq_self.mpr]
      intro e he
      simpa using hall e he
    rw [Classify_eq root rates books h, hm, div_self hpos.ne']
  · intro hnone
    have hm : numCorrect root rates books = 0 := by
      unfold numCorrect
      rw [List.length_eq_zero, List.filter_eq_nil_iff]
      intro e he
      simpa using hnone e he
    rw [Classify_eq root rates books h, hm]
    simp

/-- Instance of the evaluator theorem (C5) on the end-to-end scenario. -/
theorem Classify_fraction_witness :
    endToEnd.books ≠ [] ∧
      (Classify endToEndTree endToEnd.rates endToEnd.books =
          F64.fin ((numCorrect endToEndTree endToEnd.rates endToEnd.books : ℝ) /
            (endToEnd.books.length : ℝ)) ∧
        0 ≤ (numCorrect endToEndTree endToEnd.rates endToEnd.books : ℝ) /
            (endToEnd.books.length : ℝ) ∧
        (numCorrect endToEndTree endToEnd.rates endToEnd.books : ℝ) /
            (endToEnd.books.length : ℝ) ≤ 1 ∧
        ((∀ e ∈ endToEnd.books, Predict endToEndTree e.2 = endToEnd.rates.getD e.1 0) →
          Classify endToEndTree endToEnd.rates endToEnd.books = F64.fin 1) ∧
        ((∀ e ∈ endToEnd.books, Predict endToEndTree e.2 ≠ endToEnd.rates.getD e.1 0) →
          Classify endToEndTree endToEnd.rates endToEnd.books = F64.fin 0)) :=
  ⟨by decide, Classify_fraction endToEndTree endToEnd.rates endToEnd.books (by decide)⟩

/-! ## Attribute splitter -/

/-- The loop of `Split`, started from any accumulator whose keys are fresh for the
remaining entries. -/
theorem Split_foldl (attr : String) (rates : GoMap Int Int) (value : String)
    (l : GoMap Int Book) (accS : GoMap Int Book) (accL : List Int)
    (hl : GoMap.WF l) (hd : ∀ e ∈ l, e.1 ∉ GoMap.keys accS) :
    l.foldl
        (fun acc e =>
          if e.2.Attribites.getD attr "" = value then
            (GoMap.set acc.1 e.1 e.2, acc.2 ++ [rates.getD e.1 0])
          else acc)
        (accS, accL) =
      (accS ++ l.filter (fun e => decide (e.2.Attribites.getD attr "" = value)),
        accL ++ (l.filter (fun e => decide (e.2.Attribites.getD attr "" = value))).map
          (fun e => rates.getD e.1 0)) := by
  induction l generalizing accS accL with
  | nil => simp
  | cons a l ih =>
    simp only [GoMap.WF, GoMap.keys, List.map_cons, List.nodup_cons] at hl
    have hl' : GoMap.WF l := hl.2
    by_cases h : a.2.Attribites.getD attr "" = value
    · simp only [List.foldl_cons, h, if_true, List.filter_cons, decide_True]
      rw [GoMap.set_of_not_mem (hd a (List.mem_cons_self _ _)), ih _ _ hl']
      · simp
      · intro e he hmem
        simp only [GoMap.keys, List.map_append, List.map_cons, List.map_nil, List.mem_append,
          List.mem_singleton] at hmem
        rcases hmem with hmem | hmem
        · exact hd e (List.mem_cons_of_mem _ he) hmem
        · exact hl.1 (hmem ▸ List.mem_map_of_mem Prod.fst he)
    · simp only [List.foldl_cons, h, if_false, List.filter_cons, decide_False]
      exact ih _ _ hl' (fun e he => hd e (List.mem_cons_of_mem _ he))

theorem Split_eq_filter (attr : String) (rates : GoMap Int Int) (books : GoMap Int Book)
    (value : String) (h : GoMap.WF books) :
    Split attr rates books value =
      (books.filter (fun e => decide (e.2.Attribites.getD attr "" = value)),
        (books.filter (fun e => decide (e.2.Attribites.getD attr "" = value))).map
          (fun e => rates.getD e.1 0)) := by
  unfold Split
  rw [Split_foldl attr rates value books [] [] h (by simp [GoMap.keys])]
  simp

/-- C6: for a dataset (`books` with pairwise distinct keys, `rates`), `Split` returns
(S, L) where S is the sub-map of the books whose value for the attribute equals `value`
(the same entries, hence the same keys and books), L lists the ratings `rates[k]` of
the keys `k` of S, in particular as a multiset, and `len(L) = |S|`.  `Split` only reads
its arguments: the embedding is a function of their contents. -/
theorem Split_submap_labels (attr : String) (rates : GoMap Int Int) (books : GoMap Int Book)
    (value : String) (h : GoMap.WF books) :
    (Split attr rates books value).1 =
        books.filter (fun e => decide (e.2.Attribites.getD attr "" = value)) ∧
      (∀ k b, (k, b) ∈ (Split attr rates books value).1 ↔
        ((k, b) ∈ books ∧ b.Attribites.getD attr "" = value)) ∧
      GoMap.WF (Split attr rates books value).1 ∧
      ((Split attr rates books value).2 : Multiset Int) =
        Multiset.map (fun k => rates.getD k 0)
          (GoMap.keys (Split attr rates books value).1 : Multiset Int) ∧
      (Split attr rates books value).2.length = (Split attr rates books value).1.len := by
  rw [Split_eq_filter attr rates books value h]
  refine ⟨rfl, ?_, ?_, ?_, ?_⟩
  · intro k b
    simp [List.mem_filter]
  · exact List.Nodup.sublist (List.Sublist.map _ (List.filter_sublist _)) h
  · simp [GoMap.keys, List.map_map, Function.comp_def]
  · simp [GoMap.len]

/-- Instance of the splitter theorem (C6) on the end-to-end scenario. -/
theorem Split_submap_labels_witness :
    GoMap.WF endToEnd.books ∧
      (Split "genre" endToEnd.rates endToEnd.books "fiction").1 =
        [(1, bookA), (3, bookA)] ∧
      (Split "genre" endToEnd.rates endToEnd.books "fiction").2.length =
        (Split "genre" endToEnd.rates endToEnd.books "fiction").1.len :=
  ⟨by decide,
    (Split_submap_labels "genre" endToEnd.rates endToEnd.books "fiction" (by decide)).1.trans
      (by decide),
    (Split_submap_labels "genre" endToEnd.rates endToEnd.books "fiction"
      (by decide)).2.2.2.2⟩

/-! ## Entropy of equally frequent labels -/

namespace GoMap
variable {K V : Type} [DecidableEq K]

theorem keys_set (m : GoMap K V) (k : K) (v : V) :
    keys (set m k v) = if k ∈ keys m then keys m else keys m ++ [k] := by
  induction m with
  | nil => simp [set, keys]
  | cons hd tl ih =>
    by_cases hk : hd.1 = k
    · simp [set, keys, hk]
    · have hk' : ¬ k = hd.1 := fun e => hk e.symm
      simp only [set, hk, if_false]
      simp only [keys, List.map_cons, List.mem_cons, hk', false_or] at ih ⊢
      rw [ih]
      split <;> simp

theorem WF_set {m : GoMap K V} (h : WF m) (k : K) (v : V) : WF (set m k v) := by
  unfold WF at *
  rw [keys_set]
  split
  · exact h
  · rename_i hk
    exact List.Nodup.append h (List.nodup_singleton k) (by simpa using hk)

theorem getD_set (m : GoMap K V) (k x : K) (v d : V) :
    getD (set m k v) x d = if k = x then v else getD m x d := by
  induction m with
  | nil =>
    by_cases h : k = x <;> simp [set, getD, get?, h]
  | cons hd tl ih =>
    obtain ⟨k', v'⟩ := hd
    by_cases hk : k' = k
    · by_cases hx : k = x
      · simp [set, getD, get?, hk, hx]
      · have : ¬ k' = x := fun e => hx (hk ▸ e)
        simp [set, getD, get?, hk, hx, this]
    · by_cases hx : k' = x
      · subst hx
        have hkx : ¬ k = k' := fun e => hk e.symm
        simp [set, getD, get?, hk, hkx]
      · simp only [set, hk, if_false]
        simp only [getD, get?, hx, if_false] at ih ⊢
        exact ih
end GoMap

theorem countLabels_foldl_keys (labels : List Int) (m : GoMap Int Int) (x : Int) :
    x ∈ GoMap.keys (labels.foldl (fun m label => GoMap.set m label (GoMap.getD m label 0 + 1)) m) ↔
      x ∈ GoMap.keys m ∨ x ∈ labels := by
  induction labels generalizing m with
  | nil => simp
  | cons a l ih =>
    simp only [List.foldl_cons, List.mem_cons]
    rw [ih, GoMap.mem_keys_set]
    tauto

theorem countLabels_foldl_WF (labels : List Int) (m : GoMap Int Int) (h : GoMap.WF m) :
    GoMap.WF (labels.foldl (fun m label => GoMap.set m label (GoMap.getD m label 0 + 1)) m) := by
  induction labels generalizing m with
  | nil => exact h
  | cons a l ih => exact ih _ (GoMap.WF_set h _ _)

theorem countLabels_foldl_getD (labels : List Int) (m : GoMap Int Int) (x : Int) :
    GoMap.getD (labels.foldl (fun m label => GoMap.set m label (GoMap.getD m label 0 + 1)) m) x 0 =
      GoMap.getD m x 0 + (labels.count x : Int) := by
  induction labels generalizing m with
  | nil => simp
  | cons a l ih =>
    simp only [List.foldl_cons]
    rw [ih, GoMap.getD_set]
    by_cases h : a = x
    · subst h
      simp
      ring
    · have : ¬ (a == x) = true := by simpa using h
      simp [h, List.count_cons, this]

theorem countLabels_WF (labels : List Int) : GoMap.WF (countLabels labels) :=
  countLabels_foldl_WF labels [] (by simp [GoMap.WF, GoMap.keys])

theorem countLabels_entry (labels : List Int) {e : Int × Int} (he : e ∈ countLabels labels) :
    e.1 ∈ labels ∧ e.2 = (labels.count e.1 : Int) := by
  have hk : e.1 ∈ GoMap.keys (countLabels labels) := List.mem_map_of_mem Prod.fst he
  have h1 := (countLabels_foldl_keys labels [] e.1).mp hk
  have h2 := GoMap.get?_of_mem (countLabels_WF labels) (show (e.1, e.2) ∈ countLabels labels from he)
  have h3 := countLabels_foldl_getD labels [] e.1
  refine ⟨by simpa [GoMap.keys] using h1, ?_⟩
  unfold countLabels at h2
  rw [GoMap.getD, h2] at h3
  simpa [GoMap.getD, GoMap.get?] using h3

theorem countLabels_length (labels : List Int) :
    (countLabels labels).length = labels.dedup.length := by
  have hp : (GoMap.keys (countLabels labels)).Perm labels.dedup := by
    rw [List.perm_ext_iff_of_nodup (countLabels_WF labels) (List.nodup_dedup labels)]
    intro x
    rw [List.mem_dedup]
    have := countLabels_foldl_keys labels [] x
    simpa [GoMap.keys] using this
  have := hp.length_eq
  simpa [GoMap.keys] using this

theorem foldl_sub_const {α : Type} (f : α → F64) (c : ℝ) (l : List α)
    (h : ∀ e ∈ l, f e = F64.fin c) (x : ℝ) :
    l.foldl (fun a e => F64.sub a (f e)) (F64.fin x) = F64.fin (x - l.length * c) := by
  induction l generalizing x with
  | nil => simp
  | cons a l ih =>
    simp only [List.foldl_cons, h a (List.mem_cons_self _ _), F64.sub_fin]
    rw [ih (fun e he => h e (List.mem_cons_of_mem _ he))]
    congr 1
    simp only [List.length_cons]
    push_cast
    ring

theorem InfoD_uniform (labels : List Int) (k m : Nat) (hk : 1 ≤ k) (hm : 1 ≤ m)
    (hd : labels.dedup.length = k) (hc : ∀ x ∈ labels, labels.count x = m) :
    InfoD labels = F64.fin (Real.logb 2 k) := by
  have hlen : labels.length = k * m := by
    rw [← List.sum_map_count_dedup_eq_length labels, ← hd]
    have : (labels.dedup.map fun x => labels.count x) = labels.dedup.map fun _ => m := by
      apply List.map_congr_left
      intro x hx
      exact hc x (List.mem_dedup.mp hx)
    rw [this]
    simp
  have hk0 : (k : ℝ) ≠ 0 := by positivity
  have hm0 : (m : ℝ) ≠ 0 := by positivity
  have hp : (m : ℝ) / ((k * m : Nat) : ℝ) = (k : ℝ)⁻¹ := by
    push_cast
    field_simp
    ring
  unfold InfoD
  rw [foldl_sub_const _ ((k : ℝ)⁻¹ * Real.logb 2 ((k : ℝ)⁻¹)), countLabels_length, hd]
  · congr 1
    rw [Real.logb_inv]
    field_simp
  · intro e he
    obtain ⟨h1, h2⟩ := countLabels_entry labels he
    rw [hc e.1 h1] at h2
    have hn : ((labels.length : Int) : ℝ) ≠ 0 := by
      rw [hlen]; push_cast; positivity
    simp only [F64.ofInt_eq, h2]
    rw [F64.div_fin hn]
    have : ((m : Int) : ℝ) / ((labels.length : Int) : ℝ) = (k : ℝ)⁻¹ := by
      rw [hlen, ← hp]; simp
    rw [this, F64.log2_fin (by positivity), F64.mul_fin]

/-! ## Split information and empty subsets -/

/-- A loop that keeps NaN once reached and has one step producing NaN ends in NaN. -/
theorem foldl_nan_of_step {α : Type} (f : F64 → α → F64) (hn : ∀ x, f F64.nan x = F64.nan)
    (l : List α) (h : ∃ x ∈ l, ∀ a, f a x = F64.nan) (a : F64) : l.foldl f a = F64.nan := by
  have keep : ∀ l : List α, l.foldl f F64.nan = F64.nan := by
    intro l
    induction l with
    | nil => rfl
    | cons x l ih => simp only [List.foldl_cons, hn, ih]
  induction l generalizing a with
  | nil => simp at h
  | cons x l ih =>
    obtain ⟨y, hy, hstep⟩ := h
    simp only [List.foldl_cons]
    rcases List.mem_cons.mp hy with hy | hy
    · subst hy
      rw [hstep, keep]
    · exact ih ⟨y, hy, hstep⟩ _

/-- The term of `SplitInfoAD` for a subset of size zero is NaN. -/
theorem splitInfo_term_zero (n : Int) :
    F64.mul (F64.div (F64.ofInt 0) (F64.ofInt n))
      (F64.log2 (F64.div (F64.ofInt 0) (F64.ofInt n))) = F64.nan := by
  by_cases h : (n : ℝ) = 0
  · simp [h]
  · simp [F64.div_fin h]

/-- A legal value without matching items turns the split information into NaN. -/
theorem SplitInfoAD_nan_of_empty_subset (attr : String) (rates : GoMap Int Int)
    (books : GoMap Int Book) (attrVals : List String)
    (h : ∃ val ∈ attrVals, (Split attr rates books val).1 = []) :
    SplitInfoAD attr rates books attrVals = F64.nan := by
  unfold SplitInfoAD
  apply foldl_nan_of_step
  · intro x
    simp
  · obtain ⟨val, hv, he⟩ := h
    refine ⟨val, hv, fun a => ?_⟩
    simp only [he, GoMap.len, List.length_nil, Nat.cast_zero]
    rw [splitInfo_term_zero]
    simp

/-- When every legal value has matching items, `SplitInfoAD` is the split information
with zero-size subsets skipped. -/
theorem SplitInfoAD_eq_skipping (attr : String) (rates : GoMap Int Int)
    (books : GoMap Int Book) (attrVals : List String)
    (h : ∀ val ∈ attrVals, (Split attr rates books val).1 ≠ []) :
    SplitInfoAD attr rates books attrVals = SplitInfoSkipping attr rates books attrVals := by
  unfold SplitInfoAD SplitInfoSkipping
  generalize F64.fin 0 = a
  induction attrVals generalizing a with
  | nil => rfl
  | cons v vs ih =>
    have hv : (Split attr rates books v).1.len ≠ 0 := by
      simpa [GoMap.len] using h v (List.mem_cons_self _ _)
    simp only [List.foldl_cons, hv, if_false]
    exact ih (fun val hval => h val (List.mem_cons_of_mem _ hval)) _

/-! ## Evaluation on the end-to-end scenario -/

theorem InfoD_pair (x : Int) : InfoD [x, x] = F64.fin 0 := by
  have h : countLabels [x, x] = [(x, 2)] := by
    simp [countLabels, GoMap.set, GoMap.getD, GoMap.get?]
  simp [InfoD, h, F64.div_fin]

theorem InfoD_alternating : InfoD [5, 1, 5, 1] = F64.fin 1 := by
  have c : countLabels [5, 1, 5, 1] = [(5, 2), (1, 2)] := by decide
  simp only [InfoD, c]
  have h : ((2 : ℝ) / 4) = 2⁻¹ := by norm_num
  simp [F64.div_fin, h, F64.log2_fin, logb_two_inv_two]
  norm_num

/-- An attribute with a legal value without matching items has gain ratio NaN. -/
theorem ratioOf_nan_of_empty_subset (rates : GoMap Int Int) (books : GoMap Int Book)
    (attrValues : GoMap String (List String)) (key : String)
    (h : ∃ val ∈ attrValues.getD key [], (Split key rates books val).1 = []) :
    ratioOf rates books attrValues key = F64.nan := by
  unfold ratioOf splitInfoOf
  rw [SplitInfoAD_nan_of_empty_subset _ _ _ _ h]
  simp

theorem endToEnd_ratio_genre (av : GoMap String (List String))
    (hv : GoMap.getD av "genre" [] = ["fiction", "romance"]) :
    ratioOf endToEnd.rates endToEnd.books av "genre" = F64.fin 1 := by
  have s1 : Split "genre" endToEnd.rates endToEnd.books "fiction" =
      ([(1, bookA), (3, bookA)], [5, 5]) := by decide
  have s2 : Split "genre" endToEnd.rates endToEnd.books "romance" =
      ([(2, bookB), (4, bookB)], [1, 1]) := by decide
  have hr : List.length endToEnd.rates = 4 := rfl
  have h24 : ((2 : ℝ) / 4) = 2⁻¹ := by norm_num
  have hl : List.map Prod.snd endToEnd.rates = [5, 1, 5, 1] := by decide
  have i1 : InfoAD "genre" endToEnd.rates endToEnd.books ["fiction", "romance"] =
      F64.fin 0 := by
    simp [InfoAD, s1, s2, hr, InfoD_pair, GoMap.len, F64.div_fin]
  have i2 : SplitInfoAD "genre" endToEnd.rates endToEnd.books ["fiction", "romance"] =
      F64.fin 1 := by
    simp [SplitInfoAD, s1, s2, hr, GoMap.len, F64.div_fin, h24, F64.log2_fin,
      logb_two_inv_two]
    norm_num
  simp [ratioOf, gainOf, splitInfoOf, hv, hl, i1, i2, InfoD_alternating, F64.div_fin]

theorem endToEnd_ratio_length (av : GoMap String (List String))
    (hv : GoMap.getD av "length" [] = ["Short", "Long"]) :
    ratioOf endToEnd.rates endToEnd.books av "length" = F64.fin 1 := by
  have s3 : Split "length" endToEnd.rates endToEnd.books "Short" =
      ([(1, bookA), (3, bookA)], [5, 5]) := by decide
  have s4 : Split "length" endToEnd.rates endToEnd.books "Long" =
      ([(2, bookB), (4, bookB)], [1, 1]) := by decide
  have hr : List.length endToEnd.rates = 4 := rfl
  have h24 : ((2 : ℝ) / 4) = 2⁻¹ := by norm_num
  have hl : List.map Prod.snd endToEnd.rates = [5, 1, 5, 1] := by decide
  have i3 : InfoAD "length" endToEnd.rates endToEnd.books ["Short", "Long"] =
      F64.fin 0 := by
    simp [InfoAD, s3, s4, hr, InfoD_pair, GoMap.len, F64.div_fin]
  have i4 : SplitInfoAD "length" endToEnd.rates endToEnd.books ["Short", "Long"] =
      F64.fin 1 := by
    simp [SplitInfoAD, s3, s4, hr, GoMap.len, F64.div_fin, h24, F64.log2_fin,
      logb_two_inv_two]
    norm_num
  simp [ratioOf, gainOf, splitInfoOf, hv, hl, i3, i4, InfoD_alternating, F64.div_fin]

theorem endToEnd_ratios :
    CalculateGainRatios endToEnd.rates endToEnd.books endToEnd.attrValues =
      [("genre", F64.fin 1), ("length", F64.fin 1)] := by
  have r1 := endToEnd_ratio_genre endToEnd.attrValues (by decide)
  have r2 := endToEnd_ratio_length endToEnd.attrValues (by decide)
  rw [CalculateGainRatios_eq]
  have ha : endToEnd.attrValues =
      [("genre", ["fiction", "romance"]), ("length", ["Short", "Long"])] := rfl
  rw [ha] at r1 r2 ⊢
  simp [List.foldl_cons, List.foldl_nil, GoMap.set, r1, r2]

theorem endToEndSwapped_ratios :
    CalculateGainRatios endToEndSwapped.rates endToEndSwapped.books
        endToEndSwapped.attrValues =
      [("length", F64.fin 1), ("genre", F64.fin 1)] := by
  have r1 := endToEnd_ratio_genre endToEndSwapped.attrValues (by decide)
  have r2 := endToEnd_ratio_length endToEndSwapped.attrValues (by decide)
  rw [CalculateGainRatios_eq]
  have ha : endToEndSwapped.attrValues =
      [("length", ["Short", "Long"]), ("genre", ["fiction", "romance"])] := rfl
  have hrb : endToEndSwapped.rates = endToEnd.rates ∧
      endToEndSwapped.books = endToEnd.books := ⟨rfl, rfl⟩
  rw [hrb.1, hrb.2]
  rw [ha] at r1 r2 ⊢
  simp [List.foldl_cons, List.foldl_nil, GoMap.set, r1, r2]

theorem fiction_ratios :
    CalculateGainRatios fictionStore.rates fictionStore.books fictionStore.attrValues =
      [("length", F64.nan)] := by
  have r2 := ratioOf_nan_of_empty_subset fictionStore.rates fictionStore.books
    fictionStore.attrValues "length" ⟨"Long", by decide, by decide⟩
  rw [CalculateGainRatios_eq]
  have ha : fictionStore.attrValues = [("length", ["Short", "Long"])] := rfl
  rw [ha] at r2 ⊢
  simp [List.foldl_cons, List.foldl_nil, GoMap.set, r2]

theorem short_ratios :
    CalculateGainRatios shortStore.rates shortStore.books shortStore.attrValues =
      [("genre", F64.nan)] := by
  have r2 := ratioOf_nan_of_empty_subset shortStore.rates shortStore.books
    shortStore.attrValues "genre" ⟨"romance", by decide, by decide⟩
  rw [CalculateGainRatios_eq]
  have ha : shortStore.attrValues = [("genre", ["fiction", "romance"])] := rfl
  rw [ha] at r2 ⊢
  simp [List.foldl_cons, List.foldl_nil, GoMap.set, r2]

theorem endToEnd_tree :
    BuildTree endToEnd = some (endToEndTree, ⟨[], [], [("length", ["Short", "Long"])]⟩) := by
  have hg : GetBest (CalculateGainRatios endToEnd.rates endToEnd.books endToEnd.attrValues)
      = ("genre", F64.fin 1) := by
    rw [endToEnd_ratios]; simp [GetBest]
  have hv : GoMap.getD endToEnd.attrValues "genre" [] = ["fiction", "romance"] := by decide
  have d1 : SplitDataset "genre" "fiction" endToEnd.rates endToEnd.books =
      (fictionStore.rates, fictionStore.books) := by decide
  have d2 : SplitDataset "genre" "romance" fictionStore.rates fictionStore.books =
      ([], []) := by decide
  have da : GoMap.delete endToEnd.attrValues "genre" = fictionStore.attrValues := by decide
  have db : GoMap.delete fictionStore.attrValues "genre" = fictionStore.attrValues := by
    decide
  have l1 : BuildTreeFuel 2 fictionStore =
      some (Node.mk "" "" [] true 5, fictionStore) := by
    rw [BuildTreeFuel_leaf]
    · rfl
    · rw [fiction_ratios]; simp [GetBest]
  unfold BuildTree
  rw [show endToEnd.attrValues.len + 1 = 2 + 1 from rfl,
    BuildTreeFuel_node _ _ (by rw [hg]; simp)]
  rw [hg]
  simp only [hv, buildChildren, d1, da, l1, Node.appendChild, Node.setValue]
  simp only [d2, db, BuildTreeFuel_empty, List.nil_append, List.cons_append]
  rfl

theorem endToEndSwapped_tree :
    BuildTree endToEndSwapped =
      some (endToEndSwappedTree, ⟨[], [], [("genre", ["fiction", "romance"])]⟩) := by
  have hg : GetBest (CalculateGainRatios endToEndSwapped.rates endToEndSwapped.books
      endToEndSwapped.attrValues) = ("length", F64.fin 1) := by
    rw [endToEndSwapped_ratios]; simp [GetBest]
  have hv : GoMap.getD endToEndSwapped.attrValues "length" [] = ["Short", "Long"] := by
    decide
  have d1 : SplitDataset "length" "Short" endToEndSwapped.rates endToEndSwapped.books =
      (shortStore.rates, shortStore.books) := by decide
  have d2 : SplitDataset "length" "Long" shortStore.rates shortStore.books =
      ([], []) := by decide
  have da : GoMap.delete endToEndSwapped.attrValues "length" = shortStore.attrValues := by
    decide
  have db : GoMap.delete shortStore.attrValues "length" = shortStore.attrValues := by
    decide
  have l1 : BuildTreeFuel 2 shortStore =
      some (Node.mk "" "" [] true 5, shortStore) := by
    rw [BuildTreeFuel_leaf]
    · rfl
    · rw [short_ratios]; simp [GetBest]
  unfold BuildTree
  rw [show endToEndSwapped.attrValues.len + 1 = 2 + 1 from rfl,
    BuildTreeFuel_node _ _ (by rw [hg]; simp)]
  rw [hg]
  simp only [hv, buildChildren, d1, da, l1, Node.appendChild, Node.setValue]
  simp only [d2, db, BuildTreeFuel_empty, List.nil_append, List.cons_append]
  rfl

/-! ## Tree builder: verified properties -/

/-- C1: on `twoBooks` the internal node on `genre` gets, for the second legal value
`romance`, a child built from the empty dataset (a leaf classified `-1`), because
`SplitDataset` for `fiction` has already removed the `romance` item from the shared
maps; the tree built from exactly the `romance` items, as handed over had `romance`
been processed first, is a leaf classified `1`. -/
theorem BuildTree_sibling_sees_deletions :
    BuildTree twoBooks =
        some (Node.mk "genre" ""
          [Node.mk "" "fiction" [] true 5, Node.mk "" "romance" [] true (-1)] false 0,
          ⟨[], [], []⟩) ∧
      BuildTree
          ⟨(SplitDataset "genre" "romance" twoBooks.rates twoBooks.books).1,
            (SplitDataset "genre" "romance" twoBooks.rates twoBooks.books).2,
            GoMap.delete twoBooks.attrValues "genre"⟩ =
        some (Node.mk "" "" [] true 1, ⟨[(2, 1)], [(2, ⟨[]⟩)], []⟩) ∧
      Node.mk "" "romance" [] true (-1) ≠ (Node.mk "" "" [] true 1).setValue "romance" :=
  ⟨twoBooks_tree, twoBooks_romance_alone, by simp [Node.setValue]⟩

/-- C2: on the end-to-end scenario (A rated 5, B rated 1, each twice; `genre` alone
determines the label) the tree built has depth 1 and predicts 5 for A, but predicts
`-1` for B, so `Classify` on the training set as it was before the call is 1/2, not 1;
the call has emptied the training maps themselves, on which `Classify` is NaN.  When
the tie between `genre` and `length` goes to `length`, the tree is the mirror image and
B is again predicted `-1`. -/
theorem BuildTree_endToEnd_misclassifies :
    (BuildTree endToEnd = some (endToEndTree, ⟨[], [], [("length", ["Short", "Long"])]⟩) ∧
      endToEndTree.depth = 1 ∧
      Predict endToEndTree bookA = 5 ∧
      Predict endToEndTree bookB = -1 ∧
      Classify endToEndTree endToEnd.rates endToEnd.books = F64.fin (1 / 2) ∧
      Classify endToEndTree [] [] = F64.nan) ∧
    (BuildTree endToEndSwapped =
        some (endToEndSwappedTree, ⟨[], [], [("genre", ["fiction", "romance"])]⟩) ∧
      Predict endToEndSwappedTree bookA = 5 ∧
      Predict endToEndSwappedTree bookB = -1 ∧
      Classify endToEndSwappedTree endToEnd.rates endToEnd.books = F64.fin (1 / 2)) := by
  have hb : endToEnd.books ≠ [] := by decide
  have hl : endToEnd.books.length = 4 := rfl
  refine ⟨⟨endToEnd_tree, by decide, by decide, by decide, ?_, ?_⟩,
    ⟨endToEndSwapped_tree, by decide, by decide, ?_⟩⟩
  · have hm : numCorrect endToEndTree endToEnd.rates endToEnd.books = 2 := by decide
    rw [Classify_eq _ _ _ hb, hm, hl]
    norm_num
  · simp [Classify, countCorrect, GoMap.len]
  · have hm : numCorrect endToEndSwappedTree endToEnd.rates endToEnd.books = 2 := by decide
    rw [Classify_eq _ _ _ hb, hm, hl]
    norm_num

/-- C3 (as amended): for every attribute domain, `BuildTree` on the empty dataset
returns a leaf whose `Classification` is `-1`, and leaves the maps unchanged. -/
theorem BuildTree_empty_dataset (attrValues : GoMap String (List String)) :
    BuildTree ⟨[], [], attrValues⟩ =
      some (Node.mk "" "" [] true (-1), ⟨[], [], attrValues⟩) :=
  BuildTree_empty attrValues

/-- C3 as stated fails: on the empty dataset with the domain `genre ∈ {fiction, romance}`
the returned leaf is classified `-1`, not `0`. -/
theorem BuildTree_empty_dataset_not_zero :
    ∃ t s, BuildTree ⟨[], [], [("genre", ["fiction", "romance"])]⟩ = some (t, s) ∧
      t.IsLeaf = true ∧ t.Classification = -1 ∧ t.Classification ≠ 0 :=
  ⟨_, _, BuildTree_empty _, rfl, rfl, by decide⟩

/-- C10: for every dataset and attribute domain `BuildTree` returns (the recursion
budget, one more than the number of attributes, is never used up, each recursive call
being made on a strictly smaller domain, and every larger budget gives the same
result), and the depth of the returned tree is at most the number of attributes of the
domain passed to the call. -/
theorem BuildTree_returns_depth_le (st : Store) :
    ∃ t s, BuildTree st = some (t, s) ∧ t.depth ≤ st.attrValues.len ∧
      ∀ fuel, st.attrValues.len < fuel → BuildTreeFuel fuel st = some (t, s) := by
  obtain ⟨t, s, h, hd, _⟩ :=
    BuildTreeFuel_returns (st.attrValues.len + 1) st (Nat.lt_succ_self _)
  refine ⟨t, s, h, hd, fun fuel hf => ?_⟩
  rw [BuildTreeFuel_eq_BuildTree fuel st hf]
  exact h

/-- Instance of the termination theorem (C10) on the end-to-end scenario: two attributes,
a tree of depth 1, and the same result with a budget of 7. -/
theorem BuildTree_returns_depth_le_witness :
    endToEnd.attrValues.len = 2 ∧ endToEndTree.depth = 1 ∧
      BuildTreeFuel 7 endToEnd =
        some (endToEndTree, ⟨[], [], [("length", ["Short", "Long"])]⟩) := by
  obtain ⟨t, s, h, _, hf⟩ := BuildTree_returns_depth_le endToEnd
  refine ⟨rfl, by decide, ?_⟩
  rw [hf 7 (by decide), ← h]
  exact endToEnd_tree

/-! ## Entropy and gain ratio: verified properties -/

/-- C8: with one book whose `genre` is `fiction` and the legal values `fiction` and
`romance`, `SplitInfoAD` evaluates `0 * log2(0)` for `romance` and returns NaN, whereas
the split information with the zero-size subset skipped is 0. -/
theorem SplitInfoAD_zero_subset_nan :
    SplitInfoAD "genre" [(1, 5)] [(1, ⟨[("genre", "fiction")]⟩)] ["fiction", "romance"] =
        F64.nan ∧
      SplitInfoSkipping "genre" [(1, 5)] [(1, ⟨[("genre", "fiction")]⟩)]
        ["fiction", "romance"] = F64.fin 0 := by
  constructor
  · exact SplitInfoAD_nan_of_empty_subset _ _ _ _ ⟨"romance", by decide, by decide⟩
  · have s1 : Split "genre" [(1, 5)] [(1, ⟨[("genre", "fiction")]⟩)] "fiction" =
        ([(1, ⟨[("genre", "fiction")]⟩)], [5]) := by decide
    have s2 : Split "genre" [(1, 5)] [(1, ⟨[("genre", "fiction")]⟩)] "romance" =
        ([], []) := by decide
    simp [SplitInfoSkipping, s1, s2, GoMap.len, F64.div_fin]

/-- C9: the map returned by `CalculateGainRatios` has exactly the keys of `attrValues`,
and the entry of each attribute is gain / split information when the split information
is not 0 (`!=`) and 0 when it is 0 (`==`), where gain is `InfoD(all labels) -
InfoAD(attribute)` and split information is `SplitInfoAD(attribute)`. -/
theorem CalculateGainRatios_entries (rates : GoMap Int Int) (books : GoMap Int Book)
    (attrValues : GoMap String (List String)) :
    (∀ key, key ∈ GoMap.keys (CalculateGainRatios rates books attrValues) ↔
        key ∈ GoMap.keys attrValues) ∧
      ∀ key ∈ GoMap.keys attrValues,
        (F64.ne (splitInfoOf rates books attrValues key) (F64.fin 0) →
          GoMap.get? (CalculateGainRatios rates books attrValues) key =
            some (F64.div (gainOf rates books attrValues key)
              (splitInfoOf rates books attrValues key))) ∧
        (F64.eq (splitInfoOf rates books attrValues key) (F64.fin 0) →
          GoMap.get? (CalculateGainRatios rates books attrValues) key = some (F64.fin 0)) := by
  refine ⟨CalculateGainRatios_keys rates books attrValues, ?_⟩
  intro key hkey
  obtain ⟨v, hv⟩ := GoMap.get?_isSome_of_mem_keys
    ((CalculateGainRatios_keys rates books attrValues key).mpr hkey)
  have hr := (CalculateGainRatios_entry rates books attrValues (GoMap.mem_of_get? hv)).2
  simp only at hr
  rw [hv, hr]
  constructor
  · intro hne
    rw [ratioOf, if_pos hne]
  · intro heq
    rw [ratioOf, if_neg (fun hne => hne heq)]

/-- Instance of the gain-ratio theorem (C9) on `twoBooks`: the key `genre` has split
information 1, and its entry is gain / split information. -/
theorem CalculateGainRatios_entries_witness :
    "genre" ∈ GoMap.keys twoBooks.attrValues ∧
      F64.ne (splitInfoOf twoBooks.rates twoBooks.books twoBooks.attrValues "genre")
        (F64.fin 0) ∧
      GoMap.get? (CalculateGainRatios twoBooks.rates twoBooks.books twoBooks.attrValues)
          "genre" =
        some (F64.div (gainOf twoBooks.rates twoBooks.books twoBooks.attrValues "genre")
          (splitInfoOf twoBooks.rates twoBooks.books twoBooks.attrValues "genre")) :=
  have hne : F64.ne (splitInfoOf twoBooks.rates twoBooks.books twoBooks.attrValues "genre")
      (F64.fin 0) := by rw [twoBooks_splitInfo]; simp
  ⟨by decide, hne,
    ((CalculateGainRatios_entries twoBooks.rates twoBooks.books twoBooks.attrValues).2
      "genre" (by decide)).1 hne⟩

/-! ## Attribute selection and majority class: verified properties -/

theorem majorityClass_eq_majorityOver (labels : List Int) :
    majorityClass labels = majorityOver (countLabels labels) := rfl

namespace F64

theorem gt_irrefl (a : F64) : ¬ gt a a := by
  cases a <;> simp [gt]

theorem gt_trans {a b c : F64} (h1 : gt a b) (h2 : gt b c) : gt a c := by
  cases a <;> cases b <;> cases c <;> simp [gt] at h1 h2 ⊢
  exact lt_trans h2 h1

end F64

/-- Invariants of the loop of `GetBest`. -/
theorem GetBest_foldl_max (l : List (String × F64)) (acc : String × F64) :
    (l.foldl (fun acc e => if F64.gt e.2 acc.2 then (e.1, e.2) else acc) acc = acc ∨
      (l.foldl (fun acc e => if F64.gt e.2 acc.2 then (e.1, e.2) else acc) acc ∈ l ∧
        F64.gt (l.foldl (fun acc e => if F64.gt e.2 acc.2 then (e.1, e.2) else acc) acc).2
          acc.2)) ∧
      ∀ e ∈ l, ¬ F64.gt e.2
        (l.foldl (fun acc e => if F64.gt e.2 acc.2 then (e.1, e.2) else acc) acc).2 := by
  induction l generalizing acc with
  | nil => exact ⟨Or.inl rfl, by simp⟩
  | cons a l ih =>
    simp only [List.foldl_cons]
    obtain ⟨h1, h2⟩ := ih (if F64.gt a.2 acc.2 then (a.1, a.2) else acc)
    by_cases hg : F64.gt a.2 acc.2
    · simp only [hg, if_true] at h1 h2 ⊢
      refine ⟨Or.inr ?_, ?_⟩
      · rcases h1 with h1 | ⟨h1, h1'⟩
        · rw [h1]
          exact ⟨List.mem_cons_self _ _, hg⟩
        · exact ⟨List.mem_cons_of_mem _ h1, F64.gt_trans h1' hg⟩
      · intro e he
        rcases List.mem_cons.mp he with he | he
        · subst he
          rcases h1 with h1 | ⟨_, h1'⟩
          · rw [h1]; exact F64.gt_irrefl _
          · exact fun h => F64.gt_irrefl _ (F64.gt_trans h h1')
        · exact h2 e he
    · simp only [hg, if_false] at h1 h2 ⊢
      refine ⟨?_, ?_⟩
      · rcases h1 with h1 | ⟨h1, h1'⟩
        · exact Or.inl h1
        · exact Or.inr ⟨List.mem_cons_of_mem _ h1, h1'⟩
      · intro e he
        rcases List.mem_cons.mp he with he | he
        · subst he
          rcases h1 with h1 | ⟨_, h1'⟩
          · rw [h1]; exact hg
          · exact fun h => hg (F64.gt_trans h h1')
        · exact h2 e he

/-- C16: `GetBest` returns `(best, max)` where `max` is the greatest of 0 and the ratio
values (it is 0 or the ratio of `best`, it is not below 0, and no ratio exceeds it); when
`max > 0` the pair `(best, max)` is an entry of the map, so an attribute whose ratio is
not above 0 is never selected, and when no ratio exceeds 0 (the empty map included) the
result is the empty name with `max = 0`. -/
theorem GetBest_greatest (ratios : GoMap String F64) :
    (GetBest ratios = ("", F64.fin 0) ∨
        (GetBest ratios ∈ ratios ∧ F64.gt (GetBest ratios).2 (F64.fin 0))) ∧
      ¬ F64.gt (F64.fin 0) (GetBest ratios).2 ∧
      (∀ e ∈ ratios, ¬ F64.gt e.2 (GetBest ratios).2) ∧
      ((∀ e ∈ ratios, ¬ F64.gt e.2 (F64.fin 0)) → GetBest ratios = ("", F64.fin 0)) := by
  obtain ⟨h1, h2⟩ := GetBest_foldl_max ratios ("", F64.fin 0)
  refine ⟨h1, ?_, h2, GetBest_of_not_gt ratios⟩
  rcases h1 with h1 | ⟨_, h1⟩
  · unfold GetBest; rw [h1]; exact F64.gt_irrefl _
  · exact fun h => F64.gt_irrefl _ (F64.gt_trans h h1)

/-- Invariants of the second loop of `majorityClass`. -/
theorem majority_foldl (l : List (Int × Int)) (acc : Int × Int) :
    (l.foldl (fun acc e => if e.2 > acc.1 then (e.2, e.1) else acc) acc = acc ∨
      ((l.foldl (fun acc e => if e.2 > acc.1 then (e.2, e.1) else acc) acc).2,
        (l.foldl (fun acc e => if e.2 > acc.1 then (e.2, e.1) else acc) acc).1) ∈ l) ∧
      acc.1 ≤ (l.foldl (fun acc e => if e.2 > acc.1 then (e.2, e.1) else acc) acc).1 ∧
      ∀ e ∈ l, e.2 ≤ (l.foldl (fun acc e => if e.2 > acc.1 then (e.2, e.1) else acc) acc).1 := by
  induction l generalizing acc with
  | nil => exact ⟨Or.inl rfl, le_refl _, by simp⟩
  | cons a l ih =>
    simp only [List.foldl_cons]
    obtain ⟨h1, h2, h3⟩ := ih (if a.2 > acc.1 then (a.2, a.1) else acc)
    by_cases hg : a.2 > acc.1
    · simp only [hg, if_true] at h1 h2 h3 ⊢
      refine ⟨Or.inr ?_, by omega, ?_⟩
      · rcases h1 with h1 | h1
        · rw [h1]; exact List.mem_cons_self _ _
        · exact List.mem_cons_of_mem _ h1
      · intro e he
        rcases List.mem_cons.mp he with he | he
        · subst he; exact h2
        · exact h3 e he
    · simp only [hg, if_false] at h1 h2 h3 ⊢
      refine ⟨?_, h2, ?_⟩
      · rcases h1 with h1 | h1
        · exact Or.inl h1
        · exact Or.inr (List.mem_cons_of_mem _ h1)
      · intro e he
        rcases List.mem_cons.mp he with he | he
        · subst he; omega
        · exact h3 e he

theorem mem_countLabels_of_mem {labels : List Int} {x : Int} (hx : x ∈ labels) :
    (x, (labels.count x : Int)) ∈ countLabels labels := by
  have hk : x ∈ GoMap.keys (countLabels labels) := by
    have := (countLabels_foldl_keys labels [] x).mpr (Or.inr hx)
    exact this
  obtain ⟨e, he, hex⟩ := List.mem_map.mp hk
  have h2 := (countLabels_entry labels he).2
  have : e = (x, (labels.count x : Int)) := by
    rw [← hex]
    exact Prod.ext rfl h2
  rw [← this]
  exact he

/-- The majority over any visiting order of the class counts is a most frequent label. -/
theorem majorityOver_most_frequent (labels : List Int) (h : labels ≠ [])
    (it : List (Int × Int)) (hp : it.Perm (countLabels labels)) :
    majorityOver it ∈ labels ∧
      ∀ x ∈ labels, labels.count x ≤ labels.count (majorityOver it) := by
  obtain ⟨x0, hx0⟩ := List.exists_mem_of_ne_nil labels h
  have hx0' : (x0, (labels.count x0 : Int)) ∈ it := hp.mem_iff.mpr (mem_countLabels_of_mem hx0)
  obtain ⟨h1, _, h3⟩ := majority_foldl it ((-1 : Int), (-1 : Int))
  have hpos : (0 : Int) ≤ (it.foldl (fun acc e => if e.2 > acc.1 then (e.2, e.1) else acc)
      ((-1 : Int), (-1 : Int))).1 := by
    have := h3 _ hx0'
    simp only at this
    omega
  have hmem : ((it.foldl (fun acc e => if e.2 > acc.1 then (e.2, e.1) else acc)
        ((-1 : Int), (-1 : Int))).2,
      (it.foldl (fun acc e => if e.2 > acc.1 then (e.2, e.1) else acc)
        ((-1 : Int), (-1 : Int))).1) ∈ countLabels labels := by
    rcases h1 with h1 | h1
    · rw [h1] at hpos; simp at hpos
    · exact hp.mem_iff.mp h1
  obtain ⟨hin, hcount⟩ := countLabels_entry labels hmem
  simp only at hin hcount
  refine ⟨hin, fun x hx => ?_⟩
  have hle := h3 _ (hp.mem_iff.mpr (mem_countLabels_of_mem hx))
  simp only at hle
  unfold majorityOver
  rw [hcount] at hle
  exact_mod_cast hle

/-- C17: for a non-empty label list `majorityClass` returns a label of the list whose
number of occurrences is at least that of every label of the list; the same holds
whatever the order in which the class counts are visited. -/
theorem majorityClass_most_frequent (labels : List Int) (h : labels ≠ []) :
    (majorityClass labels ∈ labels ∧
      ∀ x ∈ labels, labels.count x ≤ labels.count (majorityClass labels)) ∧
    ∀ it : List (Int × Int), it.Perm (countLabels labels) →
      (majorityOver it ∈ labels ∧
        ∀ x ∈ labels, labels.count x ≤ labels.count (majorityOver it)) :=
  ⟨majorityOver_most_frequent labels h (countLabels labels) (List.Perm.refl _),
    fun it hp => majorityOver_most_frequent labels h it hp⟩

/-- Instance of the majority theorem (C17): in `[1, 2, 2, 3]` the label 2 is returned. -/
theorem majorityClass_most_frequent_witness :
    ([1, 2, 2, 3] : List Int) ≠ [] ∧ majorityClass [1, 2, 2, 3] = 2 ∧
      majorityClass [1, 2, 2, 3] ∈ ([1, 2, 2, 3] : List Int) :=
  ⟨by decide, by decide, (majorityClass_most_frequent [1, 2, 2, 3] (by decide)).1.1⟩

/-! ## Trees: nodes, paths and the build invariant -/

theorem Node.induct {P : Node → Prop}
    (h : ∀ a v cs l c, (∀ x ∈ cs, P x) → P (Node.mk a v cs l c)) (t : Node) : P t :=
  @Node.rec P (fun cs => ∀ x ∈ cs, P x) (fun a v cs l c ih => h a v cs l c ih)
    (fun x hx => by simp at hx)
    (fun hd tl ih1 ih2 x hx => by
      rcases List.mem_cons.mp hx with hx | hx
      · exact hx ▸ ih1
      · exact ih2 x hx) t

theorem mem_nodesList {cs : List Node} {n : Node} :
    n ∈ nodesList cs ↔ ∃ c ∈ cs, n ∈ c.nodes := by
  induction cs with
  | nil => simp [nodesList]
  | cons c cs ih => simp [nodesList, ih]

theorem mem_pathsList {cs : List Node} {p : List String} :
    p ∈ pathsList cs ↔ ∃ c ∈ cs, p ∈ c.paths := by
  induction cs with
  | nil => simp [pathsList]
  | cons c cs ih => simp [pathsList, ih]

theorem BuiltOnList_iff {cs : List Node} {D : GoMap String (List String)} :
    BuiltOnList cs D ↔ ∀ c ∈ cs, c.BuiltOn D := by
  induction cs with
  | nil => simp [BuiltOnList]
  | cons c cs ih => simp [BuiltOnList, ih]

theorem Node.mem_nodes_self (t : Node) : t ∈ t.nodes := by
  cases t with
  | mk a v cs l c => simp [Node.nodes]

namespace GoMap
variable {K V : Type} [DecidableEq K]

theorem mem_keys_delete {m : GoMap K V} {k x : K} :
    x ∈ keys (delete m k) ↔ x ∈ keys m ∧ x ≠ k := by
  simp only [keys, delete, List.mem_map, List.mem_filter, decide_eq_true_eq]
  constructor
  · rintro ⟨e, ⟨he, hne⟩, rfl⟩
    exact ⟨⟨e, he, rfl⟩, hne⟩
  · rintro ⟨⟨e, he, rfl⟩, hne⟩
    exact ⟨e, ⟨he, hne⟩, rfl⟩

theorem get?_delete_ne (m : GoMap K V) {k x : K} (h : x ≠ k) :
    get? (delete m k) x = get? m x := by
  induction m with
  | nil => rfl
  | cons hd tl ih =>
    by_cases hk : hd.1 = k
    · have hx : ¬ hd.1 = x := fun e => h (e ▸ hk)
      have : delete (hd :: tl) k = delete tl k := by
        simp [delete, List.filter_cons, hk]
      rw [this, ih]
      simp [get?, hx]
    · have : delete (hd :: tl) k = hd :: delete tl k := by
        simp [delete, List.filter_cons, hk]
      rw [this]
      simp only [get?, ih]

theorem getD_delete_ne (m : GoMap K V) {k x : K} (h : x ≠ k) (d : V) :
    getD (delete m k) x d = getD m x d := by
  simp only [getD, get?_delete_ne m h]

end GoMap

theorem SubDom.refl (D : GoMap String (List String)) : SubDom D D :=
  fun _ hk => ⟨hk, rfl⟩

theorem SubDom.trans {D1 D2 D3 : GoMap String (List String)} (h12 : SubDom D1 D2)
    (h23 : SubDom D2 D3) : SubDom D1 D3 := fun k hk =>
  ⟨(h23 k (h12 k hk).1).1, (h12 k hk).2.trans (h23 k (h12 k hk).1).2⟩

theorem SubDom.delete (D : GoMap String (List String)) (a : String) :
    SubDom (GoMap.delete D a) D := fun _ hk =>
  ⟨(GoMap.mem_keys_delete.mp hk).1, GoMap.getD_delete_ne D (GoMap.mem_keys_delete.mp hk).2 []⟩

theorem SubDom.delete_delete {D' D : GoMap String (List String)} (h : SubDom D' D)
    (a : String) : SubDom (GoMap.delete D' a) (GoMap.delete D a) := fun k hk => by
  obtain ⟨hk1, hk2⟩ := GoMap.mem_keys_delete.mp hk
  refine ⟨GoMap.mem_keys_delete.mpr ⟨(h k hk1).1, hk2⟩, ?_⟩
  rw [GoMap.getD_delete_ne D' hk2, GoMap.getD_delete_ne D hk2]
  exact (h k hk1).2

/-- The build invariant over a part of a domain holds over the domain. -/
theorem BuiltOn_of_SubDom (t : Node) :
    ∀ D' D : GoMap String (List String), SubDom D' D → t.BuiltOn D' → t.BuiltOn D := by
  induction t using Node.induct with
  | h a v cs l c ih =>
    intro D' D hsub hb
    by_cases hl : l = true
    · simpa [Node.BuiltOn, hl] using hb
    · simp only [Node.BuiltOn, hl, if_false] at hb ⊢
      obtain ⟨h1, h2, h3⟩ := hb
      refine ⟨(hsub a h1).1, h2.trans (hsub a h1).2, ?_⟩
      rw [BuiltOnList_iff] at h3 ⊢
      intro x hx
      exact ih x hx _ _ (SubDom.delete_delete hsub a) (h3 x hx)

theorem BuiltOn_setValue (c : Node) (val : String) (D : GoMap String (List String)) :
    (c.setValue val).BuiltOn D ↔ c.BuiltOn D := by
  cases c with
  | mk a v cs l k => simp [Node.setValue, Node.BuiltOn]

theorem Value_setValue (c : Node) (val : String) : (c.setValue val).Value = val := by
  cases c with
  | mk a v cs l k => rfl

/-- The children loop: the node gains one child per value, tagged with it, each child
satisfying `Pc` and the maps satisfying `R` throughout, provided the recursive call
guarantees both. -/
theorem buildChildren_inv (build : Store → Option (Node × Store)) (best : String)
    (R : Store → Prop) (Pc : Node → Prop)
    (hb : ∀ (cur : Store) (val : String) (child : Node) (next : Store), R cur →
      build ⟨(SplitDataset best val cur.rates cur.books).1,
        (SplitDataset best val cur.rates cur.books).2,
        GoMap.delete cur.attrValues best⟩ = some (child, next) →
      Pc (child.setValue val) ∧ R next)
    (vals : List String) (a v : String) (cs : List Node) (k : Int) (cur : Store)
    (t : Node) (s : Store) (hR : R cur)
    (h : buildChildren build best vals (Node.mk a v cs false k) cur = some (t, s)) :
    ∃ children, t = Node.mk a v (cs ++ children) false k ∧
      children.map Node.Value = vals ∧ (∀ c ∈ children, Pc c) ∧ R s := by
  induction vals generalizing cs cur with
  | nil =>
    simp only [buildChildren, Option.some.injEq, Prod.mk.injEq] at h
    exact ⟨[], by simp [h.1], rfl, by simp, h.2 ▸ hR⟩
  | cons val rest ih =>
    simp only [buildChildren] at h
    cases hrec : build ⟨(SplitDataset best val cur.rates cur.books).1,
        (SplitDataset best val cur.rates cur.books).2,
        GoMap.delete cur.attrValues best⟩ with
    | none => rw [hrec] at h; simp at h
    | some p =>
      obtain ⟨child, next⟩ := p
      rw [hrec] at h
      simp only [Node.appendChild] at h
      obtain ⟨hPc, hRn⟩ := hb cur val child next hR hrec
      obtain ⟨children, ht, hv, hc, hs⟩ := ih _ _ hRn h
      refine ⟨child.setValue val :: children, by simp [ht], ?_, ?_, hs⟩
      · simp [Value_setValue, hv]
      · intro c hc'
        rcases List.mem_cons.mp hc' with hc' | hc'
        · exact hc' ▸ hPc
        · exact hc c hc'

/-- Every tree returned by the builder satisfies the build invariant over the domain it
was called with, and the domain left behind is a part of that domain. -/
theorem BuildTreeFuel_BuiltOn (fuel : Nat) (st : Store) (t : Node) (s : Store)
    (h : BuildTreeFuel fuel st = some (t, s)) :
    t.BuiltOn st.attrValues ∧ SubDom s.attrValues st.attrValues ∧ t.Value = "" := by
  induction fuel generalizing st t s with
  | zero => simp [BuildTreeFuel] at h
  | succ fuel ih =>
    by_cases hg :
        F64.eq (GetBest (CalculateGainRatios st.rates st.books st.attrValues)).2 (F64.fin 0)
    · rw [BuildTreeFuel_leaf fuel st hg] at h
      simp only [Option.some.injEq, Prod.mk.injEq] at h
      rw [← h.1, ← h.2]
      exact ⟨by simp [Node.BuiltOn], SubDom.refl _, rfl⟩
    · rw [BuildTreeFuel_node fuel st hg] at h
      have hkey : (GetBest (CalculateGainRatios st.rates st.books st.attrValues)).1 ∈
          GoMap.keys st.attrValues :=
        (CalculateGainRatios_keys _ _ _ _).mp (GetBest_mem_keys _ hg)
      obtain ⟨children, ht, hv, hc, hs⟩ := buildChildren_inv (BuildTreeFuel fuel) _
        (fun cur => SubDom cur.attrValues st.attrValues)
        (fun c => c.BuiltOn (GoMap.delete st.attrValues
          (GetBest (CalculateGainRatios st.rates st.books st.attrValues)).1))
        (fun cur val child next hR hrec => by
          obtain ⟨h1, h2, _⟩ := ih _ _ _ hrec
          exact ⟨(BuiltOn_setValue _ _ _).mpr
              (BuiltOn_of_SubDom child _ _ (SubDom.delete_delete hR _) h1),
            (h2.trans (SubDom.delete _ _)).trans hR⟩)
        _ _ _ _ _ _ _ _ (SubDom.refl _) h
      subst ht
      refine ⟨?_, hs, rfl⟩
      simp only [Node.BuiltOn, Bool.false_eq_true, if_false, List.nil_append]
      exact ⟨hkey, hv, BuiltOnList_iff.mpr hc⟩

theorem nodes_setValue (c : Node) (val : String) :
    (c.setValue val).nodes = c.setValue val :: nodesList c.Children := by
  cases c with
  | mk a v cs l k => simp [Node.setValue, Node.nodes, Node.Children]

theorem nodes_eq (c : Node) : c.nodes = c :: nodesList c.Children := by
  cases c with
  | mk a v cs l k => simp [Node.nodes, Node.Children]

theorem paths_setValue (c : Node) (val : String) : (c.setValue val).paths = c.paths := by
  cases c with
  | mk a v cs l k => simp [Node.setValue, Node.paths]

/-- Under the build invariant every internal node splits on a key of the domain and has
one child per legal value of that key, tagged with it, in order. -/
theorem BuiltOn_nodes (t : Node) :
    ∀ D : GoMap String (List String), t.BuiltOn D → ∀ n ∈ t.nodes, n.IsLeaf = false →
      n.Attribute ∈ GoMap.keys D ∧ n.Children.map Node.Value = D.getD n.Attribute [] := by
  induction t using Node.induct with
  | h a v cs l c ih =>
    intro D hb n hn hleaf
    cases l with
    | true =>
      simp only [Node.BuiltOn, if_true] at hb
      subst hb
      simp only [Node.nodes, nodesList, List.mem_singleton] at hn
      subst hn
      simp [Node.IsLeaf] at hleaf
    | false =>
      simp only [Node.BuiltOn, Bool.false_eq_true, if_false] at hb
      obtain ⟨h1, h2, h3⟩ := hb
      simp only [Node.nodes, List.mem_cons] at hn
      rcases hn with hn | hn
      · subst hn
        exact ⟨h1, h2⟩
      · obtain ⟨x, hx, hnx⟩ := mem_nodesList.mp hn
        obtain ⟨k1, k2⟩ := ih x hx _ (BuiltOnList_iff.mp h3 x hx) n hnx hleaf
        obtain ⟨k3, k4⟩ := GoMap.mem_keys_delete.mp k1
        exact ⟨k3, k2.trans (GoMap.getD_delete_ne D k4 [])⟩

/-- Under the build invariant no attribute occurs twice on a path, and every attribute on
a path is a key of the domain. -/
theorem BuiltOn_paths (t : Node) :
    ∀ D : GoMap String (List String), t.BuiltOn D → ∀ p ∈ t.paths,
      p.Nodup ∧ ∀ a ∈ p, a ∈ GoMap.keys D := by
  induction t using Node.induct with
  | h a v cs l c ih =>
    intro D hb p hp
    cases l with
    | true =>
      simp only [Node.paths, if_true, List.mem_singleton] at hp
      subst hp
      simp
    | false =>
      simp only [Node.BuiltOn, Bool.false_eq_true, if_false] at hb
      obtain ⟨h1, _, h3⟩ := hb
      simp only [Node.paths, Bool.false_eq_true, if_false] at hp
      by_cases hcs : cs.isEmpty = true
      · rw [if_pos hcs, List.mem_singleton] at hp
        subst hp
        simpa using h1
      · rw [if_neg hcs, List.mem_map] at hp
        obtain ⟨q, hq, hqp⟩ := hp
        subst hqp
        obtain ⟨x, hx, hqx⟩ := mem_pathsList.mp hq
        obtain ⟨k1, k2⟩ := ih x hx _ (BuiltOnList_iff.mp h3 x hx) q hqx
        refine ⟨List.nodup_cons.mpr ⟨fun hmem => ?_, k1⟩, ?_⟩
        · exact (GoMap.mem_keys_delete.mp (k2 a hmem)).2 rfl
        · intro b hb'
          rcases List.mem_cons.mp hb' with hb' | hb'
          · exact hb' ▸ h1
          · exact (GoMap.mem_keys_delete.mp (k2 b hb')).1

theorem walkChildren_some {cs : List Node} {value : String} {book : Book} {leaf : Node}
    (h : walkChildren cs value book = some leaf) :
    ∃ c ∈ cs, c.walk book = some leaf ∧ PredictChildren cs value book = Predict c book := by
  induction cs with
  | nil => simp [walkChildren] at h
  | cons c cs ih =>
    by_cases hv : c.Value = value
    · simp only [walkChildren, hv, if_true] at h
      exact ⟨c, List.mem_cons_self _ _, h, by simp [PredictChildren, hv]⟩
    · simp only [walkChildren, hv, if_false] at h
      obtain ⟨x, hx, h1, h2⟩ := ih h
      exact ⟨x, List.mem_cons_of_mem _ hx, h1, by simp [PredictChildren, hv, h2]⟩

theorem walkChildren_of_mem {cs : List Node} {value : String} {book : Book}
    (h : value ∈ cs.map Node.Value) :
    ∃ c ∈ cs, walkChildren cs value book = c.walk book := by
  induction cs with
  | nil => simp at h
  | cons c cs ih =>
    by_cases hv : c.Value = value
    · exact ⟨c, List.mem_cons_self _ _, by simp [walkChildren, hv]⟩
    · simp only [List.map_cons, List.mem_cons] at h
      rcases h with h | h
      · exact absurd h.symm hv
      · obtain ⟨x, hx, h1⟩ := ih h
        exact ⟨x, List.mem_cons_of_mem _ hx, by simp [walkChildren, hv, h1]⟩

/-- A walk that reaches a leaf reaches a leaf of the tree, and `Predict` returns its
classification. -/
theorem walk_some (t : Node) :
    ∀ (book : Book) (leaf : Node), t.walk book = some leaf →
      leaf ∈ t.nodes ∧ leaf.IsLeaf = true ∧ Predict t book = leaf.Classification := by
  induction t using Node.induct with
  | h a v cs l c ih =>
    intro book leaf hw
    cases l with
    | true =>
      simp only [Node.walk, if_true, Option.some.injEq] at hw
      subst hw
      exact ⟨Node.mem_nodes_self _, rfl, by simp [Predict, Node.Classification]⟩
    | false =>
      simp only [Node.walk, Bool.false_eq_true, if_false] at hw
      obtain ⟨x, hx, h1, h2⟩ := walkChildren_some hw
      obtain ⟨k1, k2, k3⟩ := ih x hx book leaf h1
      refine ⟨?_, k2, ?_⟩
      · simp only [Node.nodes, List.mem_cons]
        exact Or.inr (mem_nodesList.mpr ⟨x, hx, k1⟩)
      · simp only [Predict, Bool.false_eq_true, if_false]
        rw [h2, k3]

/-- Under the build invariant, an item whose values are legal reaches a leaf. -/
theorem BuiltOn_walk (t : Node) :
    ∀ (D : GoMap String (List String)) (book : Book), t.BuiltOn D →
      (∀ a ∈ GoMap.keys D, book.Attribites.getD a "" ∈ D.getD a []) →
      ∃ leaf, t.walk book = some leaf := by
  induction t using Node.induct with
  | h a v cs l c ih =>
    intro D book hb hbook
    cases l with
    | true => exact ⟨Node.mk a v cs true c, by simp [Node.walk]⟩
    | false =>
      simp only [Node.BuiltOn, Bool.false_eq_true, if_false] at hb
      obtain ⟨h1, h2, h3⟩ := hb
      have hmem : book.Attribites.getD a "" ∈ cs.map Node.Value := by
        rw [h2]; exact hbook a h1
      obtain ⟨x, hx, hwx⟩ := @walkChildren_of_mem cs (book.Attribites.getD a "") book hmem
      obtain ⟨leaf, hleaf⟩ := ih x hx (GoMap.delete D a) book (BuiltOnList_iff.mp h3 x hx)
        (fun b hb' => by
          obtain ⟨k1, k2⟩ := GoMap.mem_keys_delete.mp hb'
          rw [GoMap.getD_delete_ne D k2]
          exact hbook b k1)
      refine ⟨leaf, ?_⟩
      simp only [Node.walk, Bool.false_eq_true, if_false]
      rw [hwx, hleaf]

theorem setValue_setValue (c : Node) (v w : String) :
    (c.setValue v).setValue w = c.setValue w := by
  cases c with
  | mk a x cs l k => rfl

theorem setValue_self {c : Node} (h : c.Value = "") : c.setValue "" = c := by
  cases c with
  | mk a x cs l k =>
    simp only [Node.Value] at h
    subst h
    rfl

theorem Children_setValue (c : Node) (v : String) : (c.setValue v).Children = c.Children := by
  cases c with
  | mk a x cs l k => rfl

theorem Attribute_setValue (c : Node) (v : String) :
    (c.setValue v).Attribute = c.Attribute := by
  cases c with
  | mk a x cs l k => rfl

theorem IsLeaf_setValue (c : Node) (v : String) : (c.setValue v).IsLeaf = c.IsLeaf := by
  cases c with
  | mk a x cs l k => rfl

/-- Every internal node of a returned tree is the node created by a call of the builder,
and its children are tagged, in order, with the legal values its attribute had in the
domain of that call. -/
theorem BuildTreeFuel_created (fuel : Nat) (st : Store) (t : Node) (s : Store)
    (h : BuildTreeFuel fuel st = some (t, s)) :
    ∀ n ∈ t.nodes, n.IsLeaf = false →
      ∃ st', CreatedBy n st' ∧
        n.Children.map Node.Value = st'.attrValues.getD n.Attribute [] := by
  induction fuel generalizing st t s with
  | zero => simp [BuildTreeFuel] at h
  | succ fuel ih =>
    by_cases hg :
        F64.eq (GetBest (CalculateGainRatios st.rates st.books st.attrValues)).2 (F64.fin 0)
    · have h' := h
      rw [BuildTreeFuel_leaf fuel st hg] at h'
      simp only [Option.some.injEq, Prod.mk.injEq] at h'
      intro n hn hleaf
      rw [← h'.1] at hn
      simp only [Node.nodes, nodesList, List.mem_singleton] at hn
      subst hn
      simp [Node.IsLeaf] at hleaf
    · have h' := h
      rw [BuildTreeFuel_node fuel st hg] at h'
      obtain ⟨children, ht, hv, hc, _⟩ := buildChildren_inv (BuildTreeFuel fuel) _
        (fun _ => True)
        (fun c => ∀ n ∈ c.nodes, n.IsLeaf = false →
          ∃ st', CreatedBy n st' ∧
            n.Children.map Node.Value = st'.attrValues.getD n.Attribute [])
        (fun cur val child next _ hrec => by
          refine ⟨fun n hn hleaf => ?_, trivial⟩
          rw [nodes_setValue] at hn
          rcases List.mem_cons.mp hn with hn | hn
          · subst hn
            rw [IsLeaf_setValue] at hleaf
            obtain ⟨st', ⟨f', s', hcr⟩, htags⟩ :=
              ih _ _ _ hrec child (Node.mem_nodes_self _) hleaf
            refine ⟨st', ⟨f', s', ?_⟩, ?_⟩
            · rw [setValue_setValue]; exact hcr
            · rw [Children_setValue, Attribute_setValue]; exact htags
          · exact ih _ _ _ hrec n (by rw [nodes_eq]; exact List.mem_cons_of_mem _ hn) hleaf)
        _ _ _ _ _ _ _ _ trivial h'
      intro n hn hleaf
      have hval : t.Value = "" := (BuildTreeFuel_BuiltOn _ _ _ _ h).2.2
      rw [nodes_eq] at hn
      rcases List.mem_cons.mp hn with hn | hn
      · subst hn
        refine ⟨st, ⟨fuel + 1, s, by rw [setValue_self hval]; exact h⟩, ?_⟩
        rw [ht]
        simpa [Node.Children, Node.Attribute] using hv
      · rw [ht] at hn
        simp only [Node.Children, List.nil_append] at hn
        obtain ⟨c, hc', hnc⟩ := mem_nodesList.mp hn
        exact hc c hc' n hnc hleaf

theorem ratioOf_no_values (rates : GoMap Int Int) (books : GoMap Int Book)
    (attrValues : GoMap String (List String)) (key : String)
    (h : attrValues.getD key [] = []) : ratioOf rates books attrValues key = F64.fin 0 := by
  simp [ratioOf, splitInfoOf, h, SplitInfoAD]

/-- The selected attribute, its ratio and the absence of a greater ratio. -/
theorem GetBest_ratio (rates : GoMap Int Int) (books : GoMap Int Book)
    (attrValues : GoMap String (List String))
    (hg : ¬ F64.eq (GetBest (CalculateGainRatios rates books attrValues)).2 (F64.fin 0)) :
    (GetBest (CalculateGainRatios rates books attrValues)).1 ∈ GoMap.keys attrValues ∧
      (GetBest (CalculateGainRatios rates books attrValues)).2 =
        ratioOf rates books attrValues (GetBest (CalculateGainRatios rates books attrValues)).1 ∧
      F64.gt (GetBest (CalculateGainRatios rates books attrValues)).2 (F64.fin 0) ∧
      ∀ key ∈ GoMap.keys attrValues, ¬ F64.gt (ratioOf rates books attrValues key)
        (GetBest (CalculateGainRatios rates books attrValues)).2 := by
  obtain ⟨h1, h2⟩ := GetBest_foldl_max (CalculateGainRatios rates books attrValues)
    ("", F64.fin 0)
  have hmem : GetBest (CalculateGainRatios rates books attrValues) ∈
        CalculateGainRatios rates books attrValues ∧
      F64.gt (GetBest (CalculateGainRatios rates books attrValues)).2 (F64.fin 0) := by
    rcases h1 with h1 | h1
    · exfalso; apply hg; unfold GetBest; rw [h1]; simp
    · exact h1
  obtain ⟨e1, e2⟩ := CalculateGainRatios_entry rates books attrValues hmem.1
  refine ⟨e1, e2, hmem.2, fun key hkey => ?_⟩
  obtain ⟨e, he, hek⟩ := List.mem_map.mp
    ((CalculateGainRatios_keys rates books attrValues key).mpr hkey)
  have := h2 e he
  rw [(CalculateGainRatios_entry rates books attrValues he).2, hek] at this
  exact this

theorem F64.eq_zero_iff (a : F64) : F64.eq a (F64.fin 0) ↔ a = F64.fin 0 := by
  cases a <;> simp [F64.eq]

/-- No ratio exceeds 0 exactly when the best ratio is 0. -/
theorem GetBest_zero_iff (rates : GoMap Int Int) (books : GoMap Int Book)
    (attrValues : GoMap String (List String)) :
    F64.eq (GetBest (CalculateGainRatios rates books attrValues)).2 (F64.fin 0) ↔
      ∀ key ∈ GoMap.keys attrValues,
        ¬ F64.gt (ratioOf rates books attrValues key) (F64.fin 0) := by
  constructor
  · intro hz key hkey
    obtain ⟨e, he, hek⟩ := List.mem_map.mp
      ((CalculateGainRatios_keys rates books attrValues key).mpr hkey)
    have h2 := (GetBest_foldl_max (CalculateGainRatios rates books attrValues)
      ("", F64.fin 0)).2 e he
    rw [(CalculateGainRatios_entry rates books attrValues he).2, hek] at h2
    have hz' := (F64.eq_zero_iff _).mp hz
    unfold GetBest at hz'
    rw [hz'] at h2
    exact h2
  · intro hall
    rw [GetBest_of_not_gt]
    · simp
    · intro e he
      obtain ⟨e1, e2⟩ := CalculateGainRatios_entry rates books attrValues he
      rw [e2]
      exact hall e.1 e1

/-- The root returned by a splitting call: its fields, and the tags of its children. -/
theorem BuildTreeFuel_root (fuel : Nat) (st : Store) (t : Node) (s : Store)
    (hg : ¬ F64.eq (GetBest (CalculateGainRatios st.rates st.books st.attrValues)).2
      (F64.fin 0))
    (h : BuildTreeFuel (fuel + 1) st = some (t, s)) :
    ∃ children, t = Node.mk (GetBest (CalculateGainRatios st.rates st.books st.attrValues)).1
        "" children false 0 ∧
      children.map Node.Value =
        st.attrValues.getD (GetBest (CalculateGainRatios st.rates st.books st.attrValues)).1
          [] := by
  rw [BuildTreeFuel_node fuel st hg] at h
  obtain ⟨children, ht, hv, _, _⟩ := buildChildren_inv (BuildTreeFuel fuel) _
    (fun _ => True) (fun _ => True) (fun _ _ _ _ _ _ => ⟨trivial, trivial⟩)
    _ _ _ _ _ _ _ _ trivial h
  exact ⟨children, by simpa using ht, hv⟩

/-- A call that splits removes the attribute it splits on from the domain of its
caller. -/
theorem BuildTreeFuel_deletes_best (fuel : Nat) (st : Store) (t : Node) (s : Store)
    (h : BuildTreeFuel fuel st = some (t, s)) (hleaf : t.IsLeaf = false) :
    t.Attribute ∈ GoMap.keys st.attrValues ∧ t.Attribute ∉ GoMap.keys s.attrValues := by
  cases fuel with
  | zero => simp [BuildTreeFuel] at h
  | succ fuel =>
    by_cases hg :
        F64.eq (GetBest (CalculateGainRatios st.rates st.books st.attrValues)).2 (F64.fin 0)
    · rw [BuildTreeFuel_leaf fuel st hg] at h
      simp only [Option.some.injEq, Prod.mk.injEq] at h
      rw [← h.1] at hleaf
      simp [Node.IsLeaf] at hleaf
    · obtain ⟨children, ht, _⟩ := BuildTreeFuel_root fuel st t s hg h
      obtain ⟨hkey, hratio, hpos, _⟩ := GetBest_ratio st.rates st.books st.attrValues hg
      have hattr : t.Attribute =
          (GetBest (CalculateGainRatios st.rates st.books st.attrValues)).1 := by
        rw [ht]; rfl
      rw [hattr]
      refine ⟨hkey, ?_⟩
      have hvals : st.attrValues.getD
          (GetBest (CalculateGainRatios st.rates st.books st.attrValues)).1 [] ≠ [] := by
        intro hnil
        rw [hratio, ratioOf_no_values _ _ _ _ hnil] at hpos
        simp at hpos
      rw [BuildTreeFuel_node fuel st hg] at h
      obtain ⟨val, rest, hvr⟩ := List.exists_cons_of_ne_nil hvals
      rw [hvr] at h
      simp only [buildChildren] at h
      cases hrec : BuildTreeFuel fuel
          ⟨(SplitDataset (GetBest (CalculateGainRatios st.rates st.books st.attrValues)).1
              val st.rates st.books).1,
            (SplitDataset (GetBest (CalculateGainRatios st.rates st.books st.attrValues)).1
              val st.rates st.books).2,
            GoMap.delete st.attrValues
              (GetBest (CalculateGainRatios st.rates st.books st.attrValues)).1⟩ with
      | none => rw [hrec] at h; simp at h
      | some p =>
        obtain ⟨child, next⟩ := p
        rw [hrec] at h
        simp only [Node.appendChild] at h
        have hnext : (GetBest (CalculateGainRatios st.rates st.books st.attrValues)).1 ∉
            GoMap.keys next.attrValues := fun hmem =>
          (GoMap.mem_keys_delete.mp
            (((BuildTreeFuel_BuiltOn _ _ _ _ hrec).2.1 _ hmem).1)).2 rfl
        obtain ⟨_, _, _, _, hs⟩ := buildChildren_inv (BuildTreeFuel fuel)
          (GetBest (CalculateGainRatios st.rates st.books st.attrValues)).1
          (fun cur => (GetBest (CalculateGainRatios st.rates st.books st.attrValues)).1 ∉
            GoMap.keys cur.attrValues)
          (fun _ => True)
          (fun cur val child next _ hrec' => ⟨trivial, fun hmem =>
            (GoMap.mem_keys_delete.mp
              (((BuildTreeFuel_BuiltOn _ _ _ _ hrec').2.1 _ hmem).1)).2 rfl⟩)
          _ _ _ _ _ _ _ _ hnext h
        exact hs

/-! ## Tree builder: domain, leaves and tree shape -/

/-- C11: `BuildTree` does not leave the caller's attribute domain unchanged.  On
`twoBooks` the call returns the node on `genre` and leaves the domain empty, so that a
second call with the same ratings and books and the domain as left behind returns a
leaf; in general every call that returns an internal node has removed that node's
attribute from the caller's domain. -/
theorem BuildTree_shrinks_domain :
    (∃ t s, BuildTree twoBooks = some (t, s) ∧ t.IsLeaf = false ∧ t.Attribute = "genre" ∧
        s.attrValues = [] ∧ s.attrValues ≠ twoBooks.attrValues ∧
        ∃ t' s', BuildTree ⟨twoBooks.rates, twoBooks.books, s.attrValues⟩ = some (t', s') ∧
          t'.IsLeaf = true) ∧
      ∀ st t s, BuildTree st = some (t, s) → t.IsLeaf = false →
        t.Attribute ∈ GoMap.keys st.attrValues ∧ t.Attribute ∉ GoMap.keys s.attrValues := by
  refine ⟨⟨_, _, twoBooks_tree, rfl, rfl, rfl, by decide, ?_⟩, ?_⟩
  · refine ⟨Node.mk "" "" [] true (majorityClass (twoBooks.rates.map Prod.snd)),
      ⟨twoBooks.rates, twoBooks.books, []⟩, ?_, rfl⟩
    unfold BuildTree
    rw [BuildTreeFuel_leaf]
    simp [CalculateGainRatios_nil, GetBest]
  · intro st t s h hleaf
    exact BuildTreeFuel_deletes_best _ st t s h hleaf

/-- C13: every internal node of a tree returned by `BuildTree` has exactly one child per
legal value of its attribute: its children's `Value` tags are, in order, the list
`attrValues[Attribute]` of the domain of the call that created the node, which is also
the list the attribute has in the domain of the top-level call; and this although the
attribute of the root is no longer a key of the domain when the call returns. -/
theorem BuildTree_children_tags (st : Store) (t : Node) (s : Store)
    (h : BuildTree st = some (t, s)) :
    (∀ n ∈ t.nodes, n.IsLeaf = false →
      (∃ st', CreatedBy n st' ∧
        n.Children.map Node.Value = st'.attrValues.getD n.Attribute []) ∧
      n.Children.map Node.Value = st.attrValues.getD n.Attribute []) ∧
    (t.IsLeaf = false → t.Attribute ∉ GoMap.keys s.attrValues) :=
  ⟨fun n hn hleaf =>
    ⟨BuildTreeFuel_created _ st t s h n hn hleaf,
      (BuiltOn_nodes t _ (BuildTreeFuel_BuiltOn _ st t s h).1 n hn hleaf).2⟩,
    fun hleaf => (BuildTreeFuel_deletes_best _ st t s h hleaf).2⟩

/-- Instance of the children theorem (C13) on the end-to-end scenario: the children of
the root are tagged `fiction` and `romance`, the legal values of `genre`. -/
theorem BuildTree_children_tags_witness :
    endToEndTree.Children.map Node.Value = ["fiction", "romance"] ∧
      endToEndTree.Children.map Node.Value =
        endToEnd.attrValues.getD endToEndTree.Attribute [] :=
  ⟨rfl, ((BuildTree_children_tags endToEnd endToEndTree _ endToEnd_tree).1 endToEndTree
    (Node.mem_nodes_self _) rfl).2⟩

/-- C19: on a tree returned by `BuildTree` over the domain `D`, for an attribute vector
whose value for each attribute of `D` is a legal value of that attribute, `Predict`
never takes the fallback: following at each internal node the child tagged with the
item's value reaches a leaf of the tree, and the result is that leaf's
`Classification`. -/
theorem Predict_reaches_leaf (st : Store) (t : Node) (s : Store) (book : Book)
    (h : BuildTree st = some (t, s))
    (hb : ∀ a ∈ GoMap.keys st.attrValues,
      book.Attribites.getD a "" ∈ st.attrValues.getD a []) :
    ∃ leaf, t.walk book = some leaf ∧ leaf ∈ t.nodes ∧ leaf.IsLeaf = true ∧
      Predict t book = leaf.Classification := by
  obtain ⟨leaf, hleaf⟩ := BuiltOn_walk t _ book (BuildTreeFuel_BuiltOn _ st t s h).1 hb
  exact ⟨leaf, hleaf, walk_some t book leaf hleaf⟩

/-- Instance of the prediction theorem (C19) on the end-to-end scenario and book B. -/
theorem Predict_reaches_leaf_witness :
    (∀ a ∈ GoMap.keys endToEnd.attrValues,
        bookB.Attribites.getD a "" ∈ endToEnd.attrValues.getD a []) ∧
      ∃ leaf, endToEndTree.walk bookB = some leaf ∧ leaf ∈ endToEndTree.nodes ∧
        leaf.IsLeaf = true ∧ Predict endToEndTree bookB = leaf.Classification :=
  ⟨by decide, Predict_reaches_leaf endToEnd endToEndTree _ bookB endToEnd_tree (by decide)⟩

/-- C20: in a tree returned by `BuildTree` the attribute of every internal node is a key
of the domain passed to the call, and on every path from the root no attribute occurs
twice. -/
theorem BuildTree_attributes_once (st : Store) (t : Node) (s : Store)
    (h : BuildTree st = some (t, s)) :
    (∀ n ∈ t.nodes, n.IsLeaf = false → n.Attribute ∈ GoMap.keys st.attrValues) ∧
      ∀ p ∈ t.paths, p.Nodup ∧ ∀ a ∈ p, a ∈ GoMap.keys st.attrValues :=
  ⟨fun n hn hleaf =>
    (BuiltOn_nodes t _ (BuildTreeFuel_BuiltOn _ st t s h).1 n hn hleaf).1,
    BuiltOn_paths t _ (BuildTreeFuel_BuiltOn _ st t s h).1⟩

/-- Instance of the attribute theorem (C20) on the end-to-end scenario: both paths of
the tree carry the single attribute `genre`. -/
theorem BuildTree_attributes_once_witness :
    endToEndTree.paths = [["genre"], ["genre"]] ∧
      ∀ p ∈ endToEndTree.paths, p.Nodup ∧ ∀ a ∈ p, a ∈ GoMap.keys endToEnd.attrValues :=
  ⟨by decide, (BuildTree_attributes_once endToEnd endToEndTree _ endToEnd_tree).2⟩

/-! ## The dataset restriction `SplitDataset` -/

namespace GoMap
variable {K V : Type} [DecidableEq K]

theorem set_append_of_not_mem {m1 m2 : GoMap K V} {k : K} (v0 v : V) (h : k ∉ keys m1) :
    set (m1 ++ (k, v0) :: m2) k v = m1 ++ (k, v) :: m2 := by
  induction m1 with
  | nil => simp [set]
  | cons hd tl ih =>
    simp only [keys, List.map_cons, List.mem_cons, not_or] at h
    have hk : ¬ hd.1 = k := fun e => h.1 e.symm
    show set (hd :: (tl ++ (k, v0) :: m2)) k v = hd :: (tl ++ (k, v) :: m2)
    rw [← ih h.2]
    obtain ⟨k', v'⟩ := hd
    simp only [set, show ¬ k' = k from hk, if_false]

theorem delete_of_not_mem {m : GoMap K V} {k : K} (h : k ∉ keys m) : delete m k = m := by
  unfold delete
  rw [List.filter_eq_self]
  intro e he
  simp only [decide_eq_true_eq]
  intro hek
  exact h (hek ▸ List.mem_map_of_mem Prod.fst he)

theorem delete_append (m1 m2 : GoMap K V) (k : K) :
    delete (m1 ++ m2) k = delete m1 k ++ delete m2 k := by
  simp [delete]

theorem delete_cons_self (m : GoMap K V) (k : K) (v : V) :
    delete ((k, v) :: m) k = delete m k := by
  simp [delete]

end GoMap

/-- The loop of `SplitDataset` over the entries `l` still to visit, `done` being the
entries already visited and retained and `R` the current ratings. -/
theorem SplitDataset_foldl (best val : String) (l done : GoMap Int Book)
    (R : GoMap Int Int) (hwf : GoMap.WF (done ++ l)) :
    l.foldl
        (fun acc e =>
          if e.2.Attribites.getD best "" = val then
            (acc.1, GoMap.set acc.2 e.1 ⟨GoMap.delete e.2.Attribites best⟩)
          else (GoMap.delete acc.1 e.1, GoMap.delete acc.2 e.1))
        (R, done ++ l) =
      (R.filter (fun r => decide (r.1 ∉ GoMap.keys
          (l.filter (fun e => decide (¬ e.2.Attribites.getD best "" = val))))),
        done ++ (l.filter (fun e => decide (e.2.Attribites.getD best "" = val))).map
          (fun e => (e.1, ⟨GoMap.delete e.2.Attribites best⟩))) := by
  induction l generalizing done R with
  | nil => simp [GoMap.keys]
  | cons e l ih =>
    have hnd : (GoMap.keys done ++ e.1 :: GoMap.keys l).Nodup := by
      simpa [GoMap.WF, GoMap.keys] using hwf
    have he_done : e.1 ∉ GoMap.keys done := fun hmem =>
      (List.nodup_append.mp hnd).2.2 hmem (List.mem_cons_self _ _)
    have he_l : e.1 ∉ GoMap.keys l :=
      (List.nodup_cons.mp (List.nodup_append.mp hnd).2.1).1
    by_cases hm : e.2.Attribites.getD best "" = val
    · simp only [List.foldl_cons, hm, if_true, List.filter_cons, decide_True,
        not_true_eq_false, decide_False, List.map_cons]
      have hset : GoMap.set (done ++ e :: l) e.1 ⟨GoMap.delete e.2.Attribites best⟩ =
          (done ++ [(e.1, ⟨GoMap.delete e.2.Attribites best⟩)]) ++ l := by
        have := @GoMap.set_append_of_not_mem Int Book _ done l e.1 e.2
          (⟨GoMap.delete e.2.Attribites best⟩ : Book) he_done
        simpa using this
      rw [hset, ih]
      · simp
      · have : GoMap.keys ((done ++ [(e.1, (⟨GoMap.delete e.2.Attribites best⟩ : Book))]) ++ l)
            = GoMap.keys (done ++ e :: l) := by
          simp [GoMap.keys]
        rw [GoMap.WF, this]
        exact hwf
    · simp only [List.foldl_cons, hm, if_false, List.filter_cons, decide_False,
        not_false_eq_true, decide_True]
      have hdel : GoMap.delete (done ++ e :: l) e.1 = done ++ l := by
        rw [GoMap.delete_append, GoMap.delete_of_not_mem he_done]
        have : e :: l = (e.1, e.2) :: l := rfl
        rw [this, GoMap.delete_cons_self, GoMap.delete_of_not_mem he_l]
      rw [hdel, ih]
      · congr 1
        simp only [GoMap.delete, List.filter_filter, GoMap.keys, List.map_cons,
          List.mem_cons, not_or]
        apply List.filter_congr
        intro r _
        by_cases hr : r.1 = e.1 <;> simp [hr]
      · have hsub : List.Sublist (GoMap.keys (done ++ l)) (GoMap.keys (done ++ e :: l)) := by
          simp only [GoMap.keys, List.map_append, List.map_cons]
          exact List.Sublist.append_left (List.sublist_cons_self _ _) _
        exact List.Nodup.sublist hsub hwf

theorem SplitDataset_eq (best val : String) (rates : GoMap Int Int) (books : GoMap Int Book)
    (hwf : GoMap.WF books) :
    SplitDataset best val rates books =
      (rates.filter (fun r => decide (r.1 ∉ GoMap.keys
          (books.filter (fun e => decide (¬ e.2.Attribites.getD best "" = val))))),
        (books.filter (fun e => decide (e.2.Attribites.getD best "" = val))).map
          (fun e => (e.1, ⟨GoMap.delete e.2.Attribites best⟩))) := by
  have := SplitDataset_foldl best val books [] rates (by simpa using hwf)
  simpa [SplitDataset] using this

theorem GoMap.entry_unique {K V : Type} [DecidableEq K] {m : GoMap K V} (hm : GoMap.WF m)
    {e e' : K × V} (he : e ∈ m) (he' : e' ∈ m) (hk : e.1 = e'.1) : e = e' := by
  have h1 := GoMap.get?_of_mem hm (show (e.1, e.2) ∈ m from he)
  have h2 := GoMap.get?_of_mem hm (show (e'.1, e'.2) ∈ m from he')
  rw [hk, h2] at h1
  exact Prod.ext hk (Option.some.inj h1).symm

/-- C18: for a single call `SplitDataset(a, v, rates, books)` on a dataset whose books
have pairwise distinct keys and whose ratings have the same keys as the books, the
returned books are exactly the input entries whose value for `a` equals `v`, each with
`a` deleted from its attribute map (deleting `a` removes the key `a` and changes no
other attribute), and the returned ratings are the input ratings restricted to the keys
of the returned books, with unchanged values. -/
theorem SplitDataset_single_call (bestAttribute val : String) (rates : GoMap Int Int)
    (books : GoMap Int Book) (hwf : GoMap.WF books)
    (hk : ∀ k, k ∈ GoMap.keys rates ↔ k ∈ GoMap.keys books) :
    (SplitDataset bestAttribute val rates books).2 =
        (books.filter (fun e => decide (e.2.Attribites.getD bestAttribute "" = val))).map
          (fun e => (e.1, ⟨GoMap.delete e.2.Attribites bestAttribute⟩)) ∧
      (SplitDataset bestAttribute val rates books).1 =
        rates.filter (fun r => decide (r.1 ∈
          GoMap.keys (SplitDataset bestAttribute val rates books).2)) ∧
      ∀ m : GoMap String String,
        bestAttribute ∉ GoMap.keys (GoMap.delete m bestAttribute) ∧
          ∀ x, x ≠ bestAttribute →
            GoMap.get? (GoMap.delete m bestAttribute) x = GoMap.get? m x := by
  rw [SplitDataset_eq bestAttribute val rates books hwf]
  refine ⟨rfl, ?_, fun m => ⟨fun hmem => (GoMap.mem_keys_delete.mp hmem).2 rfl,
    fun x hx => GoMap.get?_delete_ne m hx⟩⟩
  apply List.filter_congr
  intro r hr
  have hrb : r.1 ∈ GoMap.keys books := (hk r.1).mp (List.mem_map_of_mem Prod.fst hr)
  obtain ⟨e, he, her⟩ := List.mem_map.mp hrb
  simp only [decide_eq_decide]
  constructor
  · intro hnot
    have hmatch : e.2.Attribites.getD bestAttribute "" = val := by
      by_contra hne
      exact hnot (List.mem_map.mpr ⟨e, List.mem_filter.mpr ⟨he, by simpa using hne⟩, her⟩)
    simp only [GoMap.keys, List.map_map, List.mem_map, Function.comp_apply]
    exact ⟨e, List.mem_filter.mpr ⟨he, by simpa using hmatch⟩, her⟩
  · intro hin hnot
    simp only [GoMap.keys, List.map_map, List.mem_map, Function.comp_apply] at hin hnot
    obtain ⟨e1, he1, h1⟩ := hin
    obtain ⟨e2, he2, h2⟩ := hnot
    obtain ⟨m1, p1⟩ := List.mem_filter.mp he1
    obtain ⟨m2, p2⟩ := List.mem_filter.mp he2
    have := GoMap.entry_unique hwf m1 m2 (h1.trans h2.symm)
    subst this
    simp only [decide_eq_true_eq] at p1 p2
    exact p2 p1

/-- Instance of the restriction theorem (C18) on the end-to-end scenario: restricting to
`genre = fiction` keeps books 1 and 3 without `genre`, and their ratings. -/
theorem SplitDataset_single_call_witness :
    GoMap.WF endToEnd.books ∧
      (∀ k, k ∈ GoMap.keys endToEnd.rates ↔ k ∈ GoMap.keys endToEnd.books) ∧
      (SplitDataset "genre" "fiction" endToEnd.rates endToEnd.books).2 =
        [(1, ⟨[("length", "Short")]⟩), (3, ⟨[("length", "Short")]⟩)] ∧
      (SplitDataset "genre" "fiction" endToEnd.rates endToEnd.books).1 = [(1, 5), (3, 5)] :=
  ⟨by decide, fun _ => Iff.rfl,
    (SplitDataset_single_call "genre" "fiction" endToEnd.rates endToEnd.books (by decide)
      (fun _ => Iff.rfl)).1.trans (by decide),
    (SplitDataset_single_call "genre" "fiction" endToEnd.rates endToEnd.books (by decide)
      (fun _ => Iff.rfl)).2.1.trans (by decide)⟩

/-! ## Per-user driver: partition and user filter -/

theorem newbooksOf_eq (value : GoMap Int Int) (books : GoMap Int Book)
    (hv : GoMap.WF value) :
    newbooksOf value books = value.map (fun e => (e.1, books.getD e.1 ⟨[]⟩)) := by
  unfold newbooksOf
  rw [GoMap.foldl_set_eq_append Prod.fst (fun e => books.getD e.1 ⟨[]⟩) value [] hv
    (by simp [GoMap.keys])]
  simp

theorem partitionStep_after (value : GoMap Int Int) (pre : List (Int × Book))
    (e : Int × Book) (h : ((pre ++ [e]).map Prod.fst).Nodup) :
    partitionStep value (partitionAfter value pre) e = partitionAfter value (pre ++ [e]) := by
  have hnd : (pre.map Prod.fst).Nodup ∧ e.1 ∉ pre.map Prod.fst := by
    rw [List.map_append, List.nodup_append] at h
    exact ⟨h.1, fun hmem => h.2.2 hmem (by simp)⟩
  have hfresh : ∀ q : List (Int × Book), List.Sublist q pre → e.1 ∉ GoMap.keys q :=
    fun q hq hmem => hnd.2 ((List.Sublist.map Prod.fst hq).subset hmem)
  have hfresh' : ∀ q : List (Int × Book), List.Sublist q pre →
      e.1 ∉ GoMap.keys (q.map (fun e => (e.1, value.getD e.1 0))) := by
    intro q hq hmem
    apply hfresh q hq
    simpa [GoMap.keys, List.map_map, Function.comp_def] using hmem
  unfold partitionStep partitionAfter
  by_cases hz : (pre.length : Int) < (value.len : Int) - 3
  · have hk : pre.length < ((value.len : Int) - 3).toNat := by omega
    simp only [hz, if_true]
    rw [GoMap.set_of_not_mem (hfresh _ (List.take_sublist _ _)),
      GoMap.set_of_not_mem (hfresh' _ (List.take_sublist _ _))]
    rw [List.take_of_length_le (le_of_lt hk), List.drop_of_length_le (le_of_lt hk),
      List.take_of_length_le (by simp; omega), List.drop_of_length_le (by simp; omega)]
    simp
  · have hk : ((value.len : Int) - 3).toNat ≤ pre.length := by omega
    simp only [hz, if_false]
    rw [GoMap.set_of_not_mem (hfresh _ (List.drop_sublist _ _)),
      GoMap.set_of_not_mem (hfresh' _ (List.drop_sublist _ _))]
    rw [List.take_append_of_le_length hk, List.drop_append_of_le_length hk]
    simp

theorem partition_foldl (value : GoMap Int Int) (l pre : List (Int × Book))
    (h : ((pre ++ l).map Prod.fst).Nodup) :
    l.foldl (partitionStep value) (partitionAfter value pre) =
      partitionAfter value (pre ++ l) := by
  induction l generalizing pre with
  | nil => simp
  | cons e l ih =>
    have h' : ((pre ++ [e] ++ l).map Prod.fst).Nodup := by simpa using h
    have he : ((pre ++ [e]).map Prod.fst).Nodup := by
      rw [List.map_append] at h'
      exact (List.nodup_append.mp h').1
    simp only [List.foldl_cons]
    rw [partitionStep_after value pre e he, ih _ h']
    simp

theorem partitionLoop_eq (value : GoMap Int Int) (it : List (Int × Book))
    (h : (it.map Prod.fst).Nodup) :
    partitionLoop value it = (partitionAfter value it).1 := by
  unfold partitionLoop
  have := partition_foldl value it [] (by simpa using h)
  rw [show ((⟨[], [], [], []⟩ : Partition), (0 : Int)) = partitionAfter value [] from by
    simp [partitionAfter]]
  rw [this]
  simp

theorem dropSmallUsers_foldl (l m : GoMap String (GoMap Int Int)) :
    l.foldl (fun acc e => if (e.2.len : Int) < 10 then GoMap.delete acc e.1 else acc) m =
      m.filter (fun x => decide (x.1 ∉
        GoMap.keys (l.filter (fun e => decide ((e.2.len : Int) < 10))))) := by
  induction l generalizing m with
  | nil => simp [GoMap.keys]
  | cons e l ih =>
    simp only [List.foldl_cons]
    rw [ih]
    by_cases hs : (e.2.len : Int) < 10
    · simp only [hs, if_true, List.filter_cons, decide_True, GoMap.delete,
        List.filter_filter, GoMap.keys, List.map_cons, List.mem_cons, not_or]
      apply List.filter_congr
      intro x _
      by_cases hx : x.1 = e.1 <;> simp [hx]
    · simp only [hs, if_false, List.filter_cons, decide_False]
      simp

theorem dropSmallUsers_eq (userrates : GoMap String (GoMap Int Int))
    (hu : GoMap.WF userrates) :
    dropSmallUsers userrates =
      userrates.filter (fun e => decide (10 ≤ (e.2.len : Int))) := by
  unfold dropSmallUsers
  rw [dropSmallUsers_foldl]
  apply List.filter_congr
  intro x hx
  simp only [decide_eq_decide]
  constructor
  · intro hnot
    by_contra hlt
    exact hnot (List.mem_map.mpr ⟨x, List.mem_filter.mpr ⟨hx, by simpa using hlt⟩, rfl⟩)
  · intro hge hmem
    obtain ⟨y, hy, hyx⟩ := List.mem_map.mp hmem
    obtain ⟨hy1, hy2⟩ := List.mem_filter.mp hy
    have := GoMap.entry_unique hu hy1 hx hyx
    subst this
    simp only [decide_eq_true_eq] at hy2
    omega

/-- The partition of one user's rated items, whatever the order `it` in which the range
over `newbooks` yields them. -/
theorem partitionLoop_spec (value : GoMap Int Int) (books : GoMap Int Book)
    (hv : GoMap.WF value) (hn : 10 ≤ value.length) (it : List (Int × Book))
    (hp : it.Perm (newbooksOf value books)) :
    (partitionLoop value it).testbooks.length = 3 ∧
      (partitionLoop value it).trainbooks.length = value.length - 3 ∧
      GoMap.keys (partitionLoop value it).trainrates =
        GoMap.keys (partitionLoop value it).trainbooks ∧
      GoMap.keys (partitionLoop value it).testrates =
        GoMap.keys (partitionLoop value it).testbooks ∧
      List.Disjoint (GoMap.keys (partitionLoop value it).trainbooks)
        (GoMap.keys (partitionLoop value it).testbooks) ∧
      (GoMap.keys (partitionLoop value it).trainbooks ++
        GoMap.keys (partitionLoop value it).testbooks).Perm (GoMap.keys value) ∧
      (∀ k ∈ GoMap.keys (partitionLoop value it).trainbooks,
        GoMap.get? (partitionLoop value it).trainrates k = GoMap.get? value k) ∧
      (∀ k ∈ GoMap.keys (partitionLoop value it).testbooks,
        GoMap.get? (partitionLoop value it).testrates k = GoMap.get? value k) ∧
      (∀ e ∈ (partitionLoop value it).trainbooks ++ (partitionLoop value it).testbooks,
        e.2 = books.getD e.1 ⟨[]⟩) := by
  have hnb := newbooksOf_eq value books hv
  have hkeys : (it.map Prod.fst).Perm (GoMap.keys value) := by
    have := hp.map Prod.fst
    rw [hnb] at this
    simpa [GoMap.keys, List.map_map, Function.comp_def] using this
  have hnd : (it.map Prod.fst).Nodup := hkeys.nodup_iff.mpr hv
  have hlen : it.length = value.length := by
    have := hkeys.length_eq
    simpa [GoMap.keys] using this
  have hk : ((value.len : Int) - 3).toNat = value.length - 3 := by
    simp only [GoMap.len]; omega
  rw [partitionLoop_eq value it hnd]
  simp only [partitionAfter, hk]
  have htd : it.take (value.length - 3) ++ it.drop (value.length - 3) = it :=
    List.take_append_drop _ _
  have hnd' : ((it.take (value.length - 3)).map Prod.fst ++
      (it.drop (value.length - 3)).map Prod.fst).Nodup := by
    rw [← List.map_append, htd]; exact hnd
  have hval : ∀ q : List (Int × Book), (q.map Prod.fst).Nodup → (∀ e ∈ q, e ∈ it) →
      ∀ k ∈ GoMap.keys q,
        GoMap.get? (q.map (fun e => (e.1, value.getD e.1 0))) k = GoMap.get? value k := by
    intro q hq hsub k hkq
    have hwf : GoMap.WF (q.map (fun e : Int × Book => (e.1, value.getD e.1 0))) := by
      simpa [GoMap.WF, GoMap.keys, List.map_map, Function.comp_def] using hq
    obtain ⟨e, he, hek⟩ := List.mem_map.mp hkq
    have hkv : k ∈ GoMap.keys value :=
      hkeys.mem_iff.mp (hek ▸ List.mem_map_of_mem Prod.fst (hsub e he))
    obtain ⟨r, hr⟩ := GoMap.get?_isSome_of_mem_keys hkv
    rw [hr]
    apply GoMap.get?_of_mem hwf
    refine List.mem_map.mpr ⟨e, he, ?_⟩
    rw [hek, GoMap.getD, hr]
    rfl
  refine ⟨?_, ?_, ?_, ?_, ?_, ?_, ?_, ?_, ?_⟩
  · rw [List.length_drop, hlen]; omega
  · rw [List.length_take, hlen]; omega
  · simp [GoMap.keys, List.map_map, Function.comp_def]
  · simp [GoMap.keys, List.map_map, Function.comp_def]
  · exact List.disjoint_of_nodup_append hnd'
  · simp only [GoMap.keys]
    rw [← List.map_append, htd]
    exact hkeys
  · exact hval _ (List.nodup_append.mp hnd').1 (fun e he => List.mem_of_mem_take he)
  · exact hval _ (List.nodup_append.mp hnd').2.1 (fun e he => List.mem_of_mem_drop he)
  · intro e he
    rw [htd] at he
    have := hp.mem_iff.mp he
    rw [hnb] at this
    obtain ⟨x, _, hx⟩ := List.mem_map.mp this
    rw [← hx]

/-- C15: the first loop of the driver leaves exactly the users with at least 10 ratings,
so that a user with fewer is not among those the training loop ranges over; and for
every remaining user, whatever the order `it` in which the range over `newbooks` yields
the rated items, the partition loop puts exactly 3 items in the test maps and `n - 3` in
the training maps, the rating maps have the keys of the book maps, the two parts are
disjoint and together hold exactly the user's rated items, each with the user's rating
and the book stored for it. -/
theorem driver_partition (userrates : GoMap String (GoMap Int Int)) (books : GoMap Int Book)
    (hu : GoMap.WF userrates) :
    dropSmallUsers userrates =
        userrates.filter (fun e => decide (10 ≤ (e.2.len : Int))) ∧
      (∀ e ∈ userrates, (e.2.len : Int) < 10 →
        e.1 ∉ GoMap.keys (dropSmallUsers userrates)) ∧
      ∀ e ∈ dropSmallUsers userrates, GoMap.WF e.2 →
        ∀ it : List (Int × Book), it.Perm (newbooksOf e.2 books) →
          (partitionLoop e.2 it).testbooks.length = 3 ∧
          (partitionLoop e.2 it).trainbooks.length = e.2.length - 3 ∧
          GoMap.keys (partitionLoop e.2 it).trainrates =
            GoMap.keys (partitionLoop e.2 it).trainbooks ∧
          GoMap.keys (partitionLoop e.2 it).testrates =
            GoMap.keys (partitionLoop e.2 it).testbooks ∧
          List.Disjoint (GoMap.keys (partitionLoop e.2 it).trainbooks)
            (GoMap.keys (partitionLoop e.2 it).testbooks) ∧
          (GoMap.keys (partitionLoop e.2 it).trainbooks ++
            GoMap.keys (partitionLoop e.2 it).testbooks).Perm (GoMap.keys e.2) ∧
          (∀ k ∈ GoMap.keys (partitionLoop e.2 it).trainbooks,
            GoMap.get? (partitionLoop e.2 it).trainrates k = GoMap.get? e.2 k) ∧
          (∀ k ∈ GoMap.keys (partitionLoop e.2 it).testbooks,
            GoMap.get? (partitionLoop e.2 it).testrates k = GoMap.get? e.2 k) ∧
          (∀ b ∈ (partitionLoop e.2 it).trainbooks ++ (partitionLoop e.2 it).testbooks,
            b.2 = books.getD b.1 ⟨[]⟩) := by
  have heq := dropSmallUsers_eq userrates hu
  refine ⟨heq, ?_, ?_⟩
  · intro e he hsmall hmem
    rw [heq] at hmem
    obtain ⟨y, hy, hye⟩ := List.mem_map.mp hmem
    obtain ⟨hy1, hy2⟩ := List.mem_filter.mp hy
    have := GoMap.entry_unique hu hy1 he hye
    subst this
    simp only [decide_eq_true_eq] at hy2
    omega
  · intro e he hv it hp
    rw [heq] at he
    have hge := (List.mem_filter.mp he).2
    simp only [decide_eq_true_eq, GoMap.len] at hge
    exact partitionLoop_spec e.2 books hv (by omega) it hp

/-- Instance of the driver theorem (C15) on `twoUsers`: `v` is dropped, and the ten items
of `u` are split into 7 training and 3 test items. -/
theorem driver_partition_witness :
    GoMap.WF twoUsers ∧ GoMap.keys (dropSmallUsers twoUsers) = ["u"] ∧
      (partitionLoop (twoUsers.getD "u" []) (newbooksOf (twoUsers.getD "u" []) [])
        ).testbooks.length = 3 ∧
      (partitionLoop (twoUsers.getD "u" []) (newbooksOf (twoUsers.getD "u" []) [])
        ).trainbooks.length = 7 :=
  ⟨by decide, by decide,
    ((driver_partition twoUsers [] (by decide)).2.2 ("u", twoUsers.getD "u" []) (by decide)
      (by decide) _ (List.Perm.refl _)).1,
    ((driver_partition twoUsers [] (by decide)).2.2 ("u", twoUsers.getD "u" []) (by decide)
      (by decide) _ (List.Perm.refl _)).2.1⟩

/-! ## Information inequalities -/

open Real in
/-- Subadditivity of `-x log x` over non-negative reals. -/
theorem negMulLog_sum_le {ι : Type} (s : Finset ι) (a : ι → ℝ) (ha : ∀ i ∈ s, 0 ≤ a i) :
    negMulLog (∑ i ∈ s, a i) ≤ ∑ i ∈ s, negMulLog (a i) := by
  have hexp : negMulLog (∑ i ∈ s, a i) = ∑ i ∈ s, -(a i * log (∑ j ∈ s, a j)) := by
    rw [negMulLog, Finset.sum_neg_distrib, ← Finset.sum_mul]
    ring
  rw [hexp]
  apply Finset.sum_le_sum
  intro i hi
  rcases (ha i hi).eq_or_lt with h0 | hpos
  · rw [← h0]; simp
  · have hle : a i ≤ ∑ j ∈ s, a j := Finset.single_le_sum ha hi
    have hlog : log (a i) ≤ log (∑ j ∈ s, a j) := log_le_log hpos hle
    rw [negMulLog]
    nlinarith

open Real in
/-- Conditional entropy does not exceed entropy (Jensen for `-x log x`). -/
theorem cond_entropy_le {α β : Type} (X : Finset α) (Y : Finset β) (c : α → β → ℝ)
    (n : α → ℝ) (N : ℝ) (hc : ∀ v ∈ X, ∀ y ∈ Y, 0 ≤ c v y) (hpos : ∀ v ∈ X, 0 < n v)
    (hN : N = ∑ v ∈ X, n v) (hN0 : 0 < N) :
    ∑ v ∈ X, (n v / N) * ∑ y ∈ Y, negMulLog (c v y / n v) ≤
      ∑ y ∈ Y, negMulLog ((∑ v ∈ X, c v y) / N) := by
  have hswap : ∑ v ∈ X, (n v / N) * ∑ y ∈ Y, negMulLog (c v y / n v) =
      ∑ y ∈ Y, ∑ v ∈ X, (n v / N) • negMulLog (c v y / n v) := by
    rw [Finset.sum_comm]
    apply Finset.sum_congr rfl
    intro v _
    rw [Finset.mul_sum]
    rfl
  rw [hswap]
  apply Finset.sum_le_sum
  intro y hy
  have hw0 : ∀ v ∈ X, 0 ≤ n v / N := fun v hv => div_nonneg (hpos v hv).le hN0.le
  have hw1 : ∑ v ∈ X, n v / N = 1 := by
    rw [← Finset.sum_div, ← hN, div_self hN0.ne']
  have hmem : ∀ v ∈ X, c v y / n v ∈ Set.Ici (0 : ℝ) := fun v hv =>
    div_nonneg (hc v hv y hy) (hpos v hv).le
  have hj := concaveOn_negMulLog.le_map_sum hw0 hw1 hmem
  have hcomb : ∑ v ∈ X, (n v / N) • (c v y / n v) = (∑ v ∈ X, c v y) / N := by
    rw [Finset.sum_div]
    apply Finset.sum_congr rfl
    intro v hv
    have := (hpos v hv).ne'
    simp only [smul_eq_mul]
    field_simp
    ring
  rw [hcomb] at hj
  exact hj

open Real in
/-- Entropy does not exceed split entropy plus conditional entropy. -/
theorem entropy_le_joint {α β : Type} (X : Finset α) (Y : Finset β) (c : α → β → ℝ)
    (n : α → ℝ) (N : ℝ) (hc : ∀ v ∈ X, ∀ y ∈ Y, 0 ≤ c v y)
    (hn : ∀ v ∈ X, n v = ∑ y ∈ Y, c v y) (hpos : ∀ v ∈ X, 0 < n v) (hN0 : 0 < N) :
    ∑ y ∈ Y, negMulLog ((∑ v ∈ X, c v y) / N) ≤
      ∑ v ∈ X, negMulLog (n v / N) +
        ∑ v ∈ X, (n v / N) * ∑ y ∈ Y, negMulLog (c v y / n v) := by
  have hchain : ∀ v ∈ X, ∑ y ∈ Y, negMulLog (c v y / N) =
      negMulLog (n v / N) + (n v / N) * ∑ y ∈ Y, negMulLog (c v y / n v) := by
    intro v hv
    have hnv := (hpos v hv).ne'
    have h1 : ∀ y ∈ Y, negMulLog (c v y / N) =
        (c v y / n v) * negMulLog (n v / N) + (n v / N) * negMulLog (c v y / n v) := by
      intro y _
      rw [← negMulLog_mul]
      congr 1
      field_simp
      ring
    rw [Finset.sum_congr rfl h1, Finset.sum_add_distrib, ← Finset.sum_mul, ← Finset.mul_sum,
      ← Finset.sum_div, ← hn v hv, div_self hnv, one_mul]
  rw [← Finset.sum_add_distrib, ← Finset.sum_congr rfl hchain, Finset.sum_comm]
  apply Finset.sum_le_sum
  intro y hy
  rw [Finset.sum_div]
  exact negMulLog_sum_le X (fun v => c v y / N)
    (fun v hv => div_nonneg (hc v hv y hy) hN0.le)

/-! ## The entropy calculator as a real sum -/

theorem neg_mul_logb_eq (p : ℝ) : -(p * Real.logb 2 p) = Real.negMulLog p / Real.log 2 := by
  rw [Real.negMulLog, Real.logb]
  ring

/-- A loop subtracting finite terms from a finite value subtracts their sum. -/
theorem foldl_sub_fin {α : Type} (f : α → F64) (g : α → ℝ) (l : List α)
    (h : ∀ e ∈ l, f e = F64.fin (g e)) (x : ℝ) :
    l.foldl (fun a e => F64.sub a (f e)) (F64.fin x) = F64.fin (x - (l.map g).sum) := by
  induction l generalizing x with
  | nil => simp
  | cons a l ih =>
    simp only [List.foldl_cons, h a (List.mem_cons_self _ _), F64.sub_fin]
    rw [ih (fun e he => h e (List.mem_cons_of_mem _ he))]
    congr 1
    simp only [List.map_cons, List.sum_cons]
    ring

/-- A loop adding finite terms to a finite value adds their sum. -/
theorem foldl_add_fin {α : Type} (f : α → F64) (g : α → ℝ) (l : List α)
    (h : ∀ e ∈ l, f e = F64.fin (g e)) (x : ℝ) :
    l.foldl (fun a e => F64.add a (f e)) (F64.fin x) = F64.fin (x + (l.map g).sum) := by
  induction l generalizing x with
  | nil => simp
  | cons a l ih =>
    simp only [List.foldl_cons, h a (List.mem_cons_self _ _), F64.add_fin]
    rw [ih (fun e he => h e (List.mem_cons_of_mem _ he))]
    congr 1
    simp only [List.map_cons, List.sum_cons]
    ring

theorem countLabels_keys_toFinset (labels : List Int) :
    (GoMap.keys (countLabels labels)).toFinset = labels.toFinset := by
  ext x
  simp only [List.mem_toFinset]
  have := countLabels_foldl_keys labels [] x
  simpa [GoMap.keys] using this

/-- `InfoD` is the entropy of the label list, a finite value. -/
theorem InfoD_eq_entropyOf (labels : List Int) : InfoD labels = F64.fin (entropyOf labels) := by
  by_cases hnil : labels = []
  · subst hnil
    simp [InfoD_nil, entropyOf]
  have hlen : (0 : ℝ) < (labels.length : ℝ) := by
    have : 0 < labels.length := List.length_pos.mpr hnil
    exact_mod_cast this
  unfold InfoD
  rw [foldl_sub_fin _ (fun e : Int × Int =>
    ((labels.count e.1 : ℝ) / (labels.length : ℝ)) *
      Real.logb 2 ((labels.count e.1 : ℝ) / (labels.length : ℝ)))]
  · congr 1
    rw [zero_sub]
    have hmap : (countLabels labels).map (fun e : Int × Int =>
        ((labels.count e.1 : ℝ) / (labels.length : ℝ)) *
          Real.logb 2 ((labels.count e.1 : ℝ) / (labels.length : ℝ))) =
        (GoMap.keys (countLabels labels)).map (fun y : Int =>
          ((labels.count y : ℝ) / (labels.length : ℝ)) *
            Real.logb 2 ((labels.count y : ℝ) / (labels.length : ℝ))) := by
      simp [GoMap.keys, List.map_map, Function.comp_def]
    rw [hmap, ← List.sum_toFinset _ (countLabels_WF labels), countLabels_keys_toFinset,
      entropyOf, ← Finset.sum_neg_distrib]
    apply Finset.sum_congr rfl
    intro y _
    exact neg_mul_logb_eq _
  · intro e he
    obtain ⟨h1, h2⟩ := countLabels_entry labels he
    have hc : (0 : ℝ) < (labels.count e.1 : ℝ) := by
      have : 0 < labels.count e.1 := List.count_pos_iff.mpr h1
      exact_mod_cast this
    simp only [F64.ofInt_eq, h2, Int.cast_natCast]
    rw [F64.div_fin hlen.ne', F64.log2_fin (div_pos hc hlen), F64.mul_fin]

/-! ## The gain-ratio evaluator as real sums -/

theorem subsetLabels_length (attr : String) (rates : GoMap Int Int) (books : GoMap Int Book)
    (v : String) : (subsetLabels attr rates books v).length = subsetSize attr books v := by
  simp [subsetLabels, subsetSize]

theorem Split_eq_subset (attr : String) (rates : GoMap Int Int) (books : GoMap Int Book)
    (v : String) (h : GoMap.WF books) :
    (Split attr rates books v).1.length = subsetSize attr books v ∧
      (Split attr rates books v).2 = subsetLabels attr rates books v := by
  rw [Split_eq_filter attr rates books v h]
  exact ⟨rfl, rfl⟩

theorem neg_sum_map {α : Type} (f g : α → ℝ) (l : List α) (h : ∀ v ∈ l, -(f v) = g v) :
    -(l.map f).sum = (l.map g).sum := by
  induction l with
  | nil => simp
  | cons a l ih =>
    simp only [List.map_cons, List.sum_cons, neg_add]
    rw [h a (List.mem_cons_self _ _), ih (fun v hv => h v (List.mem_cons_of_mem _ hv))]

/-- `SplitInfoAD` as a real sum, when the dataset and every subset are non-empty. -/
theorem SplitInfoAD_eq_sum (attr : String) (rates : GoMap Int Int) (books : GoMap Int Book)
    (attrVals : List String) (hb : GoMap.WF books) (hr : rates ≠ [])
    (hpos : ∀ v ∈ attrVals, 0 < subsetSize attr books v) :
    SplitInfoAD attr rates books attrVals =
      F64.fin ((attrVals.map (fun v =>
        Real.negMulLog ((subsetSize attr books v : ℝ) / (rates.length : ℝ)) /
          Real.log 2)).sum) := by
  have hN : (0 : ℝ) < (rates.length : ℝ) := by
    have : 0 < rates.length := List.length_pos.mpr hr
    exact_mod_cast this
  unfold SplitInfoAD
  rw [foldl_sub_fin _ (fun v =>
    ((subsetSize attr books v : ℝ) / (rates.length : ℝ)) *
      Real.logb 2 ((subsetSize attr books v : ℝ) / (rates.length : ℝ)))]
  · congr 1
    rw [zero_sub]
    exact neg_sum_map _ _ _ (fun v _ => neg_mul_logb_eq _)
  · intro v hv
    have hn : (0 : ℝ) < (subsetSize attr books v : ℝ) := by exact_mod_cast hpos v hv
    simp only [GoMap.len, (Split_eq_subset attr rates books v hb).1, F64.ofInt_eq,
      Int.cast_natCast]
    rw [F64.div_fin hN.ne', F64.log2_fin (div_pos hn hN), F64.mul_fin]

/-- `InfoAD` as a real sum, when the dataset is non-empty. -/
theorem InfoAD_eq_sum (attr : String) (rates : GoMap Int Int) (books : GoMap Int Book)
    (attrVals : List String) (hb : GoMap.WF books) (hr : rates ≠ []) :
    InfoAD attr rates books attrVals =
      F64.fin ((attrVals.map (fun v =>
        ((subsetSize attr books v : ℝ) / (rates.length : ℝ)) *
          entropyOf (subsetLabels attr rates books v))).sum) := by
  have hN : (0 : ℝ) < (rates.length : ℝ) := by
    have : 0 < rates.length := List.length_pos.mpr hr
    exact_mod_cast this
  unfold InfoAD
  rw [foldl_add_fin _ (fun v =>
    ((subsetSize attr books v : ℝ) / (rates.length : ℝ)) *
      entropyOf (subsetLabels attr rates books v))]
  · rw [zero_add]
  · intro v _
    simp only [GoMap.len, (Split_eq_subset attr rates books v hb).1,
      (Split_eq_subset attr rates books v hb).2, F64.ofInt_eq, Int.cast_natCast,
      InfoD_eq_entropyOf]
    rw [F64.div_fin hN.ne', F64.mul_fin]

/-- Summing over the classes of a partition by `f` sums over the whole list. -/
theorem sum_filter_partition {β α : Type} [DecidableEq α] (f : β → α) (g : β → ℕ)
    (X : Finset α) (l : List β) (h : ∀ e ∈ l, f e ∈ X) :
    ∑ v ∈ X, ((l.filter (fun e => decide (f e = v))).map g).sum = (l.map g).sum := by
  induction l with
  | nil => simp
  | cons e l ih =>
    have he : f e ∈ X := h e (List.mem_cons_self _ _)
    have hstep : ∀ v ∈ X, (((e :: l).filter (fun e => decide (f e = v))).map g).sum =
        (if f e = v then g e else 0) +
          ((l.filter (fun e => decide (f e = v))).map g).sum := by
      intro v _
      by_cases hv : f e = v <;> simp [List.filter_cons, hv]
    rw [Finset.sum_congr rfl hstep, Finset.sum_add_distrib,
      ih (fun x hx => h x (List.mem_cons_of_mem _ hx)), Finset.sum_ite_eq X (f e)]
    simp [he]

theorem count_eq_sum_map (l : List Int) (y : Int) :
    l.count y = (l.map (fun x => if x = y then 1 else 0)).sum := by
  induction l with
  | nil => simp
  | cons a l ih =>
    by_cases h : a = y
    · subst h; simp [ih, Nat.add_comm]
    · have : ¬ (a == y) = true := by simpa using h
      simp [List.count_cons, h, ih, this]

theorem length_eq_sum_map {β : Type} (l : List β) : l.length = (l.map (fun _ => 1)).sum := by
  simp

/-- The ratings, listed along the ratings map or along the books, are the same up to
order when both maps have the same keys. -/
theorem rates_perm_books (rates : GoMap Int Int) (books : GoMap Int Book)
    (hr : GoMap.WF rates) (hb : GoMap.WF books)
    (hk : ∀ k, k ∈ GoMap.keys rates ↔ k ∈ GoMap.keys books) :
    (rates.map Prod.snd).Perm (books.map (fun e => rates.getD e.1 0)) := by
  have hp : rates.Perm (books.map (fun e => (e.1, rates.getD e.1 0))) := by
    rw [List.perm_ext_iff_of_nodup (List.Nodup.of_map Prod.fst hr)
      (List.Nodup.of_map Prod.fst (by
        simpa [List.map_map, Function.comp_def] using hb))]
    intro x
    constructor
    · intro hx
      have hx' : (x.1, x.2) ∈ rates := hx
      obtain ⟨e, he, hek⟩ := List.mem_map.mp ((hk x.1).mp (List.mem_map_of_mem Prod.fst hx))
      refine List.mem_map.mpr ⟨e, he, ?_⟩
      rw [hek, GoMap.getD, GoMap.get?_of_mem hr hx']
      rfl
    · intro hx
      obtain ⟨e, he, hex⟩ := List.mem_map.mp hx
      obtain ⟨r, hr'⟩ := GoMap.get?_isSome_of_mem_keys
        ((hk e.1).mpr (List.mem_map_of_mem Prod.fst he))
      rw [← hex, GoMap.getD, hr']
      exact GoMap.mem_of_get? hr'
  have := hp.map Prod.snd
  simpa [List.map_map, Function.comp_def] using this

section
variable (key : String) (rates : GoMap Int Int) (books : GoMap Int Book)

theorem subsetLabels_mem_rates (hr : GoMap.WF rates) (hb : GoMap.WF books)
    (hk : ∀ k, k ∈ GoMap.keys rates ↔ k ∈ GoMap.keys books) (v : String) :
    (subsetLabels key rates books v).toFinset ⊆ (rates.map Prod.snd).toFinset := by
  intro y hy
  rw [List.mem_toFinset] at hy ⊢
  obtain ⟨e, he, hey⟩ := List.mem_map.mp hy
  apply (rates_perm_books rates books hr hb hk).mem_iff.mpr
  exact List.mem_map.mpr ⟨e, (List.mem_filter.mp he).1, hey⟩

/-- Entropy of the labels of a subset, as a sum over all labels of the dataset. -/
theorem entropyOf_subset (hr : GoMap.WF rates) (hb : GoMap.WF books)
    (hk : ∀ k, k ∈ GoMap.keys rates ↔ k ∈ GoMap.keys books) (v : String) :
    entropyOf (subsetLabels key rates books v) =
      (∑ y ∈ (rates.map Prod.snd).toFinset,
        Real.negMulLog (((subsetLabels key rates books v).count y : ℝ) /
          (subsetSize key books v : ℝ))) / Real.log 2 := by
  unfold entropyOf
  rw [subsetLabels_length, Finset.sum_div]
  apply Finset.sum_subset (subsetLabels_mem_rates key rates books hr hb hk v)
  intro y _ hy
  have : (subsetLabels key rates books v).count y = 0 :=
    List.count_eq_zero_of_not_mem (fun h => hy (List.mem_toFinset.mpr h))
  simp [this]

/-- Size of a subset as the sum of its label counts. -/
theorem subsetSize_eq_sum (hr : GoMap.WF rates) (hb : GoMap.WF books)
    (hk : ∀ k, k ∈ GoMap.keys rates ↔ k ∈ GoMap.keys books) (v : String) :
    (subsetSize key books v : ℝ) =
      ∑ y ∈ (rates.map Prod.snd).toFinset, ((subsetLabels key rates books v).count y : ℝ) := by
  rw [← subsetLabels_length key rates books v,
    ← List.sum_toFinset_count_eq_length (subsetLabels key rates books v)]
  push_cast
  apply Finset.sum_subset (subsetLabels_mem_rates key rates books hr hb hk v)
  intro y _ hy
  have : (subsetLabels key rates books v).count y = 0 :=
    List.count_eq_zero_of_not_mem (fun h => hy (List.mem_toFinset.mpr h))
  simp [this]

/-- Count of a label in the dataset as the sum of its counts in the subsets. -/
theorem count_eq_sum_subsets (hr : GoMap.WF rates) (hb : GoMap.WF books)
    (hk : ∀ k, k ∈ GoMap.keys rates ↔ k ∈ GoMap.keys books) (vals : List String)
    (hcover : ∀ e ∈ books, e.2.Attribites.getD key "" ∈ vals) (y : Int) :
    (rates.map Prod.snd).count y =
      ∑ v ∈ vals.toFinset, (subsetLabels key rates books v).count y := by
  rw [(rates_perm_books rates books hr hb hk).count_eq y, count_eq_sum_map, List.map_map]
  have := sum_filter_partition (fun e : Int × Book => e.2.Attribites.getD key "")
    (fun e : Int × Book => if rates.getD e.1 0 = y then 1 else 0) vals.toFinset books
    (fun e he => List.mem_toFinset.mpr (hcover e he))
  rw [show ((fun x => if x = y then 1 else 0) ∘ fun e : Int × Book => rates.getD e.1 0) =
    (fun e : Int × Book => if rates.getD e.1 0 = y then 1 else 0) from rfl, ← this]
  apply Finset.sum_congr rfl
  intro v _
  rw [count_eq_sum_map, subsetLabels, List.map_map]
  rfl

/-- Size of the dataset as the sum of the sizes of the subsets. -/
theorem length_eq_sum_subsets (hr : GoMap.WF rates) (hb : GoMap.WF books)
    (hk : ∀ k, k ∈ GoMap.keys rates ↔ k ∈ GoMap.keys books) (vals : List String)
    (hcover : ∀ e ∈ books, e.2.Attribites.getD key "" ∈ vals) :
    rates.length = ∑ v ∈ vals.toFinset, subsetSize key books v := by
  have hlen : rates.length = books.length := by
    have := (rates_perm_books rates books hr hb hk).length_eq
    simpa using this
  have := sum_filter_partition (fun e : Int × Book => e.2.Attribites.getD key "")
    (fun _ : Int × Book => 1) vals.toFinset books
    (fun e he => List.mem_toFinset.mpr (hcover e he))
  rw [hlen, length_eq_sum_map books, ← this]
  apply Finset.sum_congr rfl
  intro v _
  rw [subsetSize, length_eq_sum_map]

end

/-! ## Bounds on the gain ratio -/

/-- Gain and split information as real numbers, and the two information inequalities
between them, for a non-empty dataset whose attribute has distinct legal values covering
every book and a split information above 0. -/
theorem gain_bounds (key : String) (rates : GoMap Int Int) (books : GoMap Int Book)
    (attrValues : GoMap String (List String)) (hr : GoMap.WF rates) (hb : GoMap.WF books)
    (hk : ∀ k, k ∈ GoMap.keys rates ↔ k ∈ GoMap.keys books) (hne : rates ≠ [])
    (hvals : (attrValues.getD key []).Nodup)
    (hcover : ∀ e ∈ books, e.2.Attribites.getD key "" ∈ attrValues.getD key [])
    (hs : F64.gt (splitInfoOf rates books attrValues key) (F64.fin 0)) :
    ∃ g s : ℝ, gainOf rates books attrValues key = F64.fin g ∧
      splitInfoOf rates books attrValues key = F64.fin s ∧ 0 ≤ g ∧ g ≤ s ∧ 0 < s := by
  have hpos : ∀ v ∈ attrValues.getD key [], 0 < subsetSize key books v := by
    intro v hv
    by_contra h0
    have hempty : (Split key rates books v).1 = [] := by
      rw [Split_eq_filter key rates books v hb]
      have h0' : subsetSize key books v = 0 := by omega
      exact List.length_eq_zero.mp h0'
    have hnan := SplitInfoAD_nan_of_empty_subset key rates books _ ⟨v, hv, hempty⟩
    unfold splitInfoOf at hs
    rw [hnan] at hs
    simp at hs
  have hN : (0 : ℝ) < (rates.length : ℝ) := by
    have : 0 < rates.length := List.length_pos.mpr hne
    exact_mod_cast this
  have hlog : (0 : ℝ) < Real.log 2 := Real.log_pos (by norm_num)
  -- the three quantities as sums over finite sets
  have hS : splitInfoOf rates books attrValues key =
      F64.fin ((∑ v ∈ (attrValues.getD key []).toFinset,
        Real.negMulLog ((subsetSize key books v : ℝ) / (rates.length : ℝ))) /
          Real.log 2) := by
    unfold splitInfoOf
    rw [SplitInfoAD_eq_sum key rates books _ hb hne hpos, ← List.sum_toFinset _ hvals,
      Finset.sum_div]
  have hIA : InfoAD key rates books (attrValues.getD key []) =
      F64.fin ((∑ v ∈ (attrValues.getD key []).toFinset,
        ((subsetSize key books v : ℝ) / (rates.length : ℝ)) *
          ∑ y ∈ (rates.map Prod.snd).toFinset,
            Real.negMulLog (((subsetLabels key rates books v).count y : ℝ) /
              (subsetSize key books v : ℝ))) / Real.log 2) := by
    rw [InfoAD_eq_sum key rates books _ hb hne, ← List.sum_toFinset _ hvals, Finset.sum_div]
    congr 1
    apply Finset.sum_congr rfl
    intro v _
    rw [entropyOf_subset key rates books hr hb hk v]
    ring
  have hE : InfoD (rates.map Prod.snd) =
      F64.fin ((∑ y ∈ (rates.map Prod.snd).toFinset,
        Real.negMulLog ((∑ v ∈ (attrValues.getD key []).toFinset,
          ((subsetLabels key rates books v).count y : ℝ)) / (rates.length : ℝ))) /
            Real.log 2) := by
    rw [InfoD_eq_entropyOf, entropyOf, Finset.sum_div]
    congr 1
    apply Finset.sum_congr rfl
    intro y _
    rw [List.length_map, count_eq_sum_subsets key rates books hr hb hk _ hcover y]
    push_cast
    rfl
  -- the inequalities
  have hc : ∀ v ∈ (attrValues.getD key []).toFinset, ∀ y ∈ (rates.map Prod.snd).toFinset,
      (0 : ℝ) ≤ ((subsetLabels key rates books v).count y : ℝ) :=
    fun _ _ _ _ => Nat.cast_nonneg _
  have hn : ∀ v ∈ (attrValues.getD key []).toFinset, (subsetSize key books v : ℝ) =
      ∑ y ∈ (rates.map Prod.snd).toFinset, ((subsetLabels key rates books v).count y : ℝ) :=
    fun v _ => subsetSize_eq_sum key rates books hr hb hk v
  have hp : ∀ v ∈ (attrValues.getD key []).toFinset, (0 : ℝ) < (subsetSize key books v : ℝ) :=
    fun v hv => by exact_mod_cast hpos v (List.mem_toFinset.mp hv)
  have hNsum : (rates.length : ℝ) =
      ∑ v ∈ (attrValues.getD key []).toFinset, (subsetSize key books v : ℝ) := by
    exact_mod_cast length_eq_sum_subsets key rates books hr hb hk _ hcover
  have h1 := cond_entropy_le (attrValues.getD key []).toFinset (rates.map Prod.snd).toFinset
    (fun v y => ((subsetLabels key rates books v).count y : ℝ))
    (fun v => (subsetSize key books v : ℝ)) (rates.length : ℝ) hc hp hNsum hN
  have h2 := entropy_le_joint (attrValues.getD key []).toFinset (rates.map Prod.snd).toFinset
    (fun v y => ((subsetLabels key rates books v).count y : ℝ))
    (fun v => (subsetSize key books v : ℝ)) (rates.length : ℝ) hc hn hp hN
  have hspos : (0 : ℝ) < (∑ v ∈ (attrValues.getD key []).toFinset,
      Real.negMulLog ((subsetSize key books v : ℝ) / (rates.length : ℝ))) / Real.log 2 := by
    rw [hS] at hs
    simpa using hs
  beta_reduce at h1 h2
  have hG : gainOf rates books attrValues key =
      F64.fin ((∑ y ∈ (rates.map Prod.snd).toFinset,
        Real.negMulLog ((∑ v ∈ (attrValues.getD key []).toFinset,
          ((subsetLabels key rates books v).count y : ℝ)) / (rates.length : ℝ))) /
            Real.log 2 -
        (∑ v ∈ (attrValues.getD key []).toFinset,
          ((subsetSize key books v : ℝ) / (rates.length : ℝ)) *
            ∑ y ∈ (rates.map Prod.snd).toFinset,
              Real.negMulLog (((subsetLabels key rates books v).count y : ℝ) /
                (subsetSize key books v : ℝ))) / Real.log 2) := by
    unfold gainOf
    rw [hE, hIA, F64.sub_fin]
  refine ⟨_, _, hG, hS, ?_, ?_, hspos⟩
  · rw [← sub_div]
    exact div_nonneg (by linarith) hlog.le
  · rw [← sub_div]
    exact div_le_div_of_nonneg_right (by linarith) hlog.le

/-- C14 (amended): in exact real arithmetic, for a non-empty dataset in which `books` and
`rates` have the same (pairwise distinct) keys, and an attribute whose legal values are
distinct and include the value of every book, when the split information of the attribute
is greater than 0 the gain and the split information are finite with
`0 ≤ gain ≤ split information`, and the entry of the attribute in the map returned by
`CalculateGainRatios` is their quotient, which lies in [0, 1]. -/
theorem gain_ratio_unit_interval (key : String) (rates : GoMap Int Int)
    (books : GoMap Int Book) (attrValues : GoMap String (List String))
    (hr : GoMap.WF rates) (hb : GoMap.WF books)
    (hk : ∀ k, k ∈ GoMap.keys rates ↔ k ∈ GoMap.keys books) (hne : rates ≠ [])
    (hvals : (attrValues.getD key []).Nodup)
    (hcover : ∀ e ∈ books, e.2.Attribites.getD key "" ∈ attrValues.getD key [])
    (hs : F64.gt (splitInfoOf rates books attrValues key) (F64.fin 0)) :
    ∃ g s : ℝ, gainOf rates books attrValues key = F64.fin g ∧
      splitInfoOf rates books attrValues key = F64.fin s ∧ 0 ≤ g ∧ g ≤ s ∧
      GoMap.get? (CalculateGainRatios rates books attrValues) key = some (F64.fin (g / s)) ∧
      0 ≤ g / s ∧ g / s ≤ 1 := by
  obtain ⟨g, s, hg, hsp, h0, h1, hpos⟩ :=
    gain_bounds key rates books attrValues hr hb hk hne hvals hcover hs
  have hkey : key ∈ GoMap.keys attrValues := by
    by_contra hnot
    have hnil : attrValues.getD key [] = [] := by
      cases hget : GoMap.get? attrValues key with
      | none => simp [GoMap.getD, hget]
      | some v => exact absurd (List.mem_map_of_mem Prod.fst (GoMap.mem_of_get? hget)) hnot
    have : splitInfoOf rates books attrValues key = F64.fin 0 := by
      simp [splitInfoOf, hnil, SplitInfoAD]
    rw [this] at hs
    simp at hs
  obtain ⟨v, hv⟩ := GoMap.get?_isSome_of_mem_keys
    ((CalculateGainRatios_keys rates books attrValues key).mpr hkey)
  have hrat := (CalculateGainRatios_entry rates books attrValues (GoMap.mem_of_get? hv)).2
  simp only at hrat
  have hratio : ratioOf rates books attrValues key = F64.fin (g / s) := by
    unfold ratioOf
    rw [hsp, hg, if_pos (by simpa using hpos.ne'), F64.div_fin hpos.ne']
  refine ⟨g, s, hg, hsp, h0, h1, ?_, div_nonneg h0 hpos.le, (div_le_one hpos).mpr h1⟩
  rw [hv, hrat, hratio]

/-- Instance of the gain-ratio bound (C14) in exact arithmetic, on `twoBooks` and the
attribute `genre`. -/
theorem gain_ratio_unit_interval_witness :
    F64.gt (splitInfoOf twoBooks.rates twoBooks.books twoBooks.attrValues "genre")
        (F64.fin 0) ∧
      ∃ g s : ℝ, gainOf twoBooks.rates twoBooks.books twoBooks.attrValues "genre" = F64.fin g ∧
        splitInfoOf twoBooks.rates twoBooks.books twoBooks.attrValues "genre" = F64.fin s ∧
        0 ≤ g ∧ g ≤ s ∧
        GoMap.get? (CalculateGainRatios twoBooks.rates twoBooks.books twoBooks.attrValues)
          "genre" = some (F64.fin (g / s)) ∧
        0 ≤ g / s ∧ g / s ≤ 1 :=
  have hs : F64.gt (splitInfoOf twoBooks.rates twoBooks.books twoBooks.attrValues "genre")
      (F64.fin 0) := by rw [twoBooks_splitInfo]; simp
  ⟨hs, gain_ratio_unit_interval "genre" twoBooks.rates twoBooks.books twoBooks.attrValues
    (by decide) (by decide) (fun _ => Iff.rfl) (by decide) (by decide) (by decide) hs⟩

/-! ## Rounding to binary64: representable numbers are not changed -/

theorem bitsAux_le (fuel n k : Nat) (h : n < 2 ^ k) : bitsAux fuel n ≤ k := by
  induction fuel generalizing n k with
  | zero => simp [bitsAux]
  | succ fuel ih =>
    simp only [bitsAux]
    split
    · exact Nat.zero_le _
    · rename_i hn
      cases k with
      | zero => simp at h; exact absurd h hn
      | succ k =>
        have : n / 2 < 2 ^ k := by
          rw [Nat.div_lt_iff_lt_mul (by decide)]
          rw [pow_succ] at h
          exact h
        have := ih (n / 2) k this
        omega

theorem bitsAux_two_pow (t fuel : Nat) (h : t < fuel) : bitsAux fuel (2 ^ t) = t + 1 := by
  induction t generalizing fuel with
  | zero =>
    cases fuel with
    | zero => omega
    | succ fuel =>
      cases fuel with
      | zero => simp [bitsAux]
      | succ fuel => simp [bitsAux]
  | succ t ih =>
    cases fuel with
    | zero => omega
    | succ fuel =>
      have hne : (2 : Nat) ^ (t + 1) ≠ 0 := by positivity
      have hhalf : (2 : Nat) ^ (t + 1) / 2 = 2 ^ t := by
        rw [pow_succ]; simp
      simp only [bitsAux, hne, if_false, hhalf]
      rw [ih fuel (by omega)]

theorem bits_two_pow (t : Nat) : bits (2 ^ t) = t + 1 :=
  bitsAux_two_pow t (2 ^ t) (Nat.lt_two_pow t)

theorem ilog2_le (n d : Nat) : ilog2 n d ≤ (bits n : Int) - (bits d : Int) := by
  unfold ilog2
  simp only
  split_ifs <;> omega

theorem roundNat_of_dvd {N D : Nat} (hD : 0 < D) (h : D ∣ N) : roundNat N D = N / D := by
  unfold roundNat
  simp only [Nat.mod_eq_zero_of_dvd h, Nat.mul_zero, hD, if_true]

/-- A rational `n / 2 ^ t` with `n < 2 ^ 53` and `t ≤ 1074` is a binary64
number: rounding returns it. -/
theorem rnAbs_exact (n t : Nat) (hn53 : n < 2 ^ 53) (ht : t ≤ 1074) :
    rnAbs n (2 ^ t) = some ((n : ℚ) / 2 ^ t) := by
  have hb : (bits n : Int) ≤ 53 := by
    have := bitsAux_le n n 53 hn53
    unfold bits
    exact_mod_cast this
  have he := ilog2_le n (2 ^ t)
  rw [bits_two_pow] at he
  unfold rnAbs
  simp only
  generalize ilog2 n (2 ^ t) = e at he
  have hu : max e (-1022) - 52 ≤ -(t : Int) := by
    push_cast at he
    rcases max_cases e (-1022) with ⟨h1, _⟩ | ⟨h1, _⟩ <;> rw [h1] <;> omega
  generalize max e (-1022) - 52 = u at hu
  by_cases h0 : 0 ≤ u
  · have hu0 : u = 0 := by omega
    have ht0 : t = 0 := by omega
    subst hu0 ht0
    have hlt : ¬ 2 ^ 1024 ≤ n := fun h =>
      lt_irrefl _ (lt_of_lt_of_le hn53
        (le_trans (Nat.pow_le_pow_right (by decide) (by decide)) h))
    have hr : roundNat n (2 ^ 0 * 2 ^ (0 : Int).toNat) = n := by
      rw [roundNat_of_dvd (by decide) (by simp)]
      simp
    have hn1 : n * 2 ^ (0 : Int).toNat = n := by simp
    rw [if_pos (le_refl _)]
    simp only [hr, hn1]
    rw [if_neg hlt]
    simp
  · rw [if_neg h0]
    obtain ⟨w, hw⟩ : ∃ w : Nat, u = -(w : Int) := ⟨(-u).toNat, by omega⟩
    subst hw
    have htw : t ≤ w := by omega
    simp only [neg_neg, Int.toNat_ofNat]
    have hdvd : 2 ^ t ∣ n * 2 ^ w := Dvd.dvd.mul_left (pow_dvd_pow 2 htw) n
    rw [roundNat_of_dvd (by positivity) hdvd]
    congr 1
    rw [Rat.mkRat_eq_div]
    have h2w : (2 : Nat) ^ w = 2 ^ t * 2 ^ (w - t) := by
      rw [← pow_add]; congr 1; omega
    have hq : n * 2 ^ w / 2 ^ t = n * 2 ^ (w - t) := by
      rw [h2w, ← mul_assoc, mul_comm n, mul_assoc]
      exact Nat.mul_div_cancel_left _ (by positivity)
    rw [hq, h2w]
    push_cast
    field_simp
    ring

namespace B64

theorem rn_zero : rn 0 = fin 0 := by decide

/-- Rounding leaves a binary64 number unchanged: `a / 2 ^ s` with `|a| < 2 ^ 53` and
`s ≤ 1074`. -/
theorem rn_exact (a : Int) (s : Nat) (ha : a.natAbs < 2 ^ 53) (hs : s ≤ 1074) :
    rn ((a : ℚ) / 2 ^ s) = fin ((a : ℚ) / 2 ^ s) := by
  generalize hq : (a : ℚ) / 2 ^ s = q
  have hq' : q = Rat.divInt a ((2 ^ s : Nat) : Int) := by
    rw [← hq, Rat.divInt_eq_div]; push_cast; rfl
  by_cases hnum : q.num = 0
  · have : q = 0 := Rat.zero_of_num_zero hnum
    subst this
    exact rn_zero
  · have hden : q.den ∣ 2 ^ s := by
      have := Rat.den_dvd a ((2 ^ s : Nat) : Int)
      rw [← hq'] at this
      exact_mod_cast this
    obtain ⟨t, hts, ht⟩ := (Nat.dvd_prime_pow Nat.prime_two).mp hden
    have hnumdvd : q.num ∣ a := by
      have := Rat.num_dvd a (b := ((2 ^ s : Nat) : Int)) (by positivity)
      rw [← hq'] at this
      exact this
    have ha0 : a ≠ 0 := by
      rintro rfl
      apply hnum
      rw [← hq]; simp
    have hnle : q.num.natAbs ≤ a.natAbs :=
      Nat.le_of_dvd (Int.natAbs_pos.mpr ha0) (Int.natAbs_dvd_natAbs.mpr hnumdvd)
    have hpos : 0 < q.num.natAbs := Int.natAbs_pos.mpr hnum
    unfold rn
    rw [if_neg hnum, ht, rnAbs_exact _ t (by omega) (by omega)]
    simp only
    congr 1
    have hqd : q = (q.num : ℚ) / 2 ^ t := by
      have := (Rat.num_div_den q).symm
      rw [ht] at this
      exact_mod_cast this
    by_cases hneg : q.num < 0
    · rw [if_pos hneg]
      have : ((q.num.natAbs : Nat) : ℚ) = -(q.num : ℚ) := by
        rw [Nat.cast_natAbs, Int.cast_abs]
        exact abs_of_neg (by exact_mod_cast hneg)
      rw [this]
      conv_rhs => rw [hqd]
      ring
    · rw [if_neg hneg]
      have : ((q.num.natAbs : Nat) : ℚ) = (q.num : ℚ) := by
        rw [Nat.cast_natAbs, Int.cast_abs]
        exact abs_of_nonneg (by exact_mod_cast not_lt.mp hneg)
      rw [this]
      exact hqd.symm

end B64

/-! ## The entropy calculator in binary64: equally frequent labels, a power of two -/

namespace B64

theorem ofInt_exact (n : Int) (h : n.natAbs < 2 ^ 53) : ofInt n = fin n := by
  have := rn_exact n 0 h (by decide)
  simpa [ofInt] using this

theorem ilog2_one_two_pow (j : Nat) : ilog2 1 (2 ^ j) = -(j : Int) := by
  have h1 : bits 1 = 1 := by decide
  unfold ilog2
  simp only [h1, bits_two_pow]
  by_cases hj : j = 0
  · subst hj
    simp
  · have hneg : ¬ (0 : Int) ≤ ((1 : Nat) : Int) - ((j + 1 : Nat) : Int) := by
      push_cast; omega
    rw [if_neg hneg]
    have he : (-(((1 : Nat) : Int) - ((j + 1 : Nat) : Int))).toNat = j := by
      push_cast; omega
    rw [he]
    simp

theorem Frexp_inv_two_pow (j : Nat) :
    Frexp (fin (1 / 2 ^ j)) = (fin (1 / 2), -(j : Int) + 1) := by
  have hx : (1 : ℚ) / 2 ^ j = ((2 ^ j : Nat) : ℚ)⁻¹ := by push_cast; simp
  have hnum : ((1 : ℚ) / 2 ^ j).num = 1 := by
    rw [hx]; exact Rat.inv_natCast_num_of_pos (by positivity)
  have hden : ((1 : ℚ) / 2 ^ j).den = 2 ^ j := by
    rw [hx]; exact Rat.inv_natCast_den_of_pos (by positivity)
  simp only [Frexp, hnum, hden, one_ne_zero, if_false, Int.natAbs_one, ilog2_one_two_pow]
  congr 2
  by_cases hj : j ≤ 1
  · interval_cases j <;> norm_num
  · have hneg : ¬ (0 : Int) ≤ -(j : Int) + 1 := by omega
    rw [if_neg hneg]
    have he : (-(-(j : Int) + 1)).toNat = j - 1 := by omega
    rw [he]
    obtain ⟨i, rfl⟩ : ∃ i, j = i + 2 := ⟨j - 2, by omega⟩
    simp only [Nat.add_sub_cancel, show i + 2 - 1 = i + 1 by omega]
    push_cast
    rw [pow_succ (2 : ℚ) (i + 1)]
    field_simp

theorem rn_half : rn (1 / 2) = fin (1 / 2) := by decide!

/-- An exact power of two has an exact logarithm to base 2. -/
theorem log2_inv_two_pow (j : Nat) (hj : j < 2 ^ 53) :
    log2 (fin (1 / 2 ^ j)) = fin (-(j : ℚ)) := by
  unfold log2
  simp only [Frexp_inv_two_pow, rn_half]
  have : eq (fin (1 / 2)) (fin (1 / 2)) = true := by simp [eq]
  rw [if_pos this]
  have h2 : -(j : Int) + 1 - 1 = -(j : Int) := by omega
  rw [h2, ofInt_exact _ (by simpa using hj)]
  push_cast
  rfl

end B64

/-- Subtracting the same exactly representable term from a running sum. -/
theorem foldl_sub_b64 {α : Type} (f : α → B64) (j : Nat) (s : Nat) (hs : s ≤ 1074)
    (l : List α) (h : ∀ e ∈ l, f e = B64.fin (-(j : ℚ) / 2 ^ s)) (i : Nat)
    (hb : (i + l.length) * j < 2 ^ 53) :
    l.foldl (fun a e => B64.sub a (f e)) (B64.fin (((i * j : Nat) : ℚ) / 2 ^ s)) =
      B64.fin ((((i + l.length) * j : Nat) : ℚ) / 2 ^ s) := by
  induction l generalizing i with
  | nil => simp
  | cons a l ih =>
    simp only [List.foldl_cons, h a (List.mem_cons_self _ _)]
    have hstep : B64.sub (B64.fin (((i * j : Nat) : ℚ) / 2 ^ s))
        (B64.fin (-(j : ℚ) / 2 ^ s)) = B64.fin ((((i + 1) * j : Nat) : ℚ) / 2 ^ s) := by
      have hval : ((i * j : Nat) : ℚ) / 2 ^ s + -(-(j : ℚ) / 2 ^ s) =
          ((((i + 1) * j : Nat) : Int) : ℚ) / 2 ^ s := by
        push_cast; ring
      have hlt : ((((i + 1) * j : Nat) : Int)).natAbs < 2 ^ 53 := by
        simp only [Int.natAbs_ofNat]
        simp only [List.length_cons] at hb
        calc (i + 1) * j ≤ (i + (l.length + 1)) * j :=
              Nat.mul_le_mul_right _ (by omega)
          _ < 2 ^ 53 := hb
      simp only [B64.sub, B64.neg, B64.add]
      rw [hval, B64.rn_exact _ s hlt hs]
      push_cast
      rfl
    rw [hstep, ih (fun e he => h e (List.mem_cons_of_mem _ he)) (i + 1)]
    · simp only [List.length_cons]
      congr 3
      ring
    · simp only [List.length_cons] at hb
      have : i + 1 + l.length = i + (l.length + 1) := by ring
      rw [this]
      exact hb

/-- In binary64, the entropy of `2 ^ j` equally frequent labels is exactly `j`, for
every sequence of fewer than `2 ^ 47` labels. -/
theorem InfoD_binary64_two_pow (labels : List Int) (j m : Nat) (hm : 1 ≤ m)
    (hd : labels.dedup.length = 2 ^ j) (hc : ∀ x ∈ labels, labels.count x = m)
    (hlen : labels.length < 2 ^ 47) : Binary64.InfoD labels = B64.fin (j : ℚ) := by
  have hlen' : labels.length = 2 ^ j * m := by
    rw [← List.sum_map_count_dedup_eq_length labels, ← hd]
    have : (labels.dedup.map fun x => labels.count x) = labels.dedup.map fun _ => m := by
      apply List.map_congr_left
      intro x hx
      exact hc x (List.mem_dedup.mp hx)
    rw [this]
    simp
  have hk47 : 2 ^ j < 2 ^ 47 := by
    calc 2 ^ j ≤ 2 ^ j * m := Nat.le_mul_of_pos_right _ hm
      _ = labels.length := hlen'.symm
      _ < 2 ^ 47 := hlen
  have hj47 : j < 47 := (Nat.pow_lt_pow_iff_right (by decide)).mp hk47
  have hm47 : m < 2 ^ 47 := by
    calc m ≤ 2 ^ j * m := Nat.le_mul_of_pos_left _ (by positivity)
      _ = labels.length := hlen'.symm
      _ < 2 ^ 47 := hlen
  have h4753 : (2 : Nat) ^ 47 < 2 ^ 53 := by decide
  have hterm : ∀ e ∈ countLabels labels,
      (let probability := B64.div (B64.ofInt e.2) (B64.ofInt labels.length)
       B64.mul probability (B64.log2 probability)) = B64.fin (-(j : ℚ) / 2 ^ j) := by
    intro e he
    obtain ⟨h1, h2⟩ := countLabels_entry labels he
    rw [hc e.1 h1] at h2
    simp only [h2]
    rw [B64.ofInt_exact _ (by simp; omega), B64.ofInt_exact _ (by simp; omega)]
    have hn0 : ((labels.length : Int) : ℚ) ≠ 0 := by
      rw [hlen']; push_cast; positivity
    have hdiv : B64.div (B64.fin ((m : Int) : ℚ)) (B64.fin ((labels.length : Int) : ℚ)) =
        B64.fin (1 / 2 ^ j) := by
      simp only [B64.div, hn0, if_false]
      have : ((m : Int) : ℚ) / ((labels.length : Int) : ℚ) = ((1 : Int) : ℚ) / 2 ^ j := by
        rw [hlen']
        push_cast
        have : (m : ℚ) ≠ 0 := by positivity
        field_simp
        ring
      rw [this, B64.rn_exact 1 j (by decide) (by omega)]
      simp
    rw [hdiv, B64.log2_inv_two_pow j (by omega)]
    simp only [B64.mul]
    have : (1 : ℚ) / 2 ^ j * -(j : ℚ) = ((-(j : Int) : Int) : ℚ) / 2 ^ j := by
      push_cast; ring
    rw [this, B64.rn_exact _ j (by simp; omega) (by omega)]
    push_cast
    rfl
  unfold Binary64.InfoD
  have h0 : (B64.fin 0) = B64.fin (((0 * j : Nat) : ℚ) / 2 ^ j) := by simp
  rw [h0, foldl_sub_b64 _ j j (by omega) _ hterm 0]
  · rw [countLabels_length, hd]
    congr 1
    push_cast
    field_simp
  · rw [countLabels_length, hd, Nat.zero_add]
    calc 2 ^ j * j ≤ 2 ^ 47 * 47 :=
          Nat.mul_le_mul hk47.le hj47.le
      _ < 2 ^ 53 := by decide

/-! ## Entropy and gain ratio in binary64 -/

/-- The real number `log₂ 3` is irrational, hence not a `float64` value. -/
theorem logb_two_three_ne_rat (q : ℚ) : (q : ℝ) ≠ Real.logb 2 3 := by
  intro h
  have hpos : 0 < Real.logb 2 3 := Real.logb_pos (by norm_num) (by norm_num)
  have hq : 0 < q := by
    rw [← h] at hpos
    exact_mod_cast hpos
  have h2 : (2 : ℝ) ^ (q : ℝ) = 3 := by
    rw [h]
    exact Real.rpow_logb (by norm_num) (by norm_num) (by norm_num)
  have hnum : 0 < q.num := Rat.num_pos.mpr hq
  obtain ⟨a, ha⟩ : ∃ a : Nat, q.num = a := ⟨q.num.toNat, (Int.toNat_of_nonneg hnum.le).symm⟩
  have ha0 : 0 < a := by omega
  have hqa : (q : ℝ) * (q.den : ℝ) = (a : ℝ) := by
    have h1 : q * (q.den : ℚ) = (q.num : ℚ) := Rat.mul_den_eq_num q
    have h3 : ((q * (q.den : ℚ) : ℚ) : ℝ) = ((q.num : ℚ) : ℝ) := by rw [h1]
    rw [ha] at h3
    push_cast at h3
    exact h3
  have h4 : (2 : ℝ) ^ (a : ℝ) = (3 : ℝ) ^ (q.den : ℝ) := by
    rw [← hqa, Real.rpow_mul (by norm_num), h2]
  rw [Real.rpow_natCast, Real.rpow_natCast] at h4
  have h5 : 2 ^ a = 3 ^ q.den := by exact_mod_cast h4
  have h6 : 2 ∣ 3 ^ q.den := by
    rw [← h5]
    exact dvd_pow_self 2 (by omega)
  have h7 := Nat.Prime.dvd_of_dvd_pow Nat.prime_two h6
  omega

/-- C7, counterexample: the sequence `[1, 2, 3]` consists of `k = 3` distinct values each
occurring once, and on it `InfoD` returns the `float64` value `7138036527644008 · 2⁻⁵²`,
whereas `math.Log2(3)` is `7138036527644009 · 2⁻⁵²`, one unit in the last place above;
nor is the value returned the real number `log₂ 3`, which no `float64` value equals. -/
theorem InfoD_three_labels_not_log2 :
    ([1, 2, 3] : List Int).dedup.length = 3 ∧
      (∀ x ∈ ([1, 2, 3] : List Int), ([1, 2, 3] : List Int).count x = 1) ∧
      Binary64.InfoD [1, 2, 3] = B64.fin (7138036527644008 / 2 ^ 52) ∧
      B64.log2 (B64.ofInt 3) = B64.fin (7138036527644009 / 2 ^ 52) ∧
      Binary64.InfoD [1, 2, 3] ≠ B64.log2 (B64.ofInt 3) ∧
      (Binary64.InfoD [1, 2, 3]).toF64 ≠ F64.fin (Real.logb 2 3) := by
  have h1 : Binary64.InfoD [1, 2, 3] = B64.fin (7138036527644008 / 2 ^ 52) := by decide!
  have h2 : B64.log2 (B64.ofInt 3) = B64.fin (7138036527644009 / 2 ^ 52) := by decide!
  refine ⟨by decide, by decide, h1, h2, ?_, ?_⟩
  · rw [h1, h2]
    decide!
  · rw [h1]
    intro h
    simp only [B64.toF64, F64.fin.injEq] at h
    exact logb_two_three_ne_rat _ h

/-- C7 (amended): `InfoD` of the empty sequence is 0, in exact and in binary64 arithmetic.
For a label sequence made of `k ≥ 1` distinct values each occurring `m ≥ 1` times, the
entropy that `InfoD` evaluates is `log₂ k` in exact real arithmetic; and the `float64`
value that `InfoD` returns is exactly `log₂ k = j` whenever `k = 2 ^ j` is a power of two
and the sequence has fewer than `2 ^ 47` labels. -/
theorem InfoD_equally_frequent :
    (InfoD [] = F64.fin 0 ∧ Binary64.InfoD [] = B64.fin 0) ∧
      (∀ (labels : List Int) (k m : Nat), 1 ≤ k → 1 ≤ m → labels.dedup.length = k →
        (∀ x ∈ labels, labels.count x = m) → InfoD labels = F64.fin (Real.logb 2 k)) ∧
      (∀ (labels : List Int) (j m : Nat), 1 ≤ m → labels.dedup.length = 2 ^ j →
        (∀ x ∈ labels, labels.count x = m) → labels.length < 2 ^ 47 →
        Binary64.InfoD labels = B64.fin (j : ℚ)) :=
  ⟨⟨InfoD_nil, rfl⟩, InfoD_uniform, InfoD_binary64_two_pow⟩

/-- Instances of the entropy theorem (C7) in binary64 arithmetic: one distinct value
gives 0, `[1, 1, 2, 2]` gives 1, and four equally frequent values give 2. -/
theorem InfoD_equally_frequent_witness :
    Binary64.InfoD [7, 7, 7] = B64.fin 0 ∧ Binary64.InfoD [1, 1, 2, 2] = B64.fin 1 ∧
      Binary64.InfoD [4, 3, 2, 1, 1, 2, 3, 4] = B64.fin 2 ∧
      InfoD [1, 1, 2, 2] = F64.fin 1 := by
  refine ⟨?_, ?_, ?_, ?_⟩
  · have h := InfoD_equally_frequent.2.2 [7, 7, 7] 0 3 (by decide) (by decide) (by decide)
      (by decide)
    simpa using h
  · have h := InfoD_equally_frequent.2.2 [1, 1, 2, 2] 1 2 (by decide) (by decide)
      (by decide) (by decide)
    simpa using h
  · have h := InfoD_equally_frequent.2.2 [4, 3, 2, 1, 1, 2, 3, 4] 2 2 (by decide)
      (by decide) (by decide) (by decide)
    simpa using h
  · have h := InfoD_equally_frequent.2.1 [1, 1, 2, 2] 2 2 (by decide) (by decide)
      (by decide) (by decide)
    simpa using h

/-- C14, counterexample: `fiveBooks` and `fifteenBooks` are non-empty datasets whose
books and ratings have the same keys, the legal values `a`, `b` of `x` are distinct and
include the value of every book, and the split information of `x` is greater than 0.  On
`fiveBooks` the gain computed in binary64 exceeds the split information by one unit in the
last place and `CalculateGainRatios` returns `1 + 2⁻⁵² > 1` for `x`; on `fifteenBooks` the
gain computed is `-2⁻⁵²` and `CalculateGainRatios` returns a ratio below 0. -/
theorem gain_ratio_outside_unit_interval :
    (GoMap.WF fiveBooks.rates ∧ GoMap.WF fiveBooks.books ∧
      (∀ k, k ∈ GoMap.keys fiveBooks.rates ↔ k ∈ GoMap.keys fiveBooks.books) ∧
      fiveBooks.rates ≠ [] ∧ (fiveBooks.attrValues.getD "x" []).Nodup ∧
      (∀ e ∈ fiveBooks.books,
        e.2.Attribites.getD "x" "" ∈ fiveBooks.attrValues.getD "x" []) ∧
      Binary64.SplitInfoAD "x" fiveBooks.rates fiveBooks.books
          (fiveBooks.attrValues.getD "x" []) = B64.fin (6502550198246034 / 2 ^ 53) ∧
      B64.sub (Binary64.InfoD (fiveBooks.rates.map Prod.snd))
          (Binary64.InfoAD "x" fiveBooks.rates fiveBooks.books
            (fiveBooks.attrValues.getD "x" [])) = B64.fin (6502550198246035 / 2 ^ 53) ∧
      Binary64.CalculateGainRatios fiveBooks.rates fiveBooks.books fiveBooks.attrValues =
        [("x", B64.fin (1 + 1 / 2 ^ 52))] ∧
      B64.gt (B64.fin (1 + 1 / 2 ^ 52)) (B64.fin 1) = true) ∧
    (GoMap.WF fifteenBooks.rates ∧ GoMap.WF fifteenBooks.books ∧
      (∀ k, k ∈ GoMap.keys fifteenBooks.rates ↔ k ∈ GoMap.keys fifteenBooks.books) ∧
      fifteenBooks.rates ≠ [] ∧ (fifteenBooks.attrValues.getD "x" []).Nodup ∧
      (∀ e ∈ fifteenBooks.books,
        e.2.Attribites.getD "x" "" ∈ fifteenBooks.attrValues.getD "x" []) ∧
      Binary64.SplitInfoAD "x" fifteenBooks.rates fifteenBooks.books
          (fifteenBooks.attrValues.getD "x" []) = B64.fin (3251275099123017 / 2 ^ 52) ∧
      B64.sub (Binary64.InfoD (fifteenBooks.rates.map Prod.snd))
          (Binary64.InfoAD "x" fifteenBooks.rates fifteenBooks.books
            (fifteenBooks.attrValues.getD "x" [])) = B64.fin (-(1 / 2 ^ 52)) ∧
      Binary64.CalculateGainRatios fifteenBooks.rates fifteenBooks.books
          fifteenBooks.attrValues = [("x", B64.fin (-(779786736945243 / 2 ^ 101)))] ∧
      B64.gt (B64.fin 0) (B64.fin (-(779786736945243 / 2 ^ 101))) = true) := by
  refine ⟨⟨by decide, by decide, fun _ => Iff.rfl, by decide, by decide, by decide,
      ?_, ?_, ?_, ?_⟩,
    ⟨by decide, by decide, fun _ => Iff.rfl, by decide, by decide, by decide,
      ?_, ?_, ?_, ?_⟩⟩
  all_goals decide!

/-! ## Tree builder over the values computed in the call -/

theorem BuildTreeFuelWith_leaf
    (ratiosOf : GoMap Int Int → GoMap Int Book → GoMap String (List String) →
      GoMap String F64)
    (major : List Int → Int) (fuel : Nat) (st : Store)
    (h : F64.eq (GetBest (ratiosOf st.rates st.books st.attrValues)).2 (F64.fin 0)) :
    BuildTreeFuelWith ratiosOf major (fuel + 1) st =
      some (Node.mk "" "" [] true (major (st.rates.map Prod.snd)), st) := by
  simp only [BuildTreeFuelWith, h, if_true]

theorem BuildTreeFuelWith_node
    (ratiosOf : GoMap Int Int → GoMap Int Book → GoMap String (List String) →
      GoMap String F64)
    (major : List Int → Int) (fuel : Nat) (st : Store)
    (h : ¬ F64.eq (GetBest (ratiosOf st.rates st.books st.attrValues)).2 (F64.fin 0)) :
    BuildTreeFuelWith ratiosOf major (fuel + 1) st =
      buildChildren (BuildTreeFuelWith ratiosOf major fuel)
        (GetBest (ratiosOf st.rates st.books st.attrValues)).1
        (st.attrValues.getD (GetBest (ratiosOf st.rates st.books st.attrValues)).1 [])
        (Node.mk (GetBest (ratiosOf st.rates st.books st.attrValues)).1 "" [] false 0)
        st := by
  simp only [BuildTreeFuelWith, h, if_false]

/-- With the gain-ratio evaluator and the majority vote of this file, the builder over
computed values is the builder. -/
theorem BuildTreeFuelWith_eq (fuel : Nat) :
    BuildTreeFuelWith CalculateGainRatios majorityClass fuel = BuildTreeFuel fuel := by
  induction fuel with
  | zero => rfl
  | succ fuel ih =>
    funext st
    simp only [BuildTreeFuelWith, BuildTreeFuel, ih]

theorem BuildTreeWith_eq (st : Store) :
    BuildTreeWith CalculateGainRatios majorityClass st = BuildTree st := by
  unfold BuildTreeWith BuildTree
  rw [BuildTreeFuelWith_eq]

/-- The builder returns whenever the ratio map has no key outside the domain and the
budget exceeds the number of attributes. -/
theorem BuildTreeFuelWith_returns
    (ratiosOf : GoMap Int Int → GoMap Int Book → GoMap String (List String) →
      GoMap String F64)
    (major : List Int → Int)
    (hkeys : ∀ r b D key, key ∈ GoMap.keys (ratiosOf r b D) → key ∈ GoMap.keys D)
    (fuel : Nat) (st : Store) (h : st.attrValues.length < fuel) :
    ∃ t s', BuildTreeFuelWith ratiosOf major fuel st = some (t, s') ∧
      t.depth ≤ st.attrValues.length ∧ s'.attrValues.length ≤ st.attrValues.length := by
  induction fuel generalizing st with
  | zero => omega
  | succ fuel ih =>
    by_cases hg : F64.eq (GetBest (ratiosOf st.rates st.books st.attrValues)).2 (F64.fin 0)
    · rw [BuildTreeFuelWith_leaf ratiosOf major fuel st hg]
      exact ⟨_, _, rfl, by simp [Node.depth], le_refl _⟩
    · rw [BuildTreeFuelWith_node ratiosOf major fuel st hg]
      have hkey : (GetBest (ratiosOf st.rates st.books st.attrValues)).1 ∈
          GoMap.keys st.attrValues :=
        hkeys _ _ _ _ (GetBest_mem_keys _ hg)
      have hlt := GoMap.length_delete_lt hkey
      apply buildChildren_returns (BuildTreeFuelWith ratiosOf major fuel)
        st.attrValues.length
      · intro s hs
        exact ih s (by omega)
      · simp only [depthList]
        omega
      · exact le_refl _
      · exact hlt

theorem majorityOver_nil : majorityOver [] = -1 := rfl

namespace Binary64

theorem ratios64_keys (rates : GoMap Int Int) (books : GoMap Int Book)
    (attrValues : GoMap String (List String)) (key : String) :
    key ∈ GoMap.keys (CalculateGainRatios rates books attrValues) ↔
      key ∈ GoMap.keys attrValues := by
  have hstep : ∀ (gs : GoMap String B64 × GoMap String B64),
      (fun (gainRatios : GoMap String B64) (e : String × B64) =>
        if B64.ne (gs.2.getD e.1 (B64.fin 0)) (B64.fin 0) then
          gainRatios.set e.1 (B64.div (gs.1.getD e.1 (B64.fin 0)) (gs.2.getD e.1 (B64.fin 0)))
        else gainRatios.set e.1 (B64.fin 0)) =
      fun gainRatios e => GoMap.set gainRatios (Prod.fst e)
        (if B64.ne (gs.2.getD e.1 (B64.fin 0)) (B64.fin 0) then
          B64.div (gs.1.getD e.1 (B64.fin 0)) (gs.2.getD e.1 (B64.fin 0))
        else B64.fin 0) := by
    intro gs
    funext gainRatios e
    split <;> rfl
  unfold CalculateGainRatios
  simp only []
  rw [hstep, GoMap.mem_keys_foldl_set]
  have h1 := foldl_pair
    (fun m (e : String × List String) => GoMap.set m (Prod.fst e)
      (B64.sub (InfoD (rates.map Prod.snd)) (InfoAD e.1 rates books (attrValues.getD e.1 []))))
    (fun m (e : String × List String) => GoMap.set m (Prod.fst e)
      (SplitInfoAD e.1 rates books (attrValues.getD e.1 [])))
    attrValues [] []
  have h2 : (gainsAndSplitInfos rates books attrValues (InfoD (rates.map Prod.snd))).1 =
      attrValues.foldl (fun m (e : String × List String) => GoMap.set m (Prod.fst e)
        (B64.sub (InfoD (rates.map Prod.snd))
          (InfoAD e.1 rates books (attrValues.getD e.1 [])))) [] :=
    congrArg Prod.fst h1
  rw [h2]
  have h3 := GoMap.mem_keys_foldl_set Prod.fst
    (fun (e : String × List String) => B64.sub (InfoD (rates.map Prod.snd))
      (InfoAD e.1 rates books (attrValues.getD e.1 []))) attrValues [] key
  simp only [GoMap.keys, List.map_nil, List.not_mem_nil, false_or] at h3 ⊢
  exact h3

theorem ratios_keys (rates : GoMap Int Int) (books : GoMap Int Book)
    (attrValues : GoMap String (List String)) (key : String) :
    key ∈ GoMap.keys (ratios rates books attrValues) ↔ key ∈ GoMap.keys attrValues := by
  rw [← ratios64_keys rates books attrValues key]
  simp [ratios, GoMap.keys]

end Binary64

/-- C12: whatever values the call `CalculateGainRatios(rates, books, attrValues)` returns
for the attributes of the domain (`ratiosOf`) and whichever most frequent label
`majorityClass` returns (`major`), `BuildTree` returns, and it returns a leaf exactly when
no gain ratio computed in the call is greater than 0.  The best gain ratio is then 0, and
the leaf is classified with the label returned by `majorityClass`, a most frequent label
of the dataset (`-1` when the dataset is empty).  Otherwise the result is an internal node
whose attribute is a key of the domain whose computed gain ratio is greater than 0 and is
exceeded by no computed gain ratio. -/
theorem BuildTree_leaf_iff
    (ratiosOf : GoMap Int Int → GoMap Int Book → GoMap String (List String) →
      GoMap String F64)
    (major : List Int → Int)
    (hkeys : ∀ r b D key, key ∈ GoMap.keys (ratiosOf r b D) ↔ key ∈ GoMap.keys D)
    (hmajor : ∀ labels, ∃ it : List (Int × Int),
      it.Perm (countLabels labels) ∧ major labels = majorityOver it)
    (st : Store) :
    ∃ t s, BuildTreeWith ratiosOf major st = some (t, s) ∧
      (t.IsLeaf = true ↔
        ∀ e ∈ ratiosOf st.rates st.books st.attrValues, ¬ F64.gt e.2 (F64.fin 0)) ∧
      (t.IsLeaf = true →
        GetBest (ratiosOf st.rates st.books st.attrValues) = ("", F64.fin 0) ∧
          t.Classification = major (st.rates.map Prod.snd) ∧
          (st.rates = [] → t.Classification = -1) ∧
          (st.rates ≠ [] → t.Classification ∈ st.rates.map Prod.snd ∧
            ∀ x ∈ st.rates.map Prod.snd,
              (st.rates.map Prod.snd).count x ≤
                (st.rates.map Prod.snd).count t.Classification)) ∧
      (t.IsLeaf = false →
        t.Attribute ∈ GoMap.keys st.attrValues ∧
          ∃ r, (t.Attribute, r) ∈ ratiosOf st.rates st.books st.attrValues ∧
            F64.gt r (F64.fin 0) ∧
            ∀ e ∈ ratiosOf st.rates st.books st.attrValues, ¬ F64.gt e.2 r) := by
  obtain ⟨t, s, h, _, _⟩ := BuildTreeFuelWith_returns ratiosOf major
    (fun r b D key hk => (hkeys r b D key).mp hk) (st.attrValues.len + 1) st
    (Nat.lt_succ_self _)
  refine ⟨t, s, h, ?_⟩
  obtain ⟨h1, h2⟩ := GetBest_foldl_max (ratiosOf st.rates st.books st.attrValues)
    ("", F64.fin 0)
  by_cases hg : F64.eq (GetBest (ratiosOf st.rates st.books st.attrValues)).2 (F64.fin 0)
  · have h' := h
    rw [BuildTreeFuelWith_leaf _ _ _ st hg] at h'
    simp only [Option.some.injEq, Prod.mk.injEq] at h'
    have hl : t.IsLeaf = true := by rw [← h'.1]; rfl
    have hc : t.Classification = major (st.rates.map Prod.snd) := by rw [← h'.1]; rfl
    have hz := (F64.eq_zero_iff _).mp hg
    have hnone : ∀ e ∈ ratiosOf st.rates st.books st.attrValues,
        ¬ F64.gt e.2 (F64.fin 0) := by
      intro e he
      have := h2 e he
      unfold GetBest at hz
      rw [hz] at this
      exact this
    refine ⟨⟨fun _ => hnone, fun _ => hl⟩, fun _ => ?_, fun hf => ?_⟩
    · refine ⟨GetBest_of_not_gt _ hnone, hc, fun hnil => ?_, fun hne => ?_⟩
      · obtain ⟨it, hp, hm⟩ := hmajor (st.rates.map Prod.snd)
        rw [hc, hm]
        have : it = [] := by
          rw [hnil] at hp
          exact List.Perm.eq_nil hp
        rw [this]
        rfl
      · obtain ⟨it, hp, hm⟩ := hmajor (st.rates.map Prod.snd)
        rw [hc, hm]
        exact majorityOver_most_frequent _ (by simpa using hne) it hp
    · rw [hl] at hf; exact absurd hf (by decide)
  · have hn := h
    rw [BuildTreeFuelWith_node _ _ _ st hg] at hn
    obtain ⟨children, ht, _, _, _⟩ := buildChildren_inv
      (BuildTreeFuelWith ratiosOf major st.attrValues.len) _
      (fun _ => True) (fun _ => True) (fun _ _ _ _ _ _ => ⟨trivial, trivial⟩)
      _ _ _ _ _ _ _ _ trivial hn
    have hl : t.IsLeaf = false := by rw [ht]; rfl
    have hattr : t.Attribute = (GetBest (ratiosOf st.rates st.books st.attrValues)).1 := by
      rw [ht]; rfl
    have hmem : GetBest (ratiosOf st.rates st.books st.attrValues) ∈
          ratiosOf st.rates st.books st.attrValues ∧
        F64.gt (GetBest (ratiosOf st.rates st.books st.attrValues)).2 (F64.fin 0) := by
      rcases h1 with h1 | h1
      · exfalso; apply hg; unfold GetBest; rw [h1]; simp
      · exact h1
    refine ⟨⟨fun ht' => ?_, fun hall => ?_⟩, fun ht' => ?_, fun _ => ?_⟩
    · rw [hl] at ht'; exact absurd ht' (by decide)
    · exact absurd hmem.2 (hall _ hmem.1)
    · rw [hl] at ht'; exact absurd ht' (by decide)
    · rw [hattr]
      exact ⟨(hkeys _ _ _ _).mp (List.mem_map_of_mem Prod.fst hmem.1),
        (GetBest (ratiosOf st.rates st.books st.attrValues)).2, hmem.1, hmem.2, h2⟩

theorem nineBooks_binary64_ratios :
    Binary64.CalculateGainRatios nineBooks.rates nineBooks.books nineBooks.attrValues =
      [("x", B64.fin (2452150745085087 / 2 ^ 103))] := by decide!

/-- In exact arithmetic the attribute `x` of `nineBooks` has gain ratio 0. -/
theorem nineBooks_ratio :
    ratioOf nineBooks.rates nineBooks.books nineBooks.attrValues "x" = F64.fin 0 := by
  have s1 : Split "x" nineBooks.rates nineBooks.books "a" =
      ([(1, ⟨[("x", "a")]⟩), (2, ⟨[("x", "a")]⟩), (3, ⟨[("x", "a")]⟩)], [1, 2, 3]) := by
    decide
  have s2 : Split "x" nineBooks.rates nineBooks.books "b" =
      ([(4, ⟨[("x", "b")]⟩), (5, ⟨[("x", "b")]⟩), (6, ⟨[("x", "b")]⟩), (7, ⟨[("x", "b")]⟩),
        (8, ⟨[("x", "b")]⟩), (9, ⟨[("x", "b")]⟩)], [1, 2, 3, 1, 2, 3]) := by decide
  have hl : List.map Prod.snd nineBooks.rates = [1, 2, 3, 1, 2, 3, 1, 2, 3] := by decide
  have e9 : InfoD [1, 2, 3, 1, 2, 3, 1, 2, 3] = F64.fin (Real.logb 2 3) := by
    have := InfoD_uniform [1, 2, 3, 1, 2, 3, 1, 2, 3] 3 3 (by decide) (by decide) (by decide)
      (by decide)
    simpa using this
  have e6 : InfoD [1, 2, 3, 1, 2, 3] = F64.fin (Real.logb 2 3) := by
    have := InfoD_uniform [1, 2, 3, 1, 2, 3] 3 2 (by decide) (by decide) (by decide)
      (by decide)
    simpa using this
  have e3 : InfoD [1, 2, 3] = F64.fin (Real.logb 2 3) := by
    have := InfoD_uniform [1, 2, 3] 3 1 (by decide) (by decide) (by decide) (by decide)
    simpa using this
  have hr : List.length nineBooks.rates = 9 := rfl
  have hv : GoMap.getD nineBooks.attrValues "x" [] = ["a", "b"] := by decide
  have hg : gainOf nineBooks.rates nineBooks.books nineBooks.attrValues "x" = F64.fin 0 := by
    simp only [gainOf, hv, hl, e9, InfoAD, List.foldl_cons, List.foldl_nil, s1, s2, e6, e3,
      GoMap.len, hr, List.length_cons, List.length_nil, F64.ofInt_eq]
    rw [F64.div_fin (by norm_num), F64.div_fin (by norm_num)]
    simp only [F64.mul_fin, F64.add_fin, F64.sub_fin]
    congr 1
    push_cast
    ring
  have hs : ∃ s : ℝ,
      splitInfoOf nineBooks.rates nineBooks.books nineBooks.attrValues "x" = F64.fin s := by
    simp only [splitInfoOf, hv, SplitInfoAD, List.foldl_cons, List.foldl_nil, s1, s2,
      GoMap.len, hr, List.length_cons, List.length_nil, F64.ofInt_eq]
    rw [F64.div_fin (by norm_num), F64.div_fin (by norm_num),
      F64.log2_fin (by norm_num), F64.log2_fin (by norm_num)]
    simp only [F64.mul_fin, F64.sub_fin]
    exact ⟨_, rfl⟩
  obtain ⟨s, hs⟩ := hs
  unfold ratioOf
  rw [hs, hg]
  by_cases h0 : s = 0
  · simp [h0]
  · simp [h0, F64.div_fin]

/-- Instances of the leaf theorem (C12).  On `twoBooks` the gain ratio of `genre` is 1 and
the call returns the internal node on `genre`.  On `nineBooks` the gain ratio of `x` is 0
in exact arithmetic, and with that value the call returns a leaf labelled with one of the
three equally frequent labels; in binary64 arithmetic the gain ratio of `x` is computed
as `2452150745085087 · 2⁻¹⁰³ > 0`, and with that value the call returns an internal node
on `x`. -/
theorem BuildTree_leaf_iff_witness :
    (∃ t s, BuildTree twoBooks = some (t, s) ∧ t.IsLeaf = false ∧ t.Attribute = "genre") ∧
      (∃ t s, BuildTree nineBooks = some (t, s) ∧ t.IsLeaf = true ∧
        t.Classification ∈ ([1, 2, 3] : List Int)) ∧
      (∃ t s, BuildTreeWith Binary64.ratios majorityClass nineBooks = some (t, s) ∧
        t.IsLeaf = false ∧ t.Attribute = "x") := by
  have hmaj : ∀ labels, ∃ it : List (Int × Int),
      it.Perm (countLabels labels) ∧ majorityClass labels = majorityOver it :=
    fun labels => ⟨countLabels labels, List.Perm.refl _, rfl⟩
  refine ⟨?_, ?_, ?_⟩
  · obtain ⟨t, s, h, hiff, _, hnode⟩ := BuildTree_leaf_iff CalculateGainRatios majorityClass
      CalculateGainRatios_keys hmaj twoBooks
    rw [BuildTreeWith_eq] at h
    have hl : t.IsLeaf = false := by
      cases hb : t.IsLeaf with
      | false => rfl
      | true =>
        have := hiff.mp hb ("genre", F64.fin 1) (by rw [twoBooks_ratios]; simp)
        simp at this
    have ha := (hnode hl).1
    exact ⟨t, s, h, hl, by simpa [twoBooks, GoMap.keys] using ha⟩
  · obtain ⟨t, s, h, hiff, hleaf, _⟩ := BuildTree_leaf_iff CalculateGainRatios majorityClass
      CalculateGainRatios_keys hmaj nineBooks
    rw [BuildTreeWith_eq] at h
    have hl : t.IsLeaf = true := by
      apply hiff.mpr
      intro e he
      obtain ⟨hk, hr⟩ := CalculateGainRatios_entry _ _ _ he
      have hx : e.1 = "x" := by simpa [nineBooks, GoMap.keys] using hk
      rw [hr, hx, nineBooks_ratio]
      simp
    obtain ⟨_, _, _, hmost⟩ := hleaf hl
    have hmem := (hmost (by decide)).1
    refine ⟨t, s, h, hl, ?_⟩
    have hsub : ∀ x ∈ nineBooks.rates.map Prod.snd, x ∈ ([1, 2, 3] : List Int) := by decide
    exact hsub _ hmem
  · obtain ⟨t, s, h, hiff, _, hnode⟩ := BuildTree_leaf_iff Binary64.ratios majorityClass
      Binary64.ratios_keys hmaj nineBooks
    have hl : t.IsLeaf = false := by
      cases hb : t.IsLeaf with
      | false => rfl
      | true =>
        have := hiff.mp hb
          ("x", F64.fin (((2452150745085087 / 2 ^ 103 : ℚ)) : ℝ))
          (by simp [Binary64.ratios, nineBooks_binary64_ratios, B64.toF64])
        exfalso
        apply this
        simp only [F64.gt_fin]
        exact_mod_cast (by norm_num : (0 : ℚ) < 2452150745085087 / 2 ^ 103)
    have ha := (hnode hl).1
    exact ⟨t, s, h, hl, by simpa [nineBooks, GoMap.keys] using ha⟩

end Classification
